import Mathlib

/-!
# merge_reader.hpp : a k-way merge reader

Shallow embedding of `src/merge_reader.hpp`.

* A pointer `Block*` is an `Option Nat`: `none` is the null pointer, `some p` is the
  address `p` of a heap cell.  The heap is the field `heap : Nat → Block` of the reader.
* An input stream `std::istream*` is the list of blocks that remain to be read from it.
  `stream >> cell` on a non-empty list removes the first block, stores it in the cell and
  leaves the stream `good()`; on an empty list it leaves the cell as it is and the stream
  is not `good()`.
* `std::multimap<Block*, int, BlockCompare>` is the list of its entries in iteration
  order.  `insert` places the new entry at the upper bound of its key (in front of the
  first entry whose key is greater, found by a scan from `begin()`), `erase(begin())`
  removes the first entry.  Keys are compared through the pointers, on the current
  contents of the heap.
* `BlockCompare` is given by its action `cmp` on the two blocks pointed to.
* `int` indices are natural numbers (they are never negative), and the 64-bit counter
  `_count` is an unbounded natural number.
-/

namespace MergeReaderHpp

/-! ## Allocators -/

/-- The interface that `MergeReader` uses of its template parameter `BlockAllocator`:
the constructor from a size, `allocate` (the address handed out and the new allocator
state) and `free`. -/
class BlockAllocator (A : Type) where
  create : Nat → A
  allocate : A → Nat × A
  free : A → Nat → A

/-- State of `LoopAllocator<T>`: `_size` and `_pos` (both `uint32_t`).  The cell
`_pointer_array[k]` is the heap cell of address `k`: the constructor fills the array
with `_size` distinct cells. -/
structure LoopAllocator where
  _size : Nat
  _pos : Nat
deriving DecidableEq

/-- Constructor `LoopAllocator(uint32_t size) : _size(size*2), _pos(0)`. -/
def LoopAllocator.create (size : Nat) : LoopAllocator :=
  { _size := (size * 2) % 2 ^ 32, _pos := 0 }

/-- Member `LoopAllocator::allocate`: `T* tmp = _pointer_array[_pos++]; _pos = _pos % _size;
return tmp;`.  (With `_size = 0` the C++ code divides by zero; here `%` then returns its
left argument.) -/
def LoopAllocator.allocate (a : LoopAllocator) : Nat × LoopAllocator :=
  (a._pos, { a with _pos := ((a._pos + 1) % 2 ^ 32) % a._size })

/-- Member `LoopAllocator::free(T*)`: `return;`. -/
def LoopAllocator.free (a : LoopAllocator) (_p : Nat) : LoopAllocator := a

instance : BlockAllocator LoopAllocator where
  create := LoopAllocator.create
  allocate := LoopAllocator.allocate
  free := LoopAllocator.free

/-- The struct `NewAllocator<T>` has no member; its state here is the book-keeping of the C++ heap:
`next` is the number of `new T()` executed so far, which is also the address of the next
fresh cell, and `freed` lists the addresses passed to `delete`, latest first. -/
structure NewAllocator where
  next : Nat
  freed : List Nat
deriving DecidableEq

/-- Constructor `NewAllocator(uint32_t size) {}`. -/
def NewAllocator.create (_size : Nat) : NewAllocator :=
  { next := 0, freed := [] }

/-- Member `NewAllocator::allocate`: `return new T();`, a cell that was never handed out. -/
def NewAllocator.allocate (a : NewAllocator) : Nat × NewAllocator :=
  (a.next, { a with next := a.next + 1 })

/-- Member `NewAllocator::free(T* pointer)`: `delete pointer;`. -/
def NewAllocator.free (a : NewAllocator) (p : Nat) : NewAllocator :=
  { a with freed := p :: a.freed }

instance : BlockAllocator NewAllocator where
  create := NewAllocator.create
  allocate := NewAllocator.allocate
  free := NewAllocator.free

/-! ## The reader -/

/-- The members of `MergeReader<Block, BlockCompare, BlockAllocator>`, and the heap. -/
structure MergeReader (Block : Type) (A : Type) where
  _allocator : A
  _count : Nat
  _nb_files : Nat
  _files : List (List Block)
  _read_buf : List (Option Nat)
  _map : List (Nat × Nat)
  _map_iter : Option (Nat × Nat)
  _idx : Nat
  heap : Nat → Block

variable {Block A : Type}

/-- Model of `std::multimap::insert`: the entry `e` goes in front of the first entry whose key is
greater than the key of `e`, so after all entries whose key is not greater. -/
def map_insert (cmp : Block → Block → Bool) (heap : Nat → Block) (e : Nat × Nat) :
    List (Nat × Nat) → List (Nat × Nat)
  | [] => [e]
  | x :: xs =>
    if cmp (heap e.1) (heap x.1) then e :: x :: xs
    else x :: map_insert cmp heap e xs

/-- Member `MergeReader::init`. -/
def init (s : MergeReader Block A) : MergeReader Block A :=
  { s with
    _count := 0
    _files := List.replicate s._nb_files []
    _read_buf := List.replicate s._nb_files none }

/-- Member `MergeReader::buffurize`: a cell is allocated for slot `_idx` and the next block of
file `_idx` is read into it; when the stream is not `good()` after the read, the cell is
passed to `free` and the slot is set to null. -/
def buffurize [BlockAllocator A] (s : MergeReader Block A) : MergeReader Block A :=
  let r := BlockAllocator.allocate s._allocator
  let s1 := { s with _allocator := r.2, _read_buf := s._read_buf.set s._idx (some r.1) }
  match s1._files.getD s1._idx [] with
  | b :: rest =>
    { s1 with
      _files := s1._files.set s1._idx rest
      heap := fun q => if q = r.1 then b else s1.heap q }
  | [] =>
    { s1 with
      _allocator := BlockAllocator.free s1._allocator r.1
      _read_buf := s1._read_buf.set s1._idx none }

/-- Member `MergeReader::load_block`: `buffurize()`, then the pair `(_read_buf[_idx], _idx)` is
inserted in `_map` when the slot is not null. -/
def load_block [BlockAllocator A] (cmp : Block → Block → Bool) (s : MergeReader Block A) :
    MergeReader Block A :=
  let s1 := buffurize s
  match s1._read_buf.getD s1._idx none with
  | some p => { s1 with _map := map_insert cmp s1.heap (p, s1._idx) s1._map }
  | none => s1

/-- The loop of the constructors, `for (_idx = 0; _idx < _nb_files; _idx++)`, run over the
file names in order: file `_idx` is opened, then `load_block()`. -/
def ctor_loop [BlockAllocator A] (cmp : Block → Block → Bool) :
    List (List Block) → MergeReader Block A → MergeReader Block A
  | [], s => s
  | f :: rest, s =>
    let s1 := { s with _files := s._files.set s._idx f }
    let s2 := load_block cmp s1
    ctor_loop cmp rest { s2 with _idx := s2._idx + 1 }

/-- Constructor `MergeReader::MergeReader(std::vector<std::string> filenames)`; each file name stands
for the list of blocks that the file holds. -/
def construct [BlockAllocator A] [Inhabited Block] (cmp : Block → Block → Bool)
    (filenames : List (List Block)) : MergeReader Block A :=
  let s0 : MergeReader Block A :=
    { _allocator := BlockAllocator.create filenames.length
      _count := 0
      _nb_files := filenames.length
      _files := []
      _read_buf := []
      _map := []
      _map_iter := none
      _idx := 0
      heap := fun _ => default }
  ctor_loop cmp filenames { init s0 with _idx := 0 }

/-- Member `MergeReader::count`. -/
def count (s : MergeReader Block A) : Nat := s._count

/-- Member `Block* MergeReader::get_next(int* idx)`.  The argument `idx` is `none` for a null
pointer and `some v` for a pointer to an `int` that holds `v`; the result is the returned
pointer, the `int` after the call, and the reader after the call. -/
def get_next [BlockAllocator A] (cmp : Block → Block → Bool) (s : MergeReader Block A)
    (idx : Option Nat) : Option Nat × Option Nat × MergeReader Block A :=
  let s1 := { s with _map_iter := s._map.head? }
  match s1._map_iter with
  | none => (none, idx, s1)
  | some e =>
    let s2 := { s1 with _idx := e.2 }
    let tmp := s2._read_buf.getD s2._idx none
    let s3 := { s2 with _map := s2._map.tail }
    let idx1 := idx.map fun _ => s3._idx
    let s4 := load_block cmp s3
    (tmp, idx1, { s4 with _count := s4._count + 1 })

/-- Member `bool MergeReader::get_next(Block& block, int* idx)`.  The argument `block` is the
value of the caller's block before the call; the result is the returned flag, the
caller's block and `int` after the call, and the reader after the call. -/
def get_next_block [BlockAllocator A] (cmp : Block → Block → Bool) (s : MergeReader Block A)
    (block : Block) (idx : Option Nat) : Bool × Block × Option Nat × MergeReader Block A :=
  let r := get_next cmp s idx
  match r.1 with
  | none => (false, block, r.2.1, r.2.2)
  | some tmp =>
    (true, r.2.2.heap tmp, r.2.1,
      { r.2.2 with _allocator := BlockAllocator.free r.2.2._allocator tmp })

/-- Member `Block* MergeReader::see_next()`: the returned pointer and the reader after the
call. -/
def see_next (s : MergeReader Block A) : Option Nat × MergeReader Block A :=
  let s1 := { s with _map_iter := s._map.head? }
  match s1._map_iter with
  | none => (none, s1)
  | some e => (some e.1, s1)

/-- The caller's loop `while (reader.get_next(block, &idx)) out.push_back({block, idx});`
run for at most `fuel` calls: `some (out, s)` when a call returned `false` within `fuel`
calls, with the pairs `out` written by the calls before it and the reader `s` after it. -/
def drain [BlockAllocator A] (cmp : Block → Block → Bool) :
    Nat → MergeReader Block A → Block → Nat →
      Option (List (Block × Nat) × MergeReader Block A)
  | 0, _, _, _ => none
  | fuel + 1, s, block, idx =>
    let r := get_next_block cmp s block (some idx)
    if r.1 then
      (drain cmp fuel r.2.2.2 r.2.1 (r.2.2.1.getD idx)).map
        fun res => ((r.2.1, r.2.2.1.getD idx) :: res.1, res.2)
    else some ([], r.2.2.2)

/-- The comparator `Less<T>` on natural-number blocks: `*s1 < *s2`. -/
def Less (a b : Nat) : Bool := decide (a < b)

/-- The states of a reader that a caller can reach: the constructor, followed by any
number of calls of `get_next` (either overload) and `see_next`. -/
inductive Reachable [BlockAllocator A] [Inhabited Block] (cmp : Block → Block → Bool) :
    MergeReader Block A → Prop
  | construct (filenames : List (List Block)) : Reachable cmp (construct cmp filenames)
  | get_next (s : MergeReader Block A) (idx : Option Nat) :
      Reachable cmp s → Reachable cmp (get_next cmp s idx).2.2
  | get_next_block (s : MergeReader Block A) (block : Block) (idx : Option Nat) :
      Reachable cmp s → Reachable cmp (get_next_block cmp s block idx).2.2.2
  | see_next (s : MergeReader Block A) : Reachable cmp s → Reachable cmp (see_next s).2

/-- The reader after `k` calls of `see_next()` in a row. -/
def see_next_iter : Nat → MergeReader Block A → MergeReader Block A
  | 0, s => s
  | k + 1, s => see_next_iter k (see_next s).2

/-- The entries of `_map` and the slots of `_read_buf` agree: the entries have pairwise
different indices, and the entry of index `i` has the pointer of slot `i` for its key. -/
def MapBuf (s : MergeReader Block A) : Prop :=
  (s._map.map Prod.snd).Nodup ∧ ∀ e ∈ s._map, s._read_buf.getD e.2 none = some e.1

/-! ## Specification vocabulary and the merge on values -/

/-- The requirement on `BlockCompare`: a strict weak order (irreflexive, transitive, and
with a transitive incomparability). -/
structure StrictWeakOrder (cmp : Block → Block → Bool) : Prop where
  irrefl : ∀ a, cmp a a = false
  trans : ∀ a b c, cmp a b = true → cmp b c = true → cmp a c = true
  incomp_trans : ∀ a b c, cmp a b = false → cmp b a = false → cmp b c = false →
    cmp c b = false → cmp a c = false ∧ cmp c a = false

/-- A list of blocks is sorted ascending: no block is strictly less than its
predecessor. -/
def Ascending (cmp : Block → Block → Bool) (l : List Block) : Prop :=
  List.Chain' (fun a b => cmp b a = false) l

/-- The entries of `_map` read through the heap: the buffered block and the source index
of each entry, in iteration order. -/
def heads (s : MergeReader Block A) : List (Block × Nat) :=
  s._map.map fun e => (s.heap e.1, e.2)

/-- The function `map_insert` on entries that carry the block value instead of a pointer
to it. -/
def ins (cmp : Block → Block → Bool) (e : Block × Nat) :
    List (Block × Nat) → List (Block × Nat)
  | [] => [e]
  | x :: xs => if cmp e.1 x.1 then e :: x :: xs else x :: ins cmp e xs

/-- The entries after a refill of slot `i`: the next block of file `i`, if there is one,
is inserted. -/
def refillH (cmp : Block → Block → Bool) (i : Nat) (H : List (Block × Nat))
    (F : List (List Block)) : List (Block × Nat) :=
  match F.getD i [] with
  | b :: _ => ins cmp (b, i) H
  | [] => H

/-- The files after a refill of slot `i`: file `i` has lost its first block, if it had
one. -/
def refillF (i : Nat) (F : List (List Block)) : List (List Block) :=
  match F.getD i [] with
  | _ :: r => F.set i r
  | [] => F

/-- The extraction loop on the values: the first entry is emitted and its slot is
refilled, until no entry is left; at most `fuel` rounds. -/
def amerge (cmp : Block → Block → Bool) :
    Nat → List (Block × Nat) → List (List Block) → Option (List (Block × Nat))
  | 0, _, _ => none
  | _ + 1, [], _ => some []
  | fuel + 1, e :: H, F =>
    (amerge cmp fuel (refillH cmp e.2 H F) (refillF e.2 F)).map fun out => e :: out

/-- The constructor loop on the values, from index `k` on. -/
def actor (cmp : Block → Block → Bool) :
    List (List Block) → Nat → List (Block × Nat) → List (List Block) →
      List (Block × Nat) × List (List Block)
  | [], _, H, F => (H, F)
  | f :: rest, k, H, F =>
    actor cmp rest (k + 1) (refillH cmp k H (F.set k f)) (refillF k (F.set k f))

/-- The blocks of source `i` that are not emitted yet: the buffered one, then the ones
still in the file. -/
def content (H : List (Block × Nat)) (F : List (List Block)) (i : Nat) : List Block :=
  (H.filter fun e => decide (e.2 = i)).map Prod.fst ++ F.getD i []

/-- Every index has at most one entry, and a file without an entry is at its end. -/
def WF (H : List (Block × Nat)) (F : List (List Block)) : Prop :=
  (H.map Prod.snd).Nodup ∧ ∀ i, i ∉ H.map Prod.snd → F.getD i [] = []

/-- Source `i` is non-empty and no source has a first block that is strictly less than
the first block of source `i`. -/
def MinimalAt (cmp : Block → Block → Bool) (sources : List (List Block)) (i : Nat) : Prop :=
  ∃ b, (sources.getD i []).head? = some b ∧
    ∀ j b1, (sources.getD j []).head? = some b1 → cmp b1 b = false

/-- What the first extraction after the constructor over `sources` has to give, for its
return flag `ret` (a block was returned) and the index `reported` it wrote: no block when
every source is empty; otherwise a block, with the smallest index at which `MinimalAt`
holds. -/
def ReportsLeastMinimal (cmp : Block → Block → Bool) (sources : List (List Block))
    (ret : Bool) (reported : Option Nat) : Prop :=
  ((∀ j, sources.getD j [] = []) → ret = false) ∧
  ((∃ j, sources.getD j [] ≠ []) →
    ret = true ∧ ∃ i, reported = some i ∧
      MinimalAt cmp sources i ∧ ∀ j, MinimalAt cmp sources j → i ≤ j)

/-- The entries are sorted, and of two entries with equivalent keys the one in front has
the smaller index. -/
def Stable (cmp : Block → Block → Bool) (H : List (Block × Nat)) : Prop :=
  H.Pairwise fun a b => cmp b.1 a.1 = false ∧ (cmp a.1 b.1 = false → a.2 < b.2)

/-- With `NewAllocator`, the keys of `_map` are cells that were allocated. -/
def NewInv (s : MergeReader Block NewAllocator) : Prop :=
  MapBuf s ∧ ∀ e ∈ s._map, e.1 < s._allocator.next

/-! ## Further operations and vocabulary -/

/-- Destructor `MergeReader::~MergeReader`: `delete _files[i]` for every file, then
`delete _read_buf`: the streams are closed and the array of slots is released.  It calls
no member of `_allocator`, and `NewAllocator` has no destructor of its own. -/
def destructor (s : MergeReader Block A) : MergeReader Block A :=
  { s with _files := s._files.map fun _ => [], _read_buf := [] }

/-- A sequence of calls on a `LoopAllocator`: `none` is a call of `allocate()`, `some p`
a call of `free(p)`.  The result is the allocator after the calls. -/
def LoopAllocator.run : List (Option Nat) → LoopAllocator → LoopAllocator
  | [], a => a
  | none :: ops, a => LoopAllocator.run ops (LoopAllocator.allocate a).2
  | some p :: ops, a => LoopAllocator.run ops (LoopAllocator.free a p)

/-- The number of `allocate()` calls in a sequence of calls. -/
def allocations : List (Option Nat) → Nat
  | [] => 0
  | none :: ops => allocations ops + 1
  | some _ :: ops => allocations ops

/-- The reader after `m` calls of `get_next(int*)` in a row. -/
def get_next_iter [BlockAllocator A] (cmp : Block → Block → Bool) :
    Nat → MergeReader Block A → MergeReader Block A
  | 0, s => s
  | m + 1, s => get_next_iter cmp m (get_next cmp s none).2.2

/-- The number of slots of `_read_buf` that hold a buffered block (are not null). -/
def buffered (s : MergeReader Block A) : Nat :=
  (s._read_buf.filter Option.isSome).length

/-- The states reached by the constructor followed by calls of `get_next(Block&, int*)`
(and of `see_next`) only. -/
inductive ReachableInto [BlockAllocator A] [Inhabited Block] (cmp : Block → Block → Bool) :
    MergeReader Block A → Prop
  | construct (filenames : List (List Block)) : ReachableInto cmp (construct cmp filenames)
  | get_next_block (s : MergeReader Block A) (block : Block) (idx : Option Nat) :
      ReachableInto cmp s → ReachableInto cmp (get_next_block cmp s block idx).2.2.2
  | see_next (s : MergeReader Block A) :
      ReachableInto cmp s → ReachableInto cmp (see_next s).2

/-- The reachable states of a reader over `sources`, with the list of what the calls so
far have emitted: for each call that returned a block, the block (the value behind the
returned pointer when the call returns, or the copy written to the caller's block) and
the index that the call reports (the member `_idx`, which the call writes to `*idx`). -/
inductive Trace [BlockAllocator A] [Inhabited Block] (cmp : Block → Block → Bool)
    (sources : List (List Block)) : List (Block × Nat) → MergeReader Block A → Prop
  | construct : Trace cmp sources [] (construct cmp sources)
  | see_next (out : List (Block × Nat)) (s : MergeReader Block A) :
      Trace cmp sources out s → Trace cmp sources out (see_next s).2
  | get_next_null (out : List (Block × Nat)) (s : MergeReader Block A) (idx : Option Nat) :
      Trace cmp sources out s → (get_next cmp s idx).1 = none →
      Trace cmp sources out (get_next cmp s idx).2.2
  | get_next (out : List (Block × Nat)) (s : MergeReader Block A) (idx : Option Nat)
      (p : Nat) :
      Trace cmp sources out s → (get_next cmp s idx).1 = some p →
      Trace cmp sources
        (out ++ [((get_next cmp s idx).2.2.heap p, (get_next cmp s idx).2.2._idx)])
        (get_next cmp s idx).2.2
  | get_next_block_false (out : List (Block × Nat)) (s : MergeReader Block A)
      (block : Block) (idx : Option Nat) :
      Trace cmp sources out s → (get_next_block cmp s block idx).1 = false →
      Trace cmp sources out (get_next_block cmp s block idx).2.2.2
  | get_next_block (out : List (Block × Nat)) (s : MergeReader Block A)
      (block : Block) (idx : Option Nat) :
      Trace cmp sources out s → (get_next_block cmp s block idx).1 = true →
      Trace cmp sources
        (out ++ [((get_next_block cmp s block idx).2.1,
          (get_next_block cmp s block idx).2.2.2._idx)])
        (get_next_block cmp s block idx).2.2.2

/-- The blocks of source `i` that `out` lists as emitted, in order. -/
def emittedOf (out : List (Block × Nat)) (i : Nat) : List Block :=
  (out.filter fun e => decide (e.2 = i)).map Prod.fst

/-- After the emissions `out`, block `b` is the first block of source `i` that is not
emitted yet, `rest` are the blocks of source `i` after it, and no source has a first
not yet emitted block that is strictly less than `b`. -/
def MinimalHead (cmp : Block → Block → Bool) (sources : List (List Block))
    (out : List (Block × Nat)) (i : Nat) (b : Block) (rest : List Block) : Prop :=
  sources.getD i [] = emittedOf out i ++ b :: rest ∧
  ∀ j b1 rest1, sources.getD j [] = emittedOf out j ++ b1 :: rest1 → cmp b1 b = false

/-- Slot `i` of the reader buffers the first block of `rest`, or is null when `rest` is
empty. -/
def SlotBuffers (s : MergeReader Block A) (i : Nat) (rest : List Block) : Prop :=
  match rest with
  | [] => s._read_buf.getD i none = none
  | b2 :: _ => ∃ p, s._read_buf.getD i none = some p ∧ s.heap p = b2

/-- The indices reported when two sources take turns, starting with source `i`, which
has `m` blocks left, while the other source `j` has `n` blocks left: `i, j, i, j, ...`
until one of them is at its end, then the index of the other one. -/
def altIdx (i j : Nat) : Nat → Nat → List Nat
  | 0, n => List.replicate n j
  | m + 1, 0 => List.replicate (m + 1) i
  | m + 1, n + 1 => i :: j :: altIdx i j m n

/-- The slots and the entries agree in the other direction too: a slot that is not null
has its entry in `_map`.  Moreover a file without an entry is at its end, and
`_read_buf` has `_nb_files` slots. -/
def SlotInv (s : MergeReader Block A) : Prop :=
  (∀ i p, s._read_buf.getD i none = some p → (p, i) ∈ s._map) ∧
  (∀ i, i ∉ s._map.map Prod.snd → s._files.getD i [] = []) ∧
  s._read_buf.length = s._nb_files

/-- The ring of a `LoopAllocator` in a reader over `_nb_files` sources: `2 * _nb_files`
cells, and a position inside the ring. -/
def LoopInv (s : MergeReader Block LoopAllocator) : Prop :=
  s._allocator._size = 2 * s._nb_files ∧ s._allocator._pos < s._allocator._size

/-- The book-keeping of the heap with `NewAllocator`: no cell is freed twice, only
allocated cells are freed, the buffered cells are pairwise different and not freed, and
every allocated cell is either freed or buffered. -/
def BalInv (s : MergeReader Block NewAllocator) : Prop :=
  s._allocator.freed.Nodup ∧ (∀ p ∈ s._allocator.freed, p < s._allocator.next) ∧
  (∀ e ∈ s._map, e.1 ∉ s._allocator.freed) ∧ (s._map.map Prod.fst).Nodup ∧
  s._allocator.next = s._allocator.freed.length + s._map.length

/-! ## Basic facts on the operations -/

theorem map_insert_perm (cmp : Block → Block → Bool) (heap : Nat → Block) (e : Nat × Nat)
    (l : List (Nat × Nat)) : (map_insert cmp heap e l).Perm (e :: l) := by
  induction l with
  | nil => exact List.Perm.refl _
  | cons x xs ih =>
    unfold map_insert
    split
    · exact List.Perm.refl _
    · exact (List.Perm.cons x ih).trans (List.Perm.swap e x xs)

section buffurize
variable [BlockAllocator A]

@[simp] theorem buffurize_map (s : MergeReader Block A) : (buffurize s)._map = s._map := by
  unfold buffurize; dsimp only; split <;> rfl

@[simp] theorem buffurize_idx (s : MergeReader Block A) : (buffurize s)._idx = s._idx := by
  unfold buffurize; dsimp only; split <;> rfl

@[simp] theorem buffurize_count (s : MergeReader Block A) :
    (buffurize s)._count = s._count := by
  unfold buffurize; dsimp only; split <;> rfl

theorem buffurize_read_buf_ne (s : MergeReader Block A) (j : Nat) (h : j ≠ s._idx) :
    (buffurize s)._read_buf.getD j none = s._read_buf.getD j none := by
  have h2 : s._idx ≠ j := fun e => h e.symm
  unfold buffurize; dsimp only
  split <;> simp [List.getD_eq_getElem?_getD, List.getElem?_set_ne, h2]

@[simp] theorem load_block_idx (cmp : Block → Block → Bool) (s : MergeReader Block A) :
    (load_block cmp s)._idx = s._idx := by
  unfold load_block; dsimp only; split <;> simp

@[simp] theorem load_block_count (cmp : Block → Block → Bool) (s : MergeReader Block A) :
    (load_block cmp s)._count = s._count := by
  unfold load_block; dsimp only; split <;> simp

theorem load_block_read_buf_ne (cmp : Block → Block → Bool) (s : MergeReader Block A)
    (j : Nat) (h : j ≠ s._idx) :
    (load_block cmp s)._read_buf.getD j none = s._read_buf.getD j none := by
  unfold load_block; dsimp only
  split <;> exact buffurize_read_buf_ne s j h

theorem load_block_mapBuf (cmp : Block → Block → Bool) (s : MergeReader Block A)
    (hs : MapBuf s) (hi : s._idx ∉ s._map.map Prod.snd) : MapBuf (load_block cmp s) := by
  have hne : ∀ e ∈ s._map, e.2 ≠ s._idx := fun e he h =>
    hi (h ▸ List.mem_map_of_mem Prod.snd he)
  unfold load_block; dsimp only
  split
  · rename_i p hp
    have hperm := map_insert_perm cmp (buffurize s).heap (p, (buffurize s)._idx) s._map
    constructor
    · rw [buffurize_map, (hperm.map Prod.snd).nodup_iff]
      simpa using ⟨by simpa using hi, hs.1⟩
    · intro e he
      rw [buffurize_map] at he
      rcases List.mem_cons.1 (hperm.mem_iff.1 he) with rfl | he
      · exact hp
      · dsimp only
        rw [buffurize_read_buf_ne s _ (hne e he)]
        exact hs.2 e he
  · constructor
    · simpa using hs.1
    · intro e he
      rw [buffurize_map] at he
      rw [buffurize_read_buf_ne s _ (hne e he)]
      exact hs.2 e he

end buffurize

theorem see_next_state (s : MergeReader Block A) :
    (see_next s).2 = { s with _map_iter := s._map.head? } := by
  unfold see_next; dsimp only
  split <;> rfl

theorem see_next_iter_state (k : Nat) (s : MergeReader Block A) :
    see_next_iter k s = s ∨ see_next_iter k s = { s with _map_iter := s._map.head? } := by
  induction k generalizing s with
  | zero => exact Or.inl rfl
  | succ k ih =>
    unfold see_next_iter
    rw [see_next_state]
    rcases ih { s with _map_iter := s._map.head? } with h | h
    · exact Or.inr h
    · exact Or.inr h

section reachable
variable [BlockAllocator A]

theorem load_block_map_mem (cmp : Block → Block → Bool) (s : MergeReader Block A)
    (e : Nat × Nat) (he : e ∈ (load_block cmp s)._map) : e ∈ s._map ∨ e.2 = s._idx := by
  unfold load_block at he; dsimp only at he
  split at he
  · rw [buffurize_map, (map_insert_perm _ _ _ _).mem_iff] at he
    rcases List.mem_cons.1 he with rfl | he
    · exact Or.inr (buffurize_idx s)
    · exact Or.inl he
  · rw [buffurize_map] at he
    exact Or.inl he

theorem ctor_loop_mapBuf (cmp : Block → Block → Bool) (fs : List (List Block)) :
    ∀ s : MergeReader Block A, MapBuf s → (∀ e ∈ s._map, e.2 < s._idx) →
      MapBuf (ctor_loop cmp fs s) := by
  induction fs with
  | nil => intro s hs _; exact hs
  | cons f rest ih =>
    intro s hs hlt
    unfold ctor_loop; dsimp only
    apply ih
    · refine load_block_mapBuf cmp { s with _files := s._files.set s._idx f } hs ?_
      intro hmem
      obtain ⟨e, he, hei⟩ := List.mem_map.1 hmem
      have := hlt e he
      dsimp only at hei
      omega
    · intro e he
      rcases load_block_map_mem cmp _ e he with he | he
      · have := hlt e he
        simp only [load_block_idx]
        omega
      · simp only [load_block_idx]
        dsimp only at he
        omega

theorem construct_mapBuf [Inhabited Block] (cmp : Block → Block → Bool)
    (filenames : List (List Block)) :
    MapBuf (construct cmp filenames : MergeReader Block A) := by
  unfold construct; dsimp only
  apply ctor_loop_mapBuf
  · exact ⟨List.nodup_nil, fun e he => absurd he (List.not_mem_nil e)⟩
  · intro e he; exact absurd he (List.not_mem_nil e)

theorem get_next_mapBuf (cmp : Block → Block → Bool) (s : MergeReader Block A)
    (idx : Option Nat) (hs : MapBuf s) : MapBuf (get_next cmp s idx).2.2 := by
  unfold get_next; dsimp only
  cases hm : s._map with
  | nil => dsimp only [List.head?]; rw [← hm]; exact hs
  | cons e t =>
    dsimp only [List.head?, List.tail]
    have h1 := hs.1
    have h2 := hs.2
    rw [hm] at h1 h2
    rw [List.map_cons, List.nodup_cons] at h1
    exact load_block_mapBuf cmp
      { s with _map_iter := some e, _idx := e.2, _map := t }
      ⟨h1.2, fun e1 he1 => h2 e1 (List.mem_cons_of_mem _ he1)⟩ h1.1

theorem get_next_block_mapBuf (cmp : Block → Block → Bool) (s : MergeReader Block A)
    (block : Block) (idx : Option Nat) (hs : MapBuf s) :
    MapBuf (get_next_block cmp s block idx).2.2.2 := by
  have h := get_next_mapBuf cmp s idx hs
  unfold get_next_block; dsimp only
  split
  · exact h
  · exact h

theorem Reachable.mapBuf [Inhabited Block] {cmp : Block → Block → Bool}
    {s : MergeReader Block A} (h : Reachable cmp s) : MapBuf s := by
  induction h with
  | construct filenames => exact construct_mapBuf cmp filenames
  | get_next s idx _ ih => exact get_next_mapBuf cmp s idx ih
  | get_next_block s block idx _ ih => exact get_next_block_mapBuf cmp s block idx ih
  | see_next s _ ih => rw [see_next_state]; exact ih

theorem ctor_loop_count (cmp : Block → Block → Bool) (fs : List (List Block)) :
    ∀ s : MergeReader Block A, (ctor_loop cmp fs s)._count = s._count := by
  induction fs with
  | nil => intro s; rfl
  | cons f rest ih =>
    intro s
    unfold ctor_loop; dsimp only
    rw [ih]
    simp only [load_block_count]

end reachable


/-! ## The merge on values -/

section values
variable (cmp : Block → Block → Bool)

theorem StrictWeakOrder.asymm {cmp : Block → Block → Bool} (h : StrictWeakOrder cmp)
    {a b : Block} (hab : cmp a b = true) : cmp b a = false := by
  cases hba : cmp b a with
  | false => rfl
  | true =>
    have := h.trans a b a hab hba
    rw [h.irrefl a] at this
    exact absurd this (by decide)

theorem StrictWeakOrder.le_trans {cmp : Block → Block → Bool} (h : StrictWeakOrder cmp)
    {a b c : Block} (hab : cmp b a = false) (hbc : cmp c b = false) : cmp c a = false := by
  cases hca : cmp c a with
  | false => rfl
  | true =>
    cases h1 : cmp a b with
    | true =>
      have := h.trans c a b hca h1
      rw [hbc] at this
      exact absurd this (by decide)
    | false =>
      cases h2 : cmp b c with
      | true =>
        have := h.trans b c a h2 hca
        rw [hab] at this
        exact absurd this (by decide)
      | false =>
        have := (h.incomp_trans a b c h1 hab h2 hbc).2
        rw [hca] at this
        exact absurd this (by decide)

theorem StrictWeakOrder.lt_of_lt_of_le {cmp : Block → Block → Bool}
    (h : StrictWeakOrder cmp) {a b c : Block} (hab : cmp a b = true)
    (hbc : cmp c b = false) : cmp a c = true := by
  cases hac : cmp a c with
  | true => rfl
  | false =>
    have := h.le_trans hbc hac
    rw [hab] at this
    exact absurd this (by decide)

theorem Ascending.pairwise {cmp : Block → Block → Bool} (h : StrictWeakOrder cmp)
    {l : List Block} (hl : Ascending cmp l) :
    l.Pairwise fun a b => cmp b a = false := by
  induction l with
  | nil => exact List.Pairwise.nil
  | cons a l ih =>
    have hl2 : Ascending cmp l := List.Chain'.tail hl
    have ih2 := ih hl2
    refine List.Pairwise.cons ?_ ih2
    cases l with
    | nil => intro x hx; exact absurd hx (List.not_mem_nil x)
    | cons b l =>
      have hl1 : List.Chain' (fun a b => cmp b a = false) (a :: b :: l) := hl
      have hab : cmp b a = false := (List.chain'_cons.1 hl1).1
      intro x hx
      rcases List.mem_cons.1 hx with rfl | hx
      · exact hab
      · exact h.le_trans hab ((List.pairwise_cons.1 ih2).1 x hx)

theorem ins_perm (e : Block × Nat) (H : List (Block × Nat)) :
    (ins cmp e H).Perm (e :: H) := by
  induction H with
  | nil => exact List.Perm.refl _
  | cons x xs ih =>
    unfold ins
    split
    · exact List.Perm.refl _
    · exact (List.Perm.cons x ih).trans (List.Perm.swap e x xs)

theorem ins_filter_ne (e : Block × Nat) (H : List (Block × Nat)) (j : Nat)
    (h : e.2 ≠ j) :
    (ins cmp e H).filter (fun x => decide (x.2 = j)) =
      H.filter (fun x => decide (x.2 = j)) := by
  induction H with
  | nil => simp [ins, h]
  | cons x xs ih =>
    unfold ins
    split
    · simp [List.filter_cons, h]
    · simp only [List.filter_cons, ih]

theorem ins_filter_eq (e : Block × Nat) (H : List (Block × Nat))
    (h : e.2 ∉ H.map Prod.snd) :
    (ins cmp e H).filter (fun x => decide (x.2 = e.2)) = [e] := by
  induction H with
  | nil => simp [ins]
  | cons x xs ih =>
    have hx : x.2 ≠ e.2 := fun hh => h (by simp [hh])
    have hxs : e.2 ∉ xs.map Prod.snd := fun hh => h (by simp at hh ⊢; exact Or.inr hh)
    unfold ins
    split
    · have : xs.filter (fun x => decide (x.2 = e.2)) = [] := by
        rw [List.filter_eq_nil_iff]
        intro y hy hy2
        exact hxs (List.mem_map.2 ⟨y, hy, by simpa using hy2⟩)
      simp [List.filter_cons, hx, this]
    · simp [List.filter_cons, hx, ih hxs]

theorem filter_eq_nil_of_not_mem (H : List (Block × Nat)) (i : Nat)
    (h : i ∉ H.map Prod.snd) : H.filter (fun x => decide (x.2 = i)) = [] := by
  rw [List.filter_eq_nil_iff]
  intro y hy hy2
  exact h (List.mem_map.2 ⟨y, hy, by simpa using hy2⟩)

theorem ins_sorted (h : StrictWeakOrder cmp) (e : Block × Nat) (H : List (Block × Nat))
    (hH : H.Pairwise fun a b => cmp b.1 a.1 = false) :
    (ins cmp e H).Pairwise fun a b => cmp b.1 a.1 = false := by
  induction H with
  | nil => simp [ins]
  | cons x xs ih =>
    have hx := List.pairwise_cons.1 hH
    unfold ins
    split
    · rename_i hlt
      refine List.Pairwise.cons ?_ hH
      intro y hy
      rcases List.mem_cons.1 hy with rfl | hy
      · exact h.asymm hlt
      · exact h.le_trans (h.asymm hlt) (hx.1 y hy)
    · rename_i hnlt
      refine List.Pairwise.cons ?_ (ih hx.2)
      intro y hy
      rcases List.mem_cons.1 ((ins_perm cmp e xs).mem_iff.1 hy) with rfl | hy
      · simpa using hnlt
      · exact hx.1 y hy

theorem getD_set_self {α : Type} (l : List α) (i : Nat) (x d : α) (h : i < l.length) :
    (l.set i x).getD i d = x := by
  simp [List.getD_eq_getElem?_getD, List.getElem?_set_self h]

theorem getD_set_ne {α : Type} (l : List α) (i j : Nat) (x d : α) (h : i ≠ j) :
    (l.set i x).getD j d = l.getD j d := by
  simp [List.getD_eq_getElem?_getD, List.getElem?_set_ne h]

theorem lt_length_of_getD {α : Type} {l : List α} {i : Nat} {d x : α}
    (h : l.getD i d = x) (hx : x ≠ d) : i < l.length := by
  by_contra hlt
  rw [List.getD_eq_getElem?_getD, List.getElem?_eq_none (by omega)] at h
  exact hx h.symm

theorem flatten_set_perm (F : List (List Block)) :
    ∀ (i : Nat) (b : Block) (r : List Block), F.getD i [] = b :: r →
      F.flatten.Perm (b :: (F.set i r).flatten) := by
  induction F with
  | nil => intro i b r h; simp at h
  | cons f fs ih =>
    intro i b r h
    cases i with
    | zero =>
      simp only [List.getD_cons_zero] at h
      subst h
      simp
    | succ k =>
      simp only [List.getD_cons_succ] at h
      have := ih k b r h
      simp only [List.set_cons_succ, List.flatten_cons]
      exact (List.Perm.append_left f this).trans List.perm_middle

theorem refill_content (i j : Nat) (H : List (Block × Nat)) (F : List (List Block))
    (hi : i ∉ H.map Prod.snd) :
    content (refillH cmp i H F) (refillF i F) j =
      if j = i then F.getD i [] else content H F j := by
  unfold refillH refillF content
  cases hF : F.getD i [] with
  | nil =>
    dsimp only
    split
    · rename_i hj
      subst hj
      rw [filter_eq_nil_of_not_mem H j hi, hF]; rfl
    · rfl
  | cons b r =>
    have hlt : i < F.length := lt_length_of_getD hF (by simp)
    dsimp only
    split
    · rename_i hj
      subst hj
      have := ins_filter_eq cmp (b, j) H hi
      dsimp only at this
      rw [this, getD_set_self F j r [] hlt]; rfl
    · rename_i hj
      have hij : i ≠ j := fun e => hj e.symm
      rw [ins_filter_ne cmp (b, i) H j hij, getD_set_ne F i j r [] hij]

theorem refill_WF (i : Nat) (H : List (Block × Nat)) (F : List (List Block))
    (hnd : (H.map Prod.snd).Nodup) (hi : i ∉ H.map Prod.snd)
    (hF : ∀ j, j ∉ H.map Prod.snd → j ≠ i → F.getD j [] = []) :
    WF (refillH cmp i H F) (refillF i F) := by
  unfold refillH refillF
  cases hFi : F.getD i [] with
  | nil =>
    dsimp only
    refine ⟨hnd, fun j hj => ?_⟩
    by_cases hji : j = i
    · rw [hji]; exact hFi
    · exact hF j hj hji
  | cons b r =>
    dsimp only
    have hp := (ins_perm cmp (b, i) H).map Prod.snd
    refine ⟨hp.nodup_iff.2 (by simpa using ⟨by simpa using hi, hnd⟩), fun j hj => ?_⟩
    have hj2 : j ∉ (((b, i) :: H).map Prod.snd) := fun hh => hj (hp.mem_iff.2 hh)
    simp only [List.map_cons, List.mem_cons, not_or] at hj2
    rw [getD_set_ne F i j r [] (fun e => hj2.1 e.symm)]
    exact hF j hj2.2 hj2.1

theorem refill_perm (i : Nat) (H : List (Block × Nat)) (F : List (List Block)) :
    ((refillH cmp i H F).map Prod.fst ++ (refillF i F).flatten).Perm
      (H.map Prod.fst ++ F.flatten) := by
  unfold refillH refillF
  cases hFi : F.getD i [] with
  | nil => exact List.Perm.refl _
  | cons b r =>
    dsimp only
    have h1 := (ins_perm cmp (b, i) H).map Prod.fst
    have h2 := flatten_set_perm F i b r hFi
    refine (List.Perm.append_right _ h1).trans ?_
    simp only [List.map_cons, List.cons_append]
    exact List.perm_middle.symm.trans (List.Perm.append_left _ h2.symm)

theorem refill_sorted (h : StrictWeakOrder cmp) (i : Nat) (H : List (Block × Nat))
    (F : List (List Block)) (hH : H.Pairwise fun a b => cmp b.1 a.1 = false) :
    (refillH cmp i H F).Pairwise fun a b => cmp b.1 a.1 = false := by
  unfold refillH
  split
  · exact ins_sorted cmp h _ H hH
  · exact hH

theorem refill_idx (i : Nat) (H : List (Block × Nat)) (F : List (List Block))
    (e : Block × Nat) (he : e ∈ refillH cmp i H F) : e ∈ H ∨ e.2 = i := by
  unfold refillH at he
  split at he
  · rcases List.mem_cons.1 ((ins_perm cmp _ H).mem_iff.1 he) with rfl | he
    · exact Or.inr rfl
    · exact Or.inl he
  · exact Or.inl he

theorem content_cons (e : Block × Nat) (H : List (Block × Nat)) (F : List (List Block))
    (i : Nat) :
    content (e :: H) F i = if e.2 = i then e.1 :: content H F i else content H F i := by
  unfold content
  by_cases h : e.2 = i <;> simp [List.filter_cons, h]

theorem content_of_not_mem (H : List (Block × Nat)) (F : List (List Block)) (i : Nat)
    (h : i ∉ H.map Prod.snd) : content H F i = F.getD i [] := by
  unfold content
  rw [filter_eq_nil_of_not_mem H i h]; rfl

theorem WF_tail (e : Block × Nat) (H : List (Block × Nat)) (F : List (List Block))
    (h : WF (e :: H) F) : WF (refillH cmp e.2 H F) (refillF e.2 F) := by
  have h1 := h.1
  rw [List.map_cons, List.nodup_cons] at h1
  refine refill_WF cmp e.2 H F h1.2 h1.1 (fun j hj hne => h.2 j ?_)
  simp only [List.map_cons, List.mem_cons, not_or]
  exact ⟨hne, hj⟩

theorem amerge_cons (fuel : Nat) (e : Block × Nat) (H : List (Block × Nat))
    (F : List (List Block)) (out : List (Block × Nat))
    (h : amerge cmp (fuel + 1) (e :: H) F = some out) :
    ∃ out1, amerge cmp fuel (refillH cmp e.2 H F) (refillF e.2 F) = some out1 ∧
      out = e :: out1 := by
  unfold amerge at h
  cases h1 : amerge cmp fuel (refillH cmp e.2 H F) (refillF e.2 F) with
  | none => rw [h1] at h; simp at h
  | some out1 =>
    rw [h1] at h
    simp only [Option.map_some', Option.some.injEq] at h
    exact ⟨out1, rfl, h.symm⟩

theorem flatten_eq_nil (F : List (List Block)) (h : ∀ i, F.getD i [] = []) :
    F.flatten = [] := by
  rw [List.flatten_eq_nil_iff]
  intro l hl
  obtain ⟨n, hn⟩ := List.mem_iff_getElem?.1 hl
  have := h n
  rw [List.getD_eq_getElem?_getD, hn] at this
  exact this

theorem amerge_perm (fuel : Nat) :
    ∀ (H : List (Block × Nat)) (F : List (List Block)) (out : List (Block × Nat)),
      WF H F → amerge cmp fuel H F = some out →
      (out.map Prod.fst).Perm (H.map Prod.fst ++ F.flatten) := by
  induction fuel with
  | zero => intro H F out _ h; simp [amerge] at h
  | succ fuel ih =>
    intro H F out hwf h
    cases H with
    | nil =>
      simp only [amerge, Option.some.injEq] at h
      subst h
      rw [flatten_eq_nil F (fun i => hwf.2 i (by simp))]
      exact List.Perm.refl _
    | cons e H =>
      obtain ⟨out1, h1, rfl⟩ := amerge_cons cmp fuel e H F out h
      have := (ih _ _ _ (WF_tail cmp e H F hwf) h1).trans (refill_perm cmp e.2 H F)
      simpa using this

theorem amerge_total (fuel : Nat) :
    ∀ (H : List (Block × Nat)) (F : List (List Block)),
      H.length + F.flatten.length < fuel → ∃ out, amerge cmp fuel H F = some out := by
  induction fuel with
  | zero => intro H F h; omega
  | succ fuel ih =>
    intro H F h
    cases H with
    | nil => exact ⟨[], by simp [amerge]⟩
    | cons e H =>
      have hl := (refill_perm cmp e.2 H F).length_eq
      simp only [List.length_append, List.length_map, List.length_cons] at hl h
      obtain ⟨out1, h1⟩ := ih (refillH cmp e.2 H F) (refillF e.2 F) (by omega)
      exact ⟨e :: out1, by simp [amerge, h1]⟩

theorem amerge_idx (fuel : Nat) :
    ∀ (H : List (Block × Nat)) (F : List (List Block)) (out : List (Block × Nat)),
      amerge cmp fuel H F = some out → ∀ e ∈ out, e.2 ∈ H.map Prod.snd := by
  induction fuel with
  | zero => intro H F out h; simp [amerge] at h
  | succ fuel ih =>
    intro H F out h
    cases H with
    | nil =>
      simp only [amerge, Option.some.injEq] at h
      subst h
      intro e he
      exact absurd he (List.not_mem_nil e)
    | cons e H =>
      obtain ⟨out1, h1, rfl⟩ := amerge_cons cmp fuel e H F out h
      intro x hx
      rcases List.mem_cons.1 hx with rfl | hx
      · simp
      · obtain ⟨y, hy, hyx⟩ := List.mem_map.1 (ih _ _ _ h1 x hx)
        rcases refill_idx cmp e.2 H F y hy with hy | hy
        · rw [← hyx]
          exact List.mem_map_of_mem Prod.snd (List.mem_cons_of_mem _ hy)
        · rw [← hyx, hy]; simp

theorem amerge_attr (fuel : Nat) :
    ∀ (H : List (Block × Nat)) (F : List (List Block)) (out : List (Block × Nat)),
      WF H F → amerge cmp fuel H F = some out →
      ∀ i, (out.filter fun e => decide (e.2 = i)).map Prod.fst = content H F i := by
  induction fuel with
  | zero => intro H F out _ h; simp [amerge] at h
  | succ fuel ih =>
    intro H F out hwf h i
    cases H with
    | nil =>
      simp only [amerge, Option.some.injEq] at h
      subst h
      rw [content_of_not_mem [] F i (by simp), hwf.2 i (by simp)]; rfl
    | cons e H =>
      obtain ⟨out1, h1, rfl⟩ := amerge_cons cmp fuel e H F out h
      have h2 := hwf.1
      rw [List.map_cons, List.nodup_cons] at h2
      have := ih _ _ _ (WF_tail cmp e H F hwf) h1 i
      rw [refill_content cmp e.2 i H F h2.1] at this
      rw [content_cons]
      by_cases hi : e.2 = i
      · subst hi
        rw [content_of_not_mem H F e.2 h2.1]
        simpa [List.filter_cons] using this
      · have hi2 : ¬ i = e.2 := fun hh => hi hh.symm
        simpa [List.filter_cons, hi, hi2] using this

theorem amerge_sorted (hswo : StrictWeakOrder cmp) (fuel : Nat) :
    ∀ (H : List (Block × Nat)) (F : List (List Block)) (out : List (Block × Nat)),
      WF H F → (H.Pairwise fun a b => cmp b.1 a.1 = false) →
      (∀ i, (content H F i).Pairwise fun a b => cmp b a = false) →
      amerge cmp fuel H F = some out →
      (out.map Prod.fst).Pairwise fun a b => cmp b a = false := by
  induction fuel with
  | zero => intro H F out _ _ _ h; simp [amerge] at h
  | succ fuel ih =>
    intro H F out hwf hH hC h
    cases H with
    | nil =>
      simp only [amerge, Option.some.injEq] at h
      subst h
      exact List.Pairwise.nil
    | cons e H =>
      obtain ⟨out1, h1, rfl⟩ := amerge_cons cmp fuel e H F out h
      have h2 := hwf.1
      rw [List.map_cons, List.nodup_cons] at h2
      have hH2 := List.pairwise_cons.1 hH
      have hwf1 := WF_tail cmp e H F hwf
      have hCe := hC e.2
      rw [content_cons, if_pos rfl, content_of_not_mem H F e.2 h2.1] at hCe
      rw [List.map_cons]
      refine List.Pairwise.cons ?_ (ih _ _ _ hwf1 (refill_sorted cmp hswo e.2 H F hH2.2) ?_ h1)
      · intro x hx
        have hx1 := ((amerge_perm cmp fuel _ _ _ hwf1 h1).trans
          (refill_perm cmp e.2 H F)).mem_iff.1 hx
        rcases List.mem_append.1 hx1 with hx1 | hx1
        · obtain ⟨y, hy, rfl⟩ := List.mem_map.1 hx1
          exact hH2.1 y hy
        · obtain ⟨l, hl, hxl⟩ := List.mem_flatten.1 hx1
          obtain ⟨j, hj⟩ := List.mem_iff_getElem?.1 hl
          have hFj : F.getD j [] = l := by rw [List.getD_eq_getElem?_getD, hj]; rfl
          have hjm : j ∈ (e :: H).map Prod.snd := by
            by_contra hn
            have := hwf.2 j hn
            rw [hFj] at this
            rw [this] at hxl
            exact absurd hxl (List.not_mem_nil x)
          obtain ⟨y, hy, hyj⟩ := List.mem_map.1 hjm
          have hCj := hC j
          unfold content at hCj
          rw [hFj] at hCj
          have hyx : cmp x y.1 = false :=
            (List.pairwise_append.1 hCj).2.2 y.1
              (List.mem_map_of_mem Prod.fst (List.mem_filter.2 ⟨hy, by simpa using hyj⟩))
              x hxl
          rcases List.mem_cons.1 hy with rfl | hy
          · exact hyx
          · exact hswo.le_trans (hH2.1 y hy) hyx
      · intro i
        rw [refill_content cmp e.2 i H F h2.1]
        split
        · exact (List.pairwise_cons.1 hCe).2
        · rename_i hi
          have := hC i
          rw [content_cons, if_neg (fun hh => hi hh.symm)] at this
          exact this

theorem refillF_getD_ne (i j : Nat) (F : List (List Block)) (h : i ≠ j) :
    (refillF i F).getD j [] = F.getD j [] := by
  unfold refillF
  split
  · exact getD_set_ne F i j _ [] h
  · rfl

theorem refillF_length (i : Nat) (F : List (List Block)) :
    (refillF i F).length = F.length := by
  unfold refillF
  split
  · simp
  · rfl

theorem content_set_ne (H : List (Block × Nat)) (F : List (List Block)) (k j : Nat)
    (f : List Block) (h : k ≠ j) : content H (F.set k f) j = content H F j := by
  unfold content
  rw [getD_set_ne F k j f [] h]

theorem actor_spec (fs : List (List Block)) :
    ∀ (k : Nat) (H : List (Block × Nat)) (F : List (List Block)),
      WF H F → (∀ e ∈ H, e.2 < k) → k + fs.length ≤ F.length →
      (∀ j, k ≤ j → F.getD j [] = []) →
      WF (actor cmp fs k H F).1 (actor cmp fs k H F).2 ∧
      (∀ e ∈ (actor cmp fs k H F).1, e.2 < k + fs.length) ∧
      (∀ j, content (actor cmp fs k H F).1 (actor cmp fs k H F).2 j =
        if j < k then content H F j else fs.getD (j - k) []) := by
  induction fs with
  | nil =>
    intro k H F hwf hlt _ hF
    refine ⟨hwf, hlt, fun j => ?_⟩
    unfold actor
    split
    · rfl
    · rw [content_of_not_mem H F j, hF j (by omega)]
      · rfl
      · intro hj
        obtain ⟨e, he, hej⟩ := List.mem_map.1 hj
        have := hlt e he
        omega
  | cons f rest ih =>
    intro k H F hwf hlt hlen hF
    simp only [List.length_cons] at hlen
    have hk : k ∉ H.map Prod.snd := by
      intro hj
      obtain ⟨e, he, hej⟩ := List.mem_map.1 hj
      have := hlt e he
      omega
    have h1 : WF (refillH cmp k H (F.set k f)) (refillF k (F.set k f)) :=
      refill_WF cmp k H _ hwf.1 hk (fun j hj hjk => by
        rw [getD_set_ne F k j f [] (fun e => hjk e.symm)]
        exact hwf.2 j hj)
    have h2 : ∀ e ∈ refillH cmp k H (F.set k f), e.2 < k + 1 := by
      intro e he
      rcases refill_idx cmp k H _ e he with he | he
      · have := hlt e he; omega
      · omega
    have h3 : ∀ j, k + 1 ≤ j → (refillF k (F.set k f)).getD j [] = [] := by
      intro j hj
      rw [refillF_getD_ne k j _ (by omega), getD_set_ne F k j f [] (by omega)]
      exact hF j (by omega)
    obtain ⟨a1, a2, a3⟩ := ih (k + 1) _ _ h1 h2
      (by rw [refillF_length, List.length_set]; omega) h3
    unfold actor
    refine ⟨a1, fun e he => ?_, fun j => ?_⟩
    · have := a2 e he
      simp only [List.length_cons]
      omega
    · rw [a3 j, refill_content cmp k j H _ hk]
      by_cases hj1 : j < k
      · rw [if_pos (by omega), if_neg (by omega), if_pos hj1,
          content_set_ne H F k j f (by omega)]
      · by_cases hj2 : j = k
        · subst hj2
          rw [if_pos (by omega), if_pos rfl, if_neg hj1, getD_set_self F j f [] (by omega)]
          simp
        · rw [if_neg (by omega), if_neg hj1]
          have : j - k = (j - (k + 1)) + 1 := by omega
          rw [this, List.getD_cons_succ]

theorem actor_sorted (hswo : StrictWeakOrder cmp) (fs : List (List Block)) :
    ∀ (k : Nat) (H : List (Block × Nat)) (F : List (List Block)),
      (H.Pairwise fun a b => cmp b.1 a.1 = false) →
      (actor cmp fs k H F).1.Pairwise fun a b => cmp b.1 a.1 = false := by
  induction fs with
  | nil => intro k H F h; exact h
  | cons f rest ih =>
    intro k H F h
    unfold actor
    exact ih _ _ _ (refill_sorted cmp hswo k H _ h)

theorem getD_replicate_nil (n j : Nat) :
    (List.replicate n ([] : List Block)).getD j [] = [] := by
  rw [List.getD_eq_getElem?_getD, List.getElem?_replicate]
  split <;> rfl

theorem start_spec (sources : List (List Block)) :
    WF (actor cmp sources 0 [] (List.replicate sources.length [])).1
      (actor cmp sources 0 [] (List.replicate sources.length [])).2 ∧
    (∀ e ∈ (actor cmp sources 0 [] (List.replicate sources.length [])).1,
      e.2 < sources.length) ∧
    (∀ j, content (actor cmp sources 0 [] (List.replicate sources.length [])).1
      (actor cmp sources 0 [] (List.replicate sources.length [])).2 j =
        sources.getD j []) := by
  obtain ⟨a1, a2, a3⟩ := actor_spec cmp sources 0 [] (List.replicate sources.length [])
    ⟨List.nodup_nil, fun i _ => getD_replicate_nil _ i⟩
    (fun e he => absurd he (List.not_mem_nil e)) (by simp)
    (fun j _ => getD_replicate_nil _ j)
  refine ⟨a1, fun e he => ?_, fun j => ?_⟩
  · simpa using a2 e he
  · rw [a3 j]; simp

theorem flatten_set_of_nil (F : List (List Block)) :
    ∀ (k : Nat) (f : List Block), F.getD k [] = [] → k < F.length →
      (F.set k f).flatten.Perm (f ++ F.flatten) := by
  induction F with
  | nil => intro k f _ h; simp at h
  | cons g gs ih =>
    intro k f h hk
    cases k with
    | zero =>
      simp only [List.getD_cons_zero] at h
      subst h
      simp
    | succ k =>
      simp only [List.getD_cons_succ] at h
      simp only [List.length_cons] at hk
      have := ih k f h (by omega)
      simp only [List.set_cons_succ, List.flatten_cons]
      refine (List.Perm.append_left g this).trans ?_
      rw [← List.append_assoc, ← List.append_assoc]
      exact List.Perm.append_right _ List.perm_append_comm

theorem actor_perm (fs : List (List Block)) :
    ∀ (k : Nat) (H : List (Block × Nat)) (F : List (List Block)),
      k + fs.length ≤ F.length → (∀ j, k ≤ j → F.getD j [] = []) →
      ((actor cmp fs k H F).1.map Prod.fst ++ (actor cmp fs k H F).2.flatten).Perm
        (H.map Prod.fst ++ F.flatten ++ fs.flatten) := by
  induction fs with
  | nil => intro k H F _ _; simp [actor]
  | cons f rest ih =>
    intro k H F hlen hF
    simp only [List.length_cons] at hlen
    have h3 : ∀ j, k + 1 ≤ j → (refillF k (F.set k f)).getD j [] = [] := by
      intro j hj
      rw [refillF_getD_ne k j _ (by omega), getD_set_ne F k j f [] (by omega)]
      exact hF j (by omega)
    have := ih (k + 1) (refillH cmp k H (F.set k f)) (refillF k (F.set k f))
      (by rw [refillF_length, List.length_set]; omega) h3
    unfold actor
    refine this.trans ?_
    rw [List.flatten_cons, ← List.append_assoc]
    refine List.Perm.append_right _ ?_
    refine (refill_perm cmp k H (F.set k f)).trans ?_
    rw [List.append_assoc]
    refine List.Perm.append_left _ ?_
    exact (flatten_set_of_nil F k f (hF k (Nat.le_refl k)) (by omega)).trans
      List.perm_append_comm

theorem flatten_replicate_nil (n : Nat) :
    (List.replicate n ([] : List Block)).flatten = [] :=
  flatten_eq_nil _ (fun i => getD_replicate_nil n i)

theorem start_perm (sources : List (List Block)) :
    ((actor cmp sources 0 [] (List.replicate sources.length [])).1.map Prod.fst ++
      (actor cmp sources 0 [] (List.replicate sources.length [])).2.flatten).Perm
        sources.flatten := by
  have := actor_perm cmp sources 0 [] (List.replicate sources.length []) (by simp)
    (fun j _ => getD_replicate_nil _ j)
  rw [flatten_replicate_nil] at this
  simpa using this

theorem ins_stable (hswo : StrictWeakOrder cmp) (e : Block × Nat) (H : List (Block × Nat))
    (hH : Stable cmp H) (hlt : ∀ x ∈ H, x.2 < e.2) : Stable cmp (ins cmp e H) := by
  unfold Stable at hH ⊢
  induction H with
  | nil => simp [ins]
  | cons x xs ih =>
    have hx := List.pairwise_cons.1 hH
    unfold ins
    split
    · rename_i hex
      refine List.Pairwise.cons ?_ hH
      intro y hy
      have hey : cmp e.1 y.1 = true := by
        rcases List.mem_cons.1 hy with rfl | hy
        · exact hex
        · exact hswo.lt_of_lt_of_le hex (hx.1 y hy).1
      exact ⟨hswo.asymm hey, fun h => by rw [hey] at h; exact absurd h (by decide)⟩
    · rename_i hex
      refine List.Pairwise.cons ?_
        (ih hx.2 (fun y hy => hlt y (List.mem_cons_of_mem _ hy)))
      intro y hy
      rcases List.mem_cons.1 ((ins_perm cmp e xs).mem_iff.1 hy) with rfl | hy
      · exact ⟨by simpa using hex, fun _ => hlt x (List.mem_cons_self _ _)⟩
      · exact hx.1 y hy

theorem actor_stable (hswo : StrictWeakOrder cmp) (fs : List (List Block)) :
    ∀ (k : Nat) (H : List (Block × Nat)) (F : List (List Block)),
      Stable cmp H → (∀ e ∈ H, e.2 < k) → Stable cmp (actor cmp fs k H F).1 := by
  induction fs with
  | nil => intro k H F h _; exact h
  | cons f rest ih =>
    intro k H F h hlt
    unfold actor
    refine ih _ _ _ ?_ ?_
    · unfold refillH
      split
      · exact ins_stable cmp hswo _ H h hlt
      · exact h
    · intro e he
      rcases refill_idx cmp k H _ e he with he | he
      · have := hlt e he; omega
      · omega

theorem filter_eq_singleton (H : List (Block × Nat)) (y : Block × Nat)
    (hnd : (H.map Prod.snd).Nodup) (hy : y ∈ H) :
    H.filter (fun x => decide (x.2 = y.2)) = [y] := by
  induction H with
  | nil => exact absurd hy (List.not_mem_nil y)
  | cons x xs ih =>
    rw [List.map_cons, List.nodup_cons] at hnd
    rcases List.mem_cons.1 hy with rfl | hy
    · rw [List.filter_cons, if_pos (by simp), filter_eq_nil_of_not_mem xs _ hnd.1]
    · have hne : x.2 ≠ y.2 := fun h => hnd.1 (h ▸ List.mem_map_of_mem Prod.snd hy)
      rw [List.filter_cons, if_neg (by simpa using hne)]
      exact ih hnd.2 hy

theorem content_of_mem (H : List (Block × Nat)) (F : List (List Block)) (y : Block × Nat)
    (hnd : (H.map Prod.snd).Nodup) (hy : y ∈ H) :
    content H F y.2 = y.1 :: F.getD y.2 [] := by
  unfold content
  rw [filter_eq_singleton H y hnd hy]; rfl

theorem first_index_minimal (hswo : StrictWeakOrder cmp) (sources : List (List Block))
    (H : List (Block × Nat)) (F : List (List Block)) (hwf : WF H F)
    (hst : Stable cmp H) (hc : ∀ j, content H F j = sources.getD j []) :
    (H = [] → ∀ j, sources.getD j [] = []) ∧
    ∀ e t, H = e :: t → MinimalAt cmp sources e.2 ∧
      ∀ j, MinimalAt cmp sources j → e.2 ≤ j := by
  have hmem : ∀ j b1, (sources.getD j []).head? = some b1 → (b1, j) ∈ H := by
    intro j b1 hj
    by_contra hn
    by_cases hjm : j ∈ H.map Prod.snd
    · obtain ⟨y, hy, hyj⟩ := List.mem_map.1 hjm
      have := content_of_mem H F y hwf.1 hy
      rw [hyj, hc j] at this
      rw [this] at hj
      simp only [List.head?_cons, Option.some.injEq] at hj
      exact hn (by rw [← hj, ← hyj]; exact hy)
    · have := hc j
      rw [content_of_not_mem H F j hjm, hwf.2 j hjm] at this
      rw [← this] at hj
      simp at hj
  refine ⟨fun hH j => ?_, fun e t hH => ?_⟩
  · cases hs : sources.getD j [] with
    | nil => rfl
    | cons b r =>
      have := hmem j b (by rw [hs]; rfl)
      rw [hH] at this
      exact absurd this (List.not_mem_nil _)
  · have he : e ∈ H := by rw [hH]; exact List.mem_cons_self _ _
    have hce := content_of_mem H F e hwf.1 he
    rw [hc e.2] at hce
    have hst1 : ∀ y ∈ t, cmp y.1 e.1 = false ∧ (cmp e.1 y.1 = false → e.2 < y.2) := by
      unfold Stable at hst
      rw [hH] at hst
      exact (List.pairwise_cons.1 hst).1
    refine ⟨⟨e.1, by rw [hce]; rfl, fun j b1 hj => ?_⟩, fun j hj => ?_⟩
    · have := hmem j b1 hj
      rw [hH] at this
      rcases List.mem_cons.1 this with h | h
      · rw [← h]; exact hswo.irrefl b1
      · exact (hst1 _ h).1
    · obtain ⟨b, hb, hmin⟩ := hj
      have := hmem j b hb
      rw [hH] at this
      rcases List.mem_cons.1 this with h | h
      · rw [← h]
      · have h2 := (hst1 _ h).2 (hmin e.2 e.1 (by rw [hce]; rfl))
        exact Nat.le_of_lt h2

end values

/-! ## The reader and the merge on values -/

section simulation
variable [BlockAllocator A] (cmp : Block → Block → Bool)

theorem buffurize_cons (s : MergeReader Block A) (b : Block) (rest : List Block)
    (hF : s._files.getD s._idx [] = b :: rest) :
    buffurize s =
      { s with
        _allocator := (BlockAllocator.allocate s._allocator).2
        _read_buf := s._read_buf.set s._idx (some (BlockAllocator.allocate s._allocator).1)
        _files := s._files.set s._idx rest
        heap := fun q =>
          if q = (BlockAllocator.allocate s._allocator).1 then b else s.heap q } := by
  unfold buffurize; dsimp only; rw [hF]

theorem buffurize_nil (s : MergeReader Block A) (hF : s._files.getD s._idx [] = []) :
    buffurize s =
      { s with
        _allocator := BlockAllocator.free (BlockAllocator.allocate s._allocator).2
          (BlockAllocator.allocate s._allocator).1
        _read_buf := (s._read_buf.set s._idx
          (some (BlockAllocator.allocate s._allocator).1)).set s._idx none } := by
  unfold buffurize; dsimp only; rw [hF]

theorem load_block_cons (s : MergeReader Block A) (b : Block) (rest : List Block)
    (hF : s._files.getD s._idx [] = b :: rest) (hlen : s._idx < s._read_buf.length) :
    load_block cmp s =
      { s with
        _allocator := (BlockAllocator.allocate s._allocator).2
        _read_buf := s._read_buf.set s._idx (some (BlockAllocator.allocate s._allocator).1)
        _files := s._files.set s._idx rest
        heap := fun q =>
          if q = (BlockAllocator.allocate s._allocator).1 then b else s.heap q
        _map := map_insert cmp
          (fun q => if q = (BlockAllocator.allocate s._allocator).1 then b else s.heap q)
          ((BlockAllocator.allocate s._allocator).1, s._idx) s._map } := by
  unfold load_block; dsimp only
  rw [buffurize_cons s b rest hF]; dsimp only
  rw [getD_set_self _ _ _ _ hlen]

theorem load_block_nil (s : MergeReader Block A) (hF : s._files.getD s._idx [] = []) :
    load_block cmp s =
      { s with
        _allocator := BlockAllocator.free (BlockAllocator.allocate s._allocator).2
          (BlockAllocator.allocate s._allocator).1
        _read_buf := (s._read_buf.set s._idx
          (some (BlockAllocator.allocate s._allocator).1)).set s._idx none } := by
  unfold load_block; dsimp only
  rw [buffurize_nil s hF]; dsimp only
  have : ((s._read_buf.set s._idx (some (BlockAllocator.allocate s._allocator).1)).set
      s._idx none).getD s._idx none = none := by
    simp only [List.getD_eq_getElem?_getD, List.getElem?_set, List.length_set, if_true]
    split <;> rfl
  rw [this]

theorem map_insert_heads (heap heap1 : Nat → Block) (p i : Nat) (b : Block)
    (hp : heap1 p = b) (l : List (Nat × Nat))
    (hq : ∀ e ∈ l, heap1 e.1 = heap e.1) :
    (map_insert cmp heap1 (p, i) l).map (fun e => (heap1 e.1, e.2)) =
      ins cmp (b, i) (l.map fun e => (heap e.1, e.2)) := by
  induction l with
  | nil => simp [map_insert, ins, hp]
  | cons x xs ih =>
    have hx := hq x (List.mem_cons_self _ _)
    have ih1 := ih (fun e he => hq e (List.mem_cons_of_mem _ he))
    unfold map_insert ins
    simp only [List.map_cons, hp, hx]
    split
    · simp only [List.map_cons, hp, hx, List.cons.injEq, true_and]
      exact List.map_congr_left (fun e he => by rw [hq e (List.mem_cons_of_mem _ he)])
    · simp only [List.map_cons, hx, ih1]

theorem load_block_view (s : MergeReader Block A)
    (hfresh : ∀ e ∈ s._map, e.1 ≠ (BlockAllocator.allocate s._allocator).1)
    (hlen : s._idx < s._read_buf.length) :
    heads (load_block cmp s) = refillH cmp s._idx (heads s) s._files ∧
    (load_block cmp s)._files = refillF s._idx s._files := by
  unfold refillH refillF heads
  cases hF : s._files.getD s._idx [] with
  | nil => rw [load_block_nil cmp s hF]; exact ⟨rfl, rfl⟩
  | cons b rest =>
    rw [load_block_cons cmp s b rest hF hlen]; dsimp only
    refine ⟨?_, rfl⟩
    exact map_insert_heads cmp s.heap
      (fun q => if q = (BlockAllocator.allocate s._allocator).1 then b else s.heap q)
      _ _ b (by simp) s._map (by intro e he; simp [hfresh e he])

theorem load_block_facts (s : MergeReader Block A) (hlen : s._idx < s._read_buf.length) :
    ((load_block cmp s)._allocator = (BlockAllocator.allocate s._allocator).2 ∨
      (load_block cmp s)._allocator =
        BlockAllocator.free (BlockAllocator.allocate s._allocator).2
          (BlockAllocator.allocate s._allocator).1) ∧
    (load_block cmp s)._read_buf.length = s._read_buf.length ∧
    (∀ q, q ≠ (BlockAllocator.allocate s._allocator).1 →
      (load_block cmp s).heap q = s.heap q) ∧
    (∀ e ∈ (load_block cmp s)._map,
      e ∈ s._map ∨ e = ((BlockAllocator.allocate s._allocator).1, s._idx)) := by
  cases hF : s._files.getD s._idx [] with
  | nil =>
    rw [load_block_nil cmp s hF]
    exact ⟨Or.inr rfl, by simp, fun q _ => rfl, fun e he => Or.inl he⟩
  | cons b rest =>
    rw [load_block_cons cmp s b rest hF hlen]
    refine ⟨Or.inl rfl, by simp, fun q hq => by simp [hq], fun e he => ?_⟩
    rcases List.mem_cons.1 ((map_insert_perm _ _ _ _).mem_iff.1 he) with he | he
    · exact Or.inr he
    · exact Or.inl he

theorem ctor_loop_view (I : Nat → A → Prop) (M : Nat)
    (hI1 : ∀ k a, I k a → (BlockAllocator.allocate a).1 = k)
    (hI2 : ∀ k a, k < M → I k a → I (k + 1) (BlockAllocator.allocate a).2)
    (hI3 : ∀ k a p, I k a → I k (BlockAllocator.free a p))
    (fs : List (List Block)) :
    ∀ s : MergeReader Block A, I s._idx s._allocator → s._idx + fs.length ≤ M →
      s._idx + fs.length ≤ s._read_buf.length → (∀ e ∈ s._map, e.1 < s._idx) →
      heads (ctor_loop cmp fs s) = (actor cmp fs s._idx (heads s) s._files).1 ∧
      (ctor_loop cmp fs s)._files = (actor cmp fs s._idx (heads s) s._files).2 ∧
      I (s._idx + fs.length) (ctor_loop cmp fs s)._allocator ∧
      (∀ e ∈ (ctor_loop cmp fs s)._map, e.1 < s._idx + fs.length) := by
  induction fs with
  | nil => intro s hI _ _ hlt; exact ⟨rfl, rfl, hI, hlt⟩
  | cons f rest ih =>
    intro s hI hM hlen hlt
    simp only [List.length_cons] at hM hlen
    have hp := hI1 _ _ hI
    have hfresh : ∀ e ∈ s._map, e.1 ≠ (BlockAllocator.allocate s._allocator).1 := by
      intro e he; have := hlt e he; omega
    obtain ⟨s1, hs1⟩ : ∃ x, x = { s with _files := s._files.set s._idx f } := ⟨_, rfl⟩
    have h1i : s1._idx = s._idx := by rw [hs1]
    have h1a : s1._allocator = s._allocator := by rw [hs1]
    have h1m : s1._map = s._map := by rw [hs1]
    have h1r : s1._read_buf = s._read_buf := by rw [hs1]
    have h1f : s1._files = s._files.set s._idx f := by rw [hs1]
    have h1h : heads s1 = heads s := by rw [hs1]; rfl
    have hv := load_block_view cmp s1 (by rw [h1m, h1a]; exact hfresh)
      (by rw [h1i, h1r]; omega)
    have hf := load_block_facts cmp s1 (by rw [h1i, h1r]; omega)
    rw [h1i, h1a, h1m, h1r] at hf
    rw [h1i, h1f, h1h] at hv
    obtain ⟨s3, hs3⟩ : ∃ x, x = { load_block cmp s1 with
      _idx := (load_block cmp s1)._idx + 1 } := ⟨_, rfl⟩
    have h3i : s3._idx = s._idx + 1 := by rw [hs3]; simp [h1i]
    have h3a : s3._allocator = (load_block cmp s1)._allocator := by rw [hs3]
    have h3m : s3._map = (load_block cmp s1)._map := by rw [hs3]
    have h3r : s3._read_buf = (load_block cmp s1)._read_buf := by rw [hs3]
    have h3f : s3._files = refillF s._idx (s._files.set s._idx f) := by rw [hs3]; exact hv.2
    have h3h : heads s3 = refillH cmp s._idx (heads s) (s._files.set s._idx f) := by
      rw [← hv.1, hs3]; rfl
    have hc : ctor_loop cmp (f :: rest) s = ctor_loop cmp rest s3 := by
      rw [hs3, hs1]; rfl
    have hI4 : I (s._idx + 1) s3._allocator := by
      rw [h3a]
      rcases hf.1 with h | h <;> rw [h]
      · exact hI2 _ _ (by omega) hI
      · exact hI3 _ _ _ (hI2 _ _ (by omega) hI)
    have := ih s3 (by rw [h3i]; exact hI4) (by rw [h3i]; omega)
      (by rw [h3i, h3r, hf.2.1]; omega)
      (by
        intro e he
        rw [h3m] at he
        rw [h3i]
        rcases hf.2.2.2 e he with he | he
        · have := hlt e he; omega
        · rw [he, hp]; simp)
    rw [h3i, h3h, h3f] at this
    rw [hc]
    have e1 : s._idx + (f :: rest).length = s._idx + 1 + rest.length := by
      simp only [List.length_cons]; omega
    rw [e1]
    exact this

end simulation

/-! ## The reader with `NewAllocator` -/

section newAllocator
variable (cmp : Block → Block → Bool)

theorem construct_new [Inhabited Block] (sources : List (List Block)) :
    heads (construct cmp sources : MergeReader Block NewAllocator) =
      (actor cmp sources 0 [] (List.replicate sources.length [])).1 ∧
    (construct cmp sources : MergeReader Block NewAllocator)._files =
      (actor cmp sources 0 [] (List.replicate sources.length [])).2 ∧
    NewInv (construct cmp sources : MergeReader Block NewAllocator) := by
  have h := ctor_loop_view cmp (fun k (a : NewAllocator) => a.next = k) sources.length
    (fun k a h => h) (fun k a _ h => by show a.next + 1 = k + 1; rw [h])
    (fun k a p h => h) sources
    { init ({ _allocator := BlockAllocator.create sources.length
              _count := 0
              _nb_files := sources.length
              _files := []
              _read_buf := []
              _map := []
              _map_iter := none
              _idx := 0
              heap := fun _ => default } : MergeReader Block NewAllocator) with _idx := 0 }
    rfl (by simp) (by simp [init]) (fun e he => absurd he (List.not_mem_nil e))
  obtain ⟨h1, h2, h3, h4⟩ := h
  refine ⟨h1, h2, construct_mapBuf cmp sources, fun e he => ?_⟩
  have := h4 e he
  have h5 : (construct cmp sources : MergeReader Block NewAllocator)._allocator.next =
      0 + sources.length := h3
  rw [h5]
  exact this

theorem get_next_new (s : MergeReader Block NewAllocator) (idx : Option Nat)
    (hs : NewInv s) (e : Nat × Nat) (t : List (Nat × Nat)) (hm : s._map = e :: t) :
    (get_next cmp s idx).1 = some e.1 ∧
    (get_next cmp s idx).2.1 = idx.map (fun _ => e.2) ∧
    heads (get_next cmp s idx).2.2 =
      refillH cmp e.2 (t.map fun x => (s.heap x.1, x.2)) s._files ∧
    (get_next cmp s idx).2.2._files = refillF e.2 s._files ∧
    (get_next cmp s idx).2.2.heap e.1 = s.heap e.1 ∧
    NewInv (get_next cmp s idx).2.2 := by
  have hmb := get_next_mapBuf cmp s idx hs.1
  have he := hs.1.2 e (by rw [hm]; exact List.mem_cons_self _ _)
  have hlen : e.2 < s._read_buf.length := lt_length_of_getD he (by simp)
  have hlt : ∀ x ∈ t, x.1 < s._allocator.next := fun x hx =>
    hs.2 x (by rw [hm]; exact List.mem_cons_of_mem _ hx)
  have helt : e.1 < s._allocator.next := hs.2 e (by rw [hm]; exact List.mem_cons_self _ _)
  obtain ⟨s3, hs3⟩ : ∃ x, x = { s with _map_iter := some e, _idx := e.2, _map := t } :=
    ⟨_, rfl⟩
  have hg : get_next cmp s idx =
      (some e.1, idx.map (fun _ => e.2),
        { load_block cmp s3 with _count := (load_block cmp s3)._count + 1 }) := by
    unfold get_next; dsimp only
    rw [hm]; dsimp only [List.head?, List.tail]
    rw [he, hs3]
  have h3i : s3._idx = e.2 := by rw [hs3]
  have h3a : s3._allocator = s._allocator := by rw [hs3]
  have h3m : s3._map = t := by rw [hs3]
  have h3r : s3._read_buf = s._read_buf := by rw [hs3]
  have h3f : s3._files = s._files := by rw [hs3]
  have h3p : s3.heap = s.heap := by rw [hs3]
  have h3h : heads s3 = t.map fun x => (s.heap x.1, x.2) := by rw [hs3]; rfl
  have hv := load_block_view cmp s3
    (by rw [h3m, h3a]; intro x hx; have := hlt x hx; exact Nat.ne_of_lt this)
    (by rw [h3i, h3r]; exact hlen)
  have hf := load_block_facts cmp s3 (by rw [h3i, h3r]; exact hlen)
  rw [h3i, h3h, h3f] at hv
  rw [h3a, h3m, h3p, h3i] at hf
  rw [hg] at hmb ⊢
  refine ⟨rfl, rfl, hv.1, hv.2, ?_, hmb, ?_⟩
  · exact hf.2.2.1 e.1 (Nat.ne_of_lt helt)
  · intro x hx
    have hx1 : x ∈ (load_block cmp s3)._map := hx
    have hn : (load_block cmp s3)._allocator.next = s._allocator.next + 1 := by
      rcases hf.1 with h | h <;> rw [h] <;> rfl
    show x.1 < (load_block cmp s3)._allocator.next
    rw [hn]
    rcases hf.2.2.2 x hx1 with hx2 | hx2
    · have := hlt x hx2
      omega
    · rw [hx2]
      show s._allocator.next < s._allocator.next + 1
      omega

theorem get_next_block_new (s : MergeReader Block NewAllocator) (block : Block)
    (idx : Option Nat) (hs : NewInv s) (e : Nat × Nat) (t : List (Nat × Nat))
    (hm : s._map = e :: t) :
    (get_next_block cmp s block idx).1 = true ∧
    (get_next_block cmp s block idx).2.1 = s.heap e.1 ∧
    (get_next_block cmp s block idx).2.2.1 = idx.map (fun _ => e.2) ∧
    heads (get_next_block cmp s block idx).2.2.2 =
      refillH cmp e.2 (t.map fun x => (s.heap x.1, x.2)) s._files ∧
    (get_next_block cmp s block idx).2.2.2._files = refillF e.2 s._files ∧
    NewInv (get_next_block cmp s block idx).2.2.2 := by
  obtain ⟨h1, h2, h3, h4, h5, h6⟩ := get_next_new cmp s idx hs e t hm
  unfold get_next_block; dsimp only
  rw [h1]; dsimp only
  exact ⟨rfl, h5, h2, h3, h4, h6⟩

theorem get_next_block_nil [BlockAllocator A] (s : MergeReader Block A) (block : Block)
    (idx : Option Nat) (hm : s._map = []) :
    get_next_block cmp s block idx = (false, block, idx, { s with _map_iter := none }) := by
  unfold get_next_block get_next; dsimp only
  rw [hm]; rfl

theorem drain_amerge (fuel : Nat) :
    ∀ (s : MergeReader Block NewAllocator) (block : Block) (idx : Nat), NewInv s →
      (drain cmp fuel s block idx).map Prod.fst = amerge cmp fuel (heads s) s._files := by
  induction fuel with
  | zero => intro s block idx _; rfl
  | succ fuel ih =>
    intro s block idx hs
    cases hm : s._map with
    | nil =>
      have hh : heads s = [] := by unfold heads; rw [hm]; rfl
      unfold drain; dsimp only
      rw [get_next_block_nil cmp s block (some idx) hm, hh]
      rfl
    | cons e t =>
      obtain ⟨h1, h2, h3, h4, h5, h6⟩ := get_next_block_new cmp s block (some idx) hs e t hm
      have hh : heads s = (s.heap e.1, e.2) :: t.map fun x => (s.heap x.1, x.2) := by
        unfold heads; rw [hm]; rfl
      have := ih (get_next_block cmp s block (some idx)).2.2.2
        (get_next_block cmp s block (some idx)).2.1
        ((get_next_block cmp s block (some idx)).2.2.1.getD idx) h6
      rw [h4, h5] at this
      unfold drain; dsimp only
      rw [if_pos h1, hh]
      unfold amerge
      rw [← this, h2, h3]
      simp only [Option.map_map]
      rfl

theorem drain_new_total [Inhabited Block] (sources : List (List Block)) (block : Block)
    (idx : Nat) :
    ∃ res, drain cmp (sources.flatten.length + 1)
      (construct cmp sources : MergeReader Block NewAllocator) block idx = some res := by
  obtain ⟨h1, h2, h3⟩ := construct_new cmp sources
  have hl := (start_perm cmp sources).length_eq
  simp only [List.length_append, List.length_map] at hl
  obtain ⟨out, ho⟩ := amerge_total cmp (sources.flatten.length + 1)
    (actor cmp sources 0 [] (List.replicate sources.length [])).1
    (actor cmp sources 0 [] (List.replicate sources.length [])).2 (by omega)
  have := drain_amerge cmp (sources.flatten.length + 1) _ block idx h3
  rw [h1, h2, ho] at this
  cases hd : drain cmp (sources.flatten.length + 1)
    (construct cmp sources : MergeReader Block NewAllocator) block idx with
  | none => rw [hd] at this; simp at this
  | some res => exact ⟨res, rfl⟩

theorem drain_new_out [Inhabited Block] (sources : List (List Block)) (block : Block)
    (idx fuel : Nat) (res : List (Block × Nat) × MergeReader Block NewAllocator)
    (h : drain cmp fuel (construct cmp sources : MergeReader Block NewAllocator) block idx =
      some res) :
    amerge cmp fuel (actor cmp sources 0 [] (List.replicate sources.length [])).1
      (actor cmp sources 0 [] (List.replicate sources.length [])).2 = some res.1 := by
  obtain ⟨h1, h2, h3⟩ := construct_new cmp sources
  have := drain_amerge cmp fuel _ block idx h3
  rw [h1, h2, h] at this
  exact this.symm

theorem get_next_nil [BlockAllocator A] (s : MergeReader Block A) (idx : Option Nat)
    (hm : s._map = []) :
    get_next cmp s idx = (none, idx, { s with _map_iter := none }) := by
  unfold get_next; dsimp only
  rw [hm]; rfl

theorem get_next_cons [BlockAllocator A] (s : MergeReader Block A) (idx : Option Nat)
    (hs : MapBuf s) (e : Nat × Nat) (t : List (Nat × Nat)) (hm : s._map = e :: t) :
    (get_next cmp s idx).1 = some e.1 ∧
    (get_next cmp s idx).2.1 = idx.map (fun _ => e.2) := by
  have he := hs.2 e (by rw [hm]; exact List.mem_cons_self _ _)
  unfold get_next; dsimp only
  rw [hm]; dsimp only [List.head?]
  exact ⟨he, rfl⟩

theorem Reachable.newInv [Inhabited Block] {cmp : Block → Block → Bool}
    {s : MergeReader Block NewAllocator} (h : Reachable cmp s) : NewInv s := by
  induction h with
  | construct filenames => exact (construct_new cmp filenames).2.2
  | get_next s idx _ ih =>
    cases hm : s._map with
    | nil => rw [get_next_nil cmp s idx hm]; exact ih
    | cons e t => exact (get_next_new cmp s idx ih e t hm).2.2.2.2.2
  | get_next_block s block idx _ ih =>
    cases hm : s._map with
    | nil => rw [get_next_block_nil cmp s block idx hm]; exact ih
    | cons e t => exact (get_next_block_new cmp s block idx ih e t hm).2.2.2.2.2
  | see_next s _ ih => rw [see_next_state]; exact ih

theorem construct_loop [Inhabited Block] (sources : List (List Block))
    (hN : sources.length < 2 ^ 31) :
    heads (construct cmp sources : MergeReader Block LoopAllocator) =
      (actor cmp sources 0 [] (List.replicate sources.length [])).1 := by
  have h := ctor_loop_view cmp
    (fun k (a : LoopAllocator) => a._pos = k ∧ a._size = sources.length * 2) sources.length
    (fun k a h => h.1)
    (fun k a hk h => by
      refine ⟨?_, h.2⟩
      show ((a._pos + 1) % 2 ^ 32) % a._size = k + 1
      rw [h.1, h.2, Nat.mod_eq_of_lt (by omega), Nat.mod_eq_of_lt (by omega)])
    (fun k a p h => h) sources
    { init ({ _allocator := BlockAllocator.create sources.length
              _count := 0
              _nb_files := sources.length
              _files := []
              _read_buf := []
              _map := []
              _map_iter := none
              _idx := 0
              heap := fun _ => default } : MergeReader Block LoopAllocator) with _idx := 0 }
    ⟨rfl, by show (sources.length * 2) % 2 ^ 32 = _; exact Nat.mod_eq_of_lt (by omega)⟩
    (by simp) (by simp [init]) (fun e he => absurd he (List.not_mem_nil e))
  exact h.1

theorem get_next_block_fst [BlockAllocator A] (s : MergeReader Block A) (block : Block)
    (idx : Option Nat) :
    (get_next_block cmp s block idx).1 = (get_next cmp s idx).1.isSome ∧
    (get_next_block cmp s block idx).2.2.1 = (get_next cmp s idx).2.1 := by
  unfold get_next_block; dsimp only
  split
  · rename_i h; rw [h]; exact ⟨rfl, rfl⟩
  · rename_i tmp h; rw [h]; exact ⟨rfl, rfl⟩

theorem first_report [BlockAllocator A] [Inhabited Block] (hswo : StrictWeakOrder cmp)
    (sources : List (List Block))
    (hview : heads (construct cmp sources : MergeReader Block A) =
      (actor cmp sources 0 [] (List.replicate sources.length [])).1) (block : Block)
    (v : Nat) :
    ReportsLeastMinimal cmp sources
      (get_next cmp (construct cmp sources : MergeReader Block A) (some v)).1.isSome
      (get_next cmp (construct cmp sources : MergeReader Block A) (some v)).2.1 ∧
    ReportsLeastMinimal cmp sources
      (get_next_block cmp (construct cmp sources : MergeReader Block A) block (some v)).1
      (get_next_block cmp (construct cmp sources : MergeReader Block A) block
        (some v)).2.2.1 := by
  obtain ⟨g1, g2⟩ := get_next_block_fst cmp
    (construct cmp sources : MergeReader Block A) block (some v)
  rw [g1, g2, and_self]
  obtain ⟨a1, _, a3⟩ := start_spec cmp sources
  have hst := actor_stable cmp hswo sources 0 [] (List.replicate sources.length [])
    List.Pairwise.nil (fun e he => absurd he (List.not_mem_nil e))
  obtain ⟨b1, b2⟩ := first_index_minimal cmp hswo sources _ _ a1 hst a3
  rw [← hview] at b1 b2
  unfold ReportsLeastMinimal
  cases hm : (construct cmp sources : MergeReader Block A)._map with
  | nil =>
    have hh : heads (construct cmp sources : MergeReader Block A) = [] := by
      unfold heads; rw [hm]; rfl
    rw [get_next_nil cmp _ _ hm]
    refine ⟨fun _ => rfl, fun hj => ?_⟩
    obtain ⟨j, hj⟩ := hj
    exact absurd (b1 hh j) hj
  | cons e t =>
    obtain ⟨c1, c2⟩ := get_next_cons cmp _ (some v) (construct_mapBuf cmp sources) e t hm
    have hh : heads (construct cmp sources : MergeReader Block A) =
        ((construct cmp sources : MergeReader Block A).heap e.1, e.2) ::
          t.map fun x => ((construct cmp sources : MergeReader Block A).heap x.1, x.2) := by
      unfold heads; rw [hm]; rfl
    obtain ⟨d1, d2⟩ := b2 _ _ hh
    refine ⟨fun hall => ?_, fun _ => ⟨by rw [c1]; rfl, e.2, c2, d1, d2⟩⟩
    obtain ⟨b, hb, _⟩ := d1
    rw [hall e.2] at hb
    simp at hb

end newAllocator

/-! ## Invariants of the reader with any allocator -/

section general_allocator
variable [BlockAllocator A] (cmp : Block → Block → Bool)

theorem load_block_nb_files (s : MergeReader Block A) :
    (load_block cmp s)._nb_files = s._nb_files := by
  unfold load_block buffurize; dsimp only
  split <;> split <;> rfl

theorem load_block_read_buf_length (s : MergeReader Block A) :
    (load_block cmp s)._read_buf.length = s._read_buf.length := by
  unfold load_block buffurize; dsimp only
  split <;> split <;> simp

theorem load_block_shape (s : MergeReader Block A) (hlen : s._idx < s._read_buf.length) :
    (s._files.getD s._idx [] = [] ∧ (load_block cmp s)._map = s._map ∧
      (load_block cmp s)._files = s._files ∧
      (load_block cmp s)._read_buf.getD s._idx none = none) ∨
    (∃ b rest, s._files.getD s._idx [] = b :: rest ∧
      (load_block cmp s)._map.Perm
        (((BlockAllocator.allocate s._allocator).1, s._idx) :: s._map) ∧
      (load_block cmp s)._files = s._files.set s._idx rest ∧
      (load_block cmp s)._read_buf.getD s._idx none =
        some (BlockAllocator.allocate s._allocator).1) := by
  cases hF : s._files.getD s._idx [] with
  | nil =>
    refine Or.inl ⟨rfl, ?_⟩
    rw [load_block_nil cmp s hF]
    refine ⟨rfl, rfl, ?_⟩
    dsimp only
    rw [getD_set_self _ _ _ _ (by simpa using hlen)]
  | cons b rest =>
    refine Or.inr ⟨b, rest, rfl, ?_⟩
    rw [load_block_cons cmp s b rest hF hlen]
    exact ⟨map_insert_perm _ _ _ _, rfl, getD_set_self _ _ _ _ hlen⟩

theorem load_block_slotInv (s : MergeReader Block A)
    (hlen : s._idx < s._read_buf.length)
    (h1 : ∀ j p, j ≠ s._idx → s._read_buf.getD j none = some p → (p, j) ∈ s._map)
    (h2 : ∀ j, j ≠ s._idx → j ∉ s._map.map Prod.snd → s._files.getD j [] = [])
    (h3 : s._read_buf.length = s._nb_files) : SlotInv (load_block cmp s) := by
  have hrb := load_block_read_buf_ne cmp s
  refine ⟨?_, ?_, by rw [load_block_read_buf_length, load_block_nb_files]; exact h3⟩
  · intro j p hj
    rcases load_block_shape cmp s hlen with ⟨_, hm, _, hs⟩ | ⟨b, rest, _, hm, _, hs⟩
    · by_cases hji : j = s._idx
      · rw [hji, hs] at hj; exact absurd hj (by simp)
      · rw [hrb j hji] at hj
        rw [hm]; exact h1 j p hji hj
    · by_cases hji : j = s._idx
      · rw [hji, hs] at hj
        simp only [Option.some.injEq] at hj
        rw [hm.mem_iff, hji, ← hj]
        exact List.mem_cons_self _ _
      · rw [hrb j hji] at hj
        rw [hm.mem_iff]
        exact List.mem_cons_of_mem _ (h1 j p hji hj)
  · intro j hj
    rcases load_block_shape cmp s hlen with ⟨hF, hm, hf, _⟩ | ⟨b, rest, _, hm, hf, _⟩
    · rw [hf]
      rw [hm] at hj
      by_cases hji : j = s._idx
      · rw [hji]; exact hF
      · exact h2 j hji hj
    · rw [hf]
      have hj2 : j ∉ ((((BlockAllocator.allocate s._allocator).1, s._idx) :: s._map).map
          Prod.snd) := fun hh => hj ((hm.map Prod.snd).mem_iff.2 hh)
      simp only [List.map_cons, List.mem_cons, not_or] at hj2
      rw [getD_set_ne _ _ _ _ _ (fun e => hj2.1 e.symm)]
      exact h2 j hj2.1 hj2.2

theorem load_block_remaining (s : MergeReader Block A) (hlen : s._idx < s._read_buf.length) :
    (load_block cmp s)._map.length + (load_block cmp s)._files.flatten.length =
      s._map.length + s._files.flatten.length := by
  rcases load_block_shape cmp s hlen with ⟨_, hm, hf, _⟩ | ⟨b, rest, hF, hm, hf, _⟩
  · rw [hm, hf]
  · rw [hm.length_eq, hf]
    have := (flatten_set_perm s._files s._idx b rest hF).length_eq
    simp only [List.length_cons] at this ⊢
    omega

theorem get_next_eq (s : MergeReader Block A) (idx : Option Nat) (hs : MapBuf s)
    (e : Nat × Nat) (t : List (Nat × Nat)) (hm : s._map = e :: t) :
    get_next cmp s idx =
      (some e.1, idx.map (fun _ => e.2),
        { load_block cmp { s with _map_iter := some e, _idx := e.2, _map := t } with
          _count :=
            (load_block cmp { s with _map_iter := some e, _idx := e.2, _map := t })._count
              + 1 }) := by
  have he := hs.2 e (by rw [hm]; exact List.mem_cons_self _ _)
  unfold get_next; dsimp only
  rw [hm]; dsimp only [List.head?, List.tail]
  rw [he]

theorem get_next_slotInv (s : MergeReader Block A) (idx : Option Nat) (hs : MapBuf s)
    (hi : SlotInv s) : SlotInv (get_next cmp s idx).2.2 := by
  cases hm : s._map with
  | nil => rw [get_next_nil cmp s idx hm]; exact hi
  | cons e t =>
    rw [get_next_eq cmp s idx hs e t hm]
    have he := hs.2 e (by rw [hm]; exact List.mem_cons_self _ _)
    have hnd := hs.1
    rw [hm, List.map_cons, List.nodup_cons] at hnd
    refine load_block_slotInv cmp { s with _map_iter := some e, _idx := e.2, _map := t }
      (lt_length_of_getD he (by simp)) ?_ ?_ hi.2.2
    · intro j p hj hp
      have := hi.1 j p hp
      rw [hm] at this
      rcases List.mem_cons.1 this with h | h
      · exact absurd (congrArg Prod.snd h) hj
      · exact h
    · intro j hj hjt
      refine hi.2.1 j ?_
      rw [hm, List.map_cons, List.mem_cons, not_or]
      exact ⟨hj, hjt⟩

theorem get_next_remaining (s : MergeReader Block A) (idx : Option Nat) (hs : MapBuf s)
    (e : Nat × Nat) (t : List (Nat × Nat)) (hm : s._map = e :: t) :
    (get_next cmp s idx).2.2._map.length + (get_next cmp s idx).2.2._files.flatten.length + 1 =
      s._map.length + s._files.flatten.length := by
  rw [get_next_eq cmp s idx hs e t hm]
  have he := hs.2 e (by rw [hm]; exact List.mem_cons_self _ _)
  have := load_block_remaining cmp { s with _map_iter := some e, _idx := e.2, _map := t }
    (lt_length_of_getD he (by simp))
  dsimp only at this ⊢
  rw [this, hm, List.length_cons]
  omega

theorem get_next_block_state (s : MergeReader Block A) (block : Block) (idx : Option Nat) :
    (get_next_block cmp s block idx).2.2.2._map = (get_next cmp s idx).2.2._map ∧
    (get_next_block cmp s block idx).2.2.2._files = (get_next cmp s idx).2.2._files ∧
    (get_next_block cmp s block idx).2.2.2._read_buf = (get_next cmp s idx).2.2._read_buf ∧
    (get_next_block cmp s block idx).2.2.2._nb_files = (get_next cmp s idx).2.2._nb_files ∧
    (get_next_block cmp s block idx).2.2.2._count = (get_next cmp s idx).2.2._count ∧
    (get_next_block cmp s block idx).2.2.2.heap = (get_next cmp s idx).2.2.heap ∧
    (get_next_block cmp s block idx).2.2.2._idx = (get_next cmp s idx).2.2._idx := by
  unfold get_next_block; dsimp only
  split <;> exact ⟨rfl, rfl, rfl, rfl, rfl, rfl, rfl⟩

theorem get_next_block_slotInv (s : MergeReader Block A) (block : Block) (idx : Option Nat)
    (hs : MapBuf s) (hi : SlotInv s) : SlotInv (get_next_block cmp s block idx).2.2.2 := by
  have h := get_next_slotInv cmp s idx hs hi
  obtain ⟨a1, a2, a3, a4, _⟩ := get_next_block_state cmp s block idx
  unfold SlotInv
  rw [a1, a2, a3, a4]
  exact h

theorem ctor_loop_slotInv (fs : List (List Block)) :
    ∀ s : MergeReader Block A, MapBuf s → SlotInv s → (∀ e ∈ s._map, e.2 < s._idx) →
      s._idx + fs.length ≤ s._read_buf.length → s._idx + fs.length ≤ s._files.length →
      (∀ j, s._idx ≤ j → s._files.getD j [] = []) →
      SlotInv (ctor_loop cmp fs s) ∧
      (ctor_loop cmp fs s)._map.length + (ctor_loop cmp fs s)._files.flatten.length =
        s._map.length + s._files.flatten.length + fs.flatten.length := by
  induction fs with
  | nil => intro s _ hi _ _ _ _; exact ⟨hi, by simp [ctor_loop]⟩
  | cons f rest ih =>
    intro s hs hi hlt hlen hflen hF
    simp only [List.length_cons] at hlen hflen
    obtain ⟨s1, hs1⟩ : ∃ x, x = { s with _files := s._files.set s._idx f } := ⟨_, rfl⟩
    have h1i : s1._idx = s._idx := by rw [hs1]
    have h1m : s1._map = s._map := by rw [hs1]
    have h1r : s1._read_buf = s._read_buf := by rw [hs1]
    have h1f : s1._files = s._files.set s._idx f := by rw [hs1]
    have h1n : s1._nb_files = s._nb_files := by rw [hs1]
    have hlen1 : s1._idx < s1._read_buf.length := by rw [h1i, h1r]; omega
    have hmb1 : MapBuf s1 := by rw [hs1]; exact hs
    have hnot : s1._idx ∉ s1._map.map Prod.snd := by
      rw [h1i, h1m]
      intro hmem
      obtain ⟨e, he, hei⟩ := List.mem_map.1 hmem
      have := hlt e he
      omega
    have hsl := load_block_slotInv cmp s1 hlen1
      (by rw [h1i, h1r, h1m]; intro j p _ hp; exact hi.1 j p hp)
      (by
        rw [h1i, h1m, h1f]; intro j hj hjm
        rw [getD_set_ne _ _ _ _ _ (fun e => hj e.symm)]
        exact hi.2.1 j hjm)
      (by rw [h1r, h1n]; exact hi.2.2)
    have hmb2 := load_block_mapBuf cmp s1 hmb1 hnot
    have hrem := load_block_remaining cmp s1 hlen1
    have hsh := load_block_shape cmp s1 hlen1
    obtain ⟨s3, hs3⟩ : ∃ x, x = { load_block cmp s1 with
      _idx := (load_block cmp s1)._idx + 1 } := ⟨_, rfl⟩
    have h3i : s3._idx = s._idx + 1 := by rw [hs3]; simp [h1i]
    have h3m : s3._map = (load_block cmp s1)._map := by rw [hs3]
    have h3r : s3._read_buf = (load_block cmp s1)._read_buf := by rw [hs3]
    have h3f : s3._files = (load_block cmp s1)._files := by rw [hs3]
    have hc : ctor_loop cmp (f :: rest) s = ctor_loop cmp rest s3 := by
      rw [hs3, hs1]; rfl
    have hfl : s3._files.length = s._files.length ∧
        ∀ j, s._idx + 1 ≤ j → s3._files.getD j [] = [] := by
      rw [h3f]
      rcases hsh with ⟨_, _, hf, _⟩ | ⟨b, r, _, _, hf, _⟩
      · rw [hf, h1f]
        refine ⟨by simp, fun j hj => ?_⟩
        rw [getD_set_ne _ _ _ _ _ (by omega)]
        exact hF j (by omega)
      · rw [hf, h1f, h1i]
        refine ⟨by simp, fun j hj => ?_⟩
        rw [getD_set_ne _ _ _ _ _ (by omega), getD_set_ne _ _ _ _ _ (by omega)]
        exact hF j (by omega)
    obtain ⟨c1, c2⟩ := ih s3 (by rw [hs3]; exact hmb2) (by rw [hs3]; exact hsl)
      (by
        intro e he
        rw [h3m] at he
        rw [h3i]
        rcases load_block_map_mem cmp s1 e he with h | h
        · rw [h1m] at h; have := hlt e h; omega
        · rw [h1i] at h; omega)
      (by rw [h3i, h3r, load_block_read_buf_length, h1r]; omega)
      (by rw [h3i, hfl.1]; omega)
      (by rw [h3i]; exact hfl.2)
    rw [hc]
    refine ⟨c1, ?_⟩
    rw [c2, h3m, h3f, hrem, h1m, h1f]
    have := (flatten_set_of_nil s._files s._idx f (hF _ (Nat.le_refl _)) (by omega)).length_eq
    simp only [List.length_append, List.flatten_cons] at this ⊢
    omega

theorem construct_slotInv [Inhabited Block] (sources : List (List Block)) :
    SlotInv (construct cmp sources : MergeReader Block A) ∧
    (construct cmp sources : MergeReader Block A)._map.length +
      (construct cmp sources : MergeReader Block A)._files.flatten.length =
        sources.flatten.length := by
  unfold construct; dsimp only
  have := ctor_loop_slotInv cmp sources
    { init ({ _allocator := BlockAllocator.create sources.length
              _count := 0
              _nb_files := sources.length
              _files := []
              _read_buf := []
              _map := []
              _map_iter := none
              _idx := 0
              heap := fun _ => default } : MergeReader Block A) with _idx := 0 }
    ⟨List.nodup_nil, fun e he => absurd he (List.not_mem_nil e)⟩
    ⟨fun i p hp => by
        simp [init, List.getD_eq_getElem?_getD, List.getElem?_replicate] at hp
        split at hp <;> simp at hp,
      fun i _ => getD_replicate_nil _ i, by simp [init]⟩
    (fun e he => absurd he (List.not_mem_nil e)) (by simp [init]) (by simp [init])
    (fun j _ => getD_replicate_nil _ j)
  refine ⟨this.1, ?_⟩
  rw [this.2]
  simp [init, flatten_replicate_nil]

theorem Reachable.slotInv [Inhabited Block] {cmp : Block → Block → Bool}
    {s : MergeReader Block A} (h : Reachable cmp s) : SlotInv s := by
  induction h with
  | construct filenames => exact (construct_slotInv cmp filenames).1
  | get_next s idx h ih => exact get_next_slotInv cmp s idx h.mapBuf ih
  | get_next_block s block idx h ih => exact get_next_block_slotInv cmp s block idx h.mapBuf ih
  | see_next s _ ih => rw [see_next_state]; exact ih

theorem get_next_count (s : MergeReader Block A) (idx : Option Nat) (hs : MapBuf s)
    (e : Nat × Nat) (t : List (Nat × Nat)) (hm : s._map = e :: t) :
    (get_next cmp s idx).2.2._count = s._count + 1 := by
  rw [get_next_eq cmp s idx hs e t hm]
  simp only [load_block_count]

theorem drain_remaining (n : Nat) :
    ∀ (s : MergeReader Block A) (block : Block) (idx : Nat), MapBuf s → SlotInv s →
      s._map.length + s._files.flatten.length = n →
      drain cmp n s block idx = none ∧
      ∃ res, drain cmp (n + 1) s block idx = some res ∧ res.1.length = n ∧
        count res.2 = count s + n := by
  induction n with
  | zero =>
    intro s block idx _ _ hn
    have hm : s._map = [] := List.length_eq_zero.1 (by omega)
    refine ⟨rfl, ?_⟩
    unfold drain; dsimp only
    rw [get_next_block_nil cmp s block (some idx) hm]
    exact ⟨_, rfl, rfl, rfl⟩
  | succ k ih =>
    intro s block idx hs hi hn
    cases hm : s._map with
    | nil =>
      have := flatten_eq_nil s._files (fun i => hi.2.1 i (by rw [hm]; simp))
      rw [hm, this] at hn
      simp at hn
    | cons e t =>
      obtain ⟨g1, g2⟩ := get_next_block_fst cmp s block (some idx)
      obtain ⟨a1, a2, a3, a4, a5, _⟩ := get_next_block_state cmp s block (some idx)
      have hg := get_next_cons cmp s (some idx) hs e t hm
      have hrem := get_next_remaining cmp s (some idx) hs e t hm
      have hcnt := get_next_count cmp s (some idx) hs e t hm
      have htrue : (get_next_block cmp s block (some idx)).1 = true := by
        rw [g1, hg.1]; rfl
      have hmb : MapBuf (get_next_block cmp s block (some idx)).2.2.2 :=
        get_next_block_mapBuf cmp s block (some idx) hs
      have hsl := get_next_block_slotInv cmp s block (some idx) hs hi
      obtain ⟨b1, res, b2, b3, b4⟩ := ih (get_next_block cmp s block (some idx)).2.2.2
        (get_next_block cmp s block (some idx)).2.1
        ((get_next_block cmp s block (some idx)).2.2.1.getD idx) hmb hsl
        (by rw [a1, a2]; omega)
      constructor
      · unfold drain; dsimp only
        rw [if_pos htrue, b1]; rfl
      · refine ⟨(((get_next_block cmp s block (some idx)).2.1,
          (get_next_block cmp s block (some idx)).2.2.1.getD idx) :: res.1, res.2), ?_, ?_, ?_⟩
        · rw [drain, if_pos htrue, b2]; rfl
        · simp only [List.length_cons, b3]
        · dsimp only
          rw [b4]
          unfold count
          rw [a5, hcnt]
          omega

end general_allocator

/-! ## Further facts with any allocator -/

section general_steps
variable (cmp : Block → Block → Bool)

theorem load_block_allocator [BlockAllocator A] (s : MergeReader Block A) :
    ((load_block cmp s)._allocator = (BlockAllocator.allocate s._allocator).2 ∨
      (load_block cmp s)._allocator =
        BlockAllocator.free (BlockAllocator.allocate s._allocator).2
          (BlockAllocator.allocate s._allocator).1) ∧
    ∀ q, q ≠ (BlockAllocator.allocate s._allocator).1 →
      (load_block cmp s).heap q = s.heap q := by
  unfold load_block buffurize; dsimp only
  split <;> split
  · exact ⟨Or.inl rfl, fun q hq => by simp [hq]⟩
  · exact ⟨Or.inr rfl, fun q _ => rfl⟩
  · exact ⟨Or.inl rfl, fun q hq => by simp [hq]⟩
  · exact ⟨Or.inr rfl, fun q _ => rfl⟩

theorem get_next_step [BlockAllocator A] (s : MergeReader Block A) (idx : Option Nat) :
    (s._map = [] ∧ (get_next cmp s idx).2.2 = { s with _map_iter := none }) ∨
    (s._map ≠ [] ∧ (get_next cmp s idx).2.2._count = s._count + 1 ∧
      (get_next cmp s idx).2.2._nb_files = s._nb_files ∧
      ((get_next cmp s idx).2.2._allocator = (BlockAllocator.allocate s._allocator).2 ∨
        (get_next cmp s idx).2.2._allocator =
          BlockAllocator.free (BlockAllocator.allocate s._allocator).2
            (BlockAllocator.allocate s._allocator).1) ∧
      ∀ q, q ≠ (BlockAllocator.allocate s._allocator).1 →
        (get_next cmp s idx).2.2.heap q = s.heap q) := by
  obtain hm | ⟨e, t, hm⟩ : s._map = [] ∨ ∃ e t, s._map = e :: t := by
    cases s._map with
    | nil => exact Or.inl rfl
    | cons e t => exact Or.inr ⟨e, t, rfl⟩
  · exact Or.inl ⟨hm, by rw [get_next_nil cmp s idx hm]⟩
  · refine Or.inr ⟨by rw [hm]; simp, ?_⟩
    have hg : (get_next cmp s idx).2.2 =
        { load_block cmp { s with _map_iter := some e, _idx := e.2, _map := t } with
          _count :=
            (load_block cmp { s with _map_iter := some e, _idx := e.2, _map := t })._count
              + 1 } := by
      unfold get_next; dsimp only
      rw [hm]; rfl
    rw [hg]
    have ha := load_block_allocator cmp
      { s with _map_iter := some e, _idx := e.2, _map := t }
    exact ⟨by simp only [load_block_count], load_block_nb_files cmp _, ha.1, ha.2⟩

theorem get_next_iter_count [BlockAllocator A] (m : Nat) :
    ∀ s : MergeReader Block A, s._count ≤ (get_next_iter cmp m s)._count := by
  induction m with
  | zero => intro s; exact Nat.le_refl _
  | succ m ih =>
    intro s
    unfold get_next_iter
    refine Nat.le_trans ?_ (ih _)
    rcases get_next_step cmp s none with ⟨_, h⟩ | ⟨_, h, _⟩
    · rw [h]
    · rw [h]; omega

theorem ctor_loop_nb_files [BlockAllocator A] (fs : List (List Block)) :
    ∀ s : MergeReader Block A, (ctor_loop cmp fs s)._nb_files = s._nb_files := by
  induction fs with
  | nil => intro s; rfl
  | cons f rest ih =>
    intro s
    unfold ctor_loop; dsimp only
    rw [ih]
    exact load_block_nb_files cmp _

theorem get_next_nb_files [BlockAllocator A] (s : MergeReader Block A) (idx : Option Nat) :
    (get_next cmp s idx).2.2._nb_files = s._nb_files := by
  rcases get_next_step cmp s idx with ⟨_, hg⟩ | ⟨_, _, hn, _, _⟩
  · rw [hg]
  · exact hn

theorem get_next_idx [BlockAllocator A] (s : MergeReader Block A) (idx : Option Nat)
    (hs : MapBuf s) (e : Nat × Nat) (t : List (Nat × Nat)) (hm : s._map = e :: t) :
    (get_next cmp s idx).2.2._idx = e.2 := by
  rw [get_next_eq cmp s idx hs e t hm]
  simp only [load_block_idx]

theorem get_next_none [BlockAllocator A] (s : MergeReader Block A) (idx : Option Nat)
    (hs : MapBuf s) (h : (get_next cmp s idx).1 = none) : s._map = [] := by
  cases hm : s._map with
  | nil => rfl
  | cons e t =>
    rw [(get_next_cons cmp s idx hs e t hm).1] at h
    exact absurd h (by simp)

theorem get_next_block_false [BlockAllocator A] (s : MergeReader Block A) (block : Block)
    (idx : Option Nat) (hs : MapBuf s) (h : (get_next_block cmp s block idx).1 = false) :
    s._map = [] := by
  apply get_next_none cmp s idx hs
  have := (get_next_block_fst cmp s block idx).1
  rw [h] at this
  cases hg : (get_next cmp s idx).1 with
  | none => rfl
  | some p => rw [hg] at this; exact absurd this (by simp)

end general_steps

theorem filter_length_range (l : List (Option Nat)) :
    (l.filter Option.isSome).length =
      ((List.range l.length).filter fun i => (l.getD i none).isSome).length := by
  have hl : l = (List.range l.length).map fun i => l.getD i none := by
    apply List.ext_getElem
    · simp
    · intro n h1 h2
      simp [List.getD_eq_getElem?_getD, List.getElem?_eq_getElem h1]
  conv_lhs => rw [hl]
  rw [List.filter_map, List.length_map]
  rfl

theorem map_length_eq_buffered (l : List (Option Nat)) (M : List (Nat × Nat))
    (hnd : (M.map Prod.snd).Nodup) (h1 : ∀ e ∈ M, l.getD e.2 none = some e.1)
    (h2 : ∀ i p, l.getD i none = some p → (p, i) ∈ M) :
    M.length = (l.filter Option.isSome).length := by
  rw [filter_length_range, ← List.length_map M Prod.snd]
  apply List.Perm.length_eq
  rw [List.perm_ext_iff_of_nodup hnd ((List.nodup_range _).filter _)]
  intro i
  rw [List.mem_filter, List.mem_range]
  constructor
  · intro hi
    obtain ⟨e, he, hei⟩ := List.mem_map.1 hi
    have := h1 e he
    rw [hei] at this
    exact ⟨lt_length_of_getD this (by simp), by rw [this]; rfl⟩
  · intro hi
    cases hp : l.getD i none with
    | none => rw [hp] at hi; exact absurd hi.2 (by simp)
    | some p => exact List.mem_map.2 ⟨(p, i), h2 i p hp, rfl⟩


/-! ## Slots and traces -/

section slots_traces
variable [BlockAllocator A] [Inhabited Block] (cmp : Block → Block → Bool)

theorem trace_reachable (sources : List (List Block)) (out : List (Block × Nat))
    (s : MergeReader Block A) (h : Trace cmp sources out s) : Reachable cmp s := by
  induction h with
  | construct => exact Reachable.construct _
  | see_next out s _ ih => exact Reachable.see_next s ih
  | get_next_null out s idx _ _ ih => exact Reachable.get_next s idx ih
  | get_next out s idx p _ _ ih => exact Reachable.get_next s idx ih
  | get_next_block_false out s block idx _ _ ih => exact Reachable.get_next_block s block idx ih
  | get_next_block out s block idx _ _ ih => exact Reachable.get_next_block s block idx ih

theorem trace_nb_files (sources : List (List Block)) (out : List (Block × Nat))
    (s : MergeReader Block A) (h : Trace cmp sources out s) :
    s._nb_files = sources.length := by
  induction h with
  | construct =>
    unfold construct; dsimp only
    rw [ctor_loop_nb_files]; rfl
  | see_next out s _ ih => rw [see_next_state]; exact ih
  | get_next_null out s idx _ _ ih => rw [get_next_nb_files]; exact ih
  | get_next out s idx p _ _ ih => rw [get_next_nb_files]; exact ih
  | get_next_block_false out s block idx _ _ ih =>
    rw [(get_next_block_state cmp s block idx).2.2.2.1, get_next_nb_files]; exact ih
  | get_next_block out s block idx _ _ ih =>
    rw [(get_next_block_state cmp s block idx).2.2.2.1, get_next_nb_files]; exact ih

end slots_traces

/-! ## The ring of `LoopAllocator` -/

section ring
variable (cmp : Block → Block → Bool)

theorem allocations_append (ops1 ops2 : List (Option Nat)) :
    allocations (ops1 ++ ops2) = allocations ops1 + allocations ops2 := by
  induction ops1 with
  | nil => simp [allocations]
  | cons o ops ih =>
    cases o with
    | none =>
      show allocations (ops ++ ops2) + 1 = allocations ops + 1 + allocations ops2
      rw [ih]; omega
    | some p => exact ih

theorem LoopAllocator.run_spec (M : Nat) (hM : M < 2 ^ 32) (ops : List (Option Nat)) :
    ∀ a : LoopAllocator, a._size = M → a._pos < M →
      (LoopAllocator.run ops a)._size = M ∧
      (LoopAllocator.run ops a)._pos = (a._pos + allocations ops) % M := by
  induction ops with
  | nil =>
    intro a hs hp
    exact ⟨hs, by simp [LoopAllocator.run, allocations, Nat.mod_eq_of_lt hp]⟩
  | cons o ops ih =>
    intro a hs hp
    cases o with
    | none =>
      have h1 : (LoopAllocator.allocate a).2._size = M := hs
      have h2 : (LoopAllocator.allocate a).2._pos = (a._pos + 1) % M := by
        show ((a._pos + 1) % 2 ^ 32) % a._size = _
        rw [hs, Nat.mod_eq_of_lt (show a._pos + 1 < 2 ^ 32 by omega)]
      obtain ⟨b1, b2⟩ := ih (LoopAllocator.allocate a).2 h1
        (by rw [h2]; exact Nat.mod_lt _ (by omega))
      refine ⟨b1, ?_⟩
      show (LoopAllocator.run ops (LoopAllocator.allocate a).2)._pos = _
      rw [b2, h2, Nat.mod_add_mod]
      simp only [allocations]
      congr 1
      omega
    | some p => exact ih a hs hp

theorem mod_ne_of_lt (M i d : Nat) (h1 : 0 < d) (h2 : d < M) : (i + d) % M ≠ i % M := by
  intro h
  have h3 : (i + d) % M = (i % M + d) % M := by rw [Nat.mod_add_mod]
  rw [h3] at h
  have hi : i % M < M := Nat.mod_lt _ (by omega)
  by_cases hc : i % M + d < M
  · rw [Nat.mod_eq_of_lt hc] at h; omega
  · have h4 : (i % M + d) % M = i % M + d - M := by
      rw [Nat.mod_eq_sub_mod (by omega), Nat.mod_eq_of_lt (by omega)]
    rw [h4] at h
    omega

theorem pred_mod (M X d : Nat) (hX : X % M = d) (hd : 1 ≤ d) (hM : 0 < M) :
    (X - 1) % M = d - 1 := by
  have h1 := Nat.div_add_mod X M
  have hlt : d < M := by rw [← hX]; exact Nat.mod_lt _ hM
  have h2 : X - 1 = M * (X / M) + (d - 1) := by rw [hX] at h1; omega
  rw [h2, Nat.mul_add_mod, Nat.mod_eq_of_lt (by omega)]

theorem ring_dist_succ (M P q : Nat) (hP : P < M) (hd : 1 ≤ (q + M - P) % M) :
    q ≠ P ∧ (q + M - (P + 1) % M) % M = (q + M - P) % M - 1 := by
  constructor
  · intro h
    rw [h] at hd
    have : P + M - P = M := by omega
    rw [this, Nat.mod_self] at hd
    omega
  · have key := pred_mod M (q + M - P) _ rfl hd (by omega)
    by_cases hc : P + 1 < M
    · rw [Nat.mod_eq_of_lt hc, ← key]
      congr 1
    · have hPM : P + 1 = M := by omega
      rw [hPM, Nat.mod_self, ← key]
      have : q + M - P - 1 = q := by omega
      rw [this, Nat.sub_zero, Nat.add_mod_right]

theorem get_next_loopInv (s : MergeReader Block LoopAllocator) (idx : Option Nat)
    (h : LoopInv s) :
    LoopInv (get_next cmp s idx).2.2 ∧
    (get_next cmp s idx).2.2._nb_files = s._nb_files := by
  rcases get_next_step cmp s idx with ⟨_, hg⟩ | ⟨_, _, hn, ha, _⟩
  · rw [hg]; exact ⟨h, rfl⟩
  · refine ⟨?_, hn⟩
    unfold LoopInv
    rw [hn]
    have h1 : (LoopAllocator.allocate s._allocator).2._size = s._allocator._size := rfl
    have h2 : (LoopAllocator.allocate s._allocator).2._pos < s._allocator._size :=
      Nat.mod_lt _ (by have := h.2; omega)
    rcases ha with ha | ha <;> rw [ha]
    · exact ⟨h.1, h2⟩
    · exact ⟨h.1, h2⟩

theorem construct_loopInv [Inhabited Block] (sources : List (List Block))
    (h1 : 1 ≤ sources.length) (hN : sources.length < 2 ^ 31) :
    LoopInv (construct cmp sources : MergeReader Block LoopAllocator) ∧
    (construct cmp sources : MergeReader Block LoopAllocator)._nb_files =
      sources.length := by
  have h := ctor_loop_view cmp
    (fun k (a : LoopAllocator) => a._pos = k ∧ a._size = sources.length * 2) sources.length
    (fun k a h => h.1)
    (fun k a hk h => by
      refine ⟨?_, h.2⟩
      show ((a._pos + 1) % 2 ^ 32) % a._size = k + 1
      rw [h.1, h.2, Nat.mod_eq_of_lt (show k + 1 < 2 ^ 32 by omega),
        Nat.mod_eq_of_lt (by omega)])
    (fun k a p h => h) sources
    { init ({ _allocator := BlockAllocator.create sources.length
              _count := 0
              _nb_files := sources.length
              _files := []
              _read_buf := []
              _map := []
              _map_iter := none
              _idx := 0
              heap := fun _ => default } : MergeReader Block LoopAllocator) with _idx := 0 }
    ⟨rfl, by show (sources.length * 2) % 2 ^ 32 = _; exact Nat.mod_eq_of_lt (by omega)⟩
    (by simp) (by simp [init]) (fun e he => absurd he (List.not_mem_nil e))
  have hn : (construct cmp sources : MergeReader Block LoopAllocator)._nb_files =
      sources.length := by
    unfold construct; dsimp only
    rw [ctor_loop_nb_files]; rfl
  have h3 : (construct cmp sources : MergeReader Block LoopAllocator)._allocator._pos =
      0 + sources.length ∧
      (construct cmp sources : MergeReader Block LoopAllocator)._allocator._size =
        sources.length * 2 := h.2.2.1
  refine ⟨?_, hn⟩
  unfold LoopInv
  rw [hn, h3.1, h3.2]
  omega

theorem reachable_loopInv [Inhabited Block]
    (s : MergeReader Block LoopAllocator) (h : Reachable cmp s) :
    1 ≤ s._nb_files → s._nb_files < 2 ^ 31 → LoopInv s := by
  induction h with
  | construct filenames =>
    intro h1 h2
    have hn : (construct cmp filenames : MergeReader Block LoopAllocator)._nb_files =
        filenames.length := by
      unfold construct; dsimp only
      rw [ctor_loop_nb_files]; rfl
    rw [hn] at h1 h2
    exact (construct_loopInv cmp filenames h1 h2).1
  | get_next s idx _ ih =>
    intro h1 h2
    rcases get_next_step cmp s idx with ⟨_, hg⟩ | ⟨_, _, hn, _, _⟩
    · rw [hg] at h1 h2 ⊢
      exact ih h1 h2
    · rw [hn] at h1 h2
      exact (get_next_loopInv cmp s idx (ih h1 h2)).1
  | get_next_block s block idx _ ih =>
    intro h1 h2
    obtain ⟨_, _, _, a4, _⟩ := get_next_block_state cmp s block idx
    have hst : (get_next_block cmp s block idx).2.2.2._allocator =
        (get_next cmp s idx).2.2._allocator := by
      unfold get_next_block; dsimp only
      split <;> rfl
    rw [a4] at h1 h2
    have hnn : (get_next cmp s idx).2.2._nb_files = s._nb_files := by
      rcases get_next_step cmp s idx with ⟨_, hg⟩ | ⟨_, _, hn, _, _⟩
      · rw [hg]
      · exact hn
    have := (get_next_loopInv cmp s idx (ih (by rw [← hnn]; exact h1)
      (by rw [← hnn]; exact h2))).1
    unfold LoopInv at this ⊢
    rw [hst, a4]
    exact this
  | see_next s _ ih =>
    intro h1 h2
    rw [see_next_state] at h1 h2 ⊢
    exact ih h1 h2

theorem get_next_iter_heap (m : Nat) :
    ∀ (s : MergeReader Block LoopAllocator) (q : Nat), LoopInv s →
      s._nb_files < 2 ^ 31 →
      (get_next_iter cmp m s)._count ≤
        s._count + (q + 2 * s._nb_files - s._allocator._pos) % (2 * s._nb_files) →
      (get_next_iter cmp m s).heap q = s.heap q := by
  induction m with
  | zero => intro s q _ _ _; rfl
  | succ m ih =>
    intro s q hinv hN hc
    unfold get_next_iter at hc ⊢
    have hmono := get_next_iter_count cmp m (get_next cmp s none).2.2
    obtain ⟨hinv1, hnn⟩ := get_next_loopInv cmp s none hinv
    rcases get_next_step cmp s none with ⟨_, hg⟩ | ⟨_, hcnt, hn, ha, hheap⟩
    · have := ih (get_next cmp s none).2.2 q hinv1 (by rw [hnn]; exact hN)
        (by rw [hg] at hc ⊢; exact hc)
      rw [this, hg]
    · have hsz : s._allocator._size = 2 * s._nb_files := hinv.1
      have hlt := hinv.2
      have hsz1 : (get_next cmp s none).2.2._allocator._size = 2 * s._nb_files := by
        have := hinv1.1
        rw [hn] at this
        exact this
      have hpos : (get_next cmp s none).2.2._allocator._pos =
          (s._allocator._pos + 1) % (2 * s._nb_files) := by
        have hmod : ((s._allocator._pos + 1) % 2 ^ 32) % s._allocator._size =
            (s._allocator._pos + 1) % (2 * s._nb_files) := by
          rw [hsz, Nat.mod_eq_of_lt (show s._allocator._pos + 1 < 2 ^ 32 by omega)]
        rcases ha with ha | ha <;> rw [ha] <;> exact hmod
      have hge : 1 ≤ (q + 2 * s._nb_files - s._allocator._pos) % (2 * s._nb_files) := by
        omega
      obtain ⟨hq, hd⟩ := ring_dist_succ (2 * s._nb_files) s._allocator._pos q
        (by omega) hge
      have := ih (get_next cmp s none).2.2 q hinv1 (by rw [hn]; exact hN)
        (by rw [hn, hpos, hd, hcnt]; omega)
      rw [this]
      exact hheap q hq

end ring

/-! ## Traces with `NewAllocator` -/

section trace_new
variable (cmp : Block → Block → Bool)

theorem emittedOf_append (out : List (Block × Nat)) (e : Block × Nat) (i : Nat) :
    emittedOf (out ++ [e]) i = emittedOf out i ++ if e.2 = i then [e.1] else [] := by
  unfold emittedOf
  by_cases h : e.2 = i <;> simp [List.filter_append, List.filter_cons, h]

theorem content_emit (out : List (Block × Nat)) (e : Block × Nat) (H : List (Block × Nat))
    (F : List (List Block)) (hwf : WF (e :: H) F) (i : Nat) :
    emittedOf (out ++ [e]) i ++ content (refillH cmp e.2 H F) (refillF e.2 F) i =
      emittedOf out i ++ content (e :: H) F i := by
  have h1 := hwf.1
  rw [List.map_cons, List.nodup_cons] at h1
  rw [emittedOf_append, refill_content cmp e.2 i H F h1.1, content_cons]
  by_cases h : e.2 = i
  · subst h
    rw [if_pos rfl, if_pos rfl, if_pos rfl, content_of_not_mem H F e.2 h1.1]
    simp
  · rw [if_neg h, if_neg (fun hh => h hh.symm), if_neg h]
    simp

/-- The facts carried along a trace with `NewAllocator`. -/
theorem trace_new [Inhabited Block] (sources : List (List Block))
    (out : List (Block × Nat)) (s : MergeReader Block NewAllocator)
    (h : Trace cmp sources out s) :
    NewInv s ∧ WF (heads s) s._files ∧
    (StrictWeakOrder cmp → (heads s).Pairwise fun a b => cmp b.1 a.1 = false) ∧
    ∀ i, emittedOf out i ++ content (heads s) s._files i = sources.getD i [] := by
  have step : ∀ (out : List (Block × Nat)) (s s1 : MergeReader Block NewAllocator)
      (e : Nat × Nat) (t : List (Nat × Nat)), s._map = e :: t →
      (NewInv s ∧ WF (heads s) s._files ∧
        (StrictWeakOrder cmp → (heads s).Pairwise fun a b => cmp b.1 a.1 = false) ∧
        ∀ i, emittedOf out i ++ content (heads s) s._files i = sources.getD i []) →
      heads s1 = refillH cmp e.2 (t.map fun x => (s.heap x.1, x.2)) s._files →
      s1._files = refillF e.2 s._files → NewInv s1 →
      (NewInv s1 ∧ WF (heads s1) s1._files ∧
        (StrictWeakOrder cmp → (heads s1).Pairwise fun a b => cmp b.1 a.1 = false) ∧
        ∀ i, emittedOf (out ++ [(s.heap e.1, e.2)]) i ++ content (heads s1) s1._files i =
          sources.getD i []) := by
    intro out s s1 e t hm ih h1 h2 h3
    have hh : heads s = (s.heap e.1, e.2) :: t.map fun x => (s.heap x.1, x.2) := by
      unfold heads; rw [hm]; rfl
    obtain ⟨_, b2, b3, b4⟩ := ih
    rw [hh] at b2 b3 b4
    rw [h1, h2]
    refine ⟨h3, WF_tail cmp _ _ _ b2, fun hswo => ?_, fun i => ?_⟩
    · exact refill_sorted cmp hswo _ _ _ (List.pairwise_cons.1 (b3 hswo)).2
    · rw [← b4 i]
      exact content_emit cmp out (s.heap e.1, e.2) _ _ b2 i
  induction h with
  | construct =>
    obtain ⟨h1, h2, h3⟩ := construct_new cmp sources
    obtain ⟨a1, _, a3⟩ := start_spec cmp sources
    rw [h1, h2]
    refine ⟨h3, a1, fun hswo => actor_sorted cmp hswo sources 0 [] _ List.Pairwise.nil,
      fun i => ?_⟩
    rw [a3 i]; rfl
  | see_next out s _ ih => rw [see_next_state]; exact ih
  | get_next_null out s idx _ hn ih =>
    rw [get_next_nil cmp s idx (get_next_none cmp s idx ih.1.1 hn)]
    exact ih
  | get_next out s idx p _ hp ih =>
    cases hm : s._map with
    | nil => rw [get_next_nil cmp s idx hm] at hp; exact absurd hp (by simp)
    | cons e t =>
      obtain ⟨c1, _, c3, c4, c5, c6⟩ := get_next_new cmp s idx ih.1 e t hm
      rw [c1] at hp
      simp only [Option.some.injEq] at hp
      rw [← hp, c5, get_next_idx cmp s idx ih.1.1 e t hm]
      exact step out s _ e t hm ih c3 c4 c6
  | get_next_block_false out s block idx _ hf ih =>
    rw [get_next_block_nil cmp s block idx (get_next_block_false cmp s block idx ih.1.1 hf)]
    exact ih
  | get_next_block out s block idx _ _ ih =>
    cases hm : s._map with
    | nil =>
      rename_i ht
      rw [get_next_block_nil cmp s block idx hm] at ht
      exact absurd ht (by simp)
    | cons e t =>
      obtain ⟨_, c2, _, c4, c5, c6⟩ := get_next_block_new cmp s block idx ih.1 e t hm
      rw [c2, (get_next_block_state cmp s block idx).2.2.2.2.2.2,
        get_next_idx cmp s idx ih.1.1 e t hm]
      exact step out s _ e t hm ih c4 c5 c6

end trace_new

/-! ## Refills, turns and the book-keeping of the heap -/

section refills
variable (cmp : Block → Block → Bool)

theorem load_block_heap_at [BlockAllocator A] (s : MergeReader Block A) (b : Block)
    (rest : List Block) (hF : s._files.getD s._idx [] = b :: rest)
    (hlen : s._idx < s._read_buf.length) :
    (load_block cmp s).heap (BlockAllocator.allocate s._allocator).1 = b := by
  rw [load_block_cons cmp s b rest hF hlen]
  simp

theorem get_next_slot [BlockAllocator A] (s : MergeReader Block A) (idx : Option Nat)
    (hs : MapBuf s) (e : Nat × Nat) (t : List (Nat × Nat)) (hm : s._map = e :: t) :
    SlotBuffers (get_next cmp s idx).2.2 e.2 (s._files.getD e.2 []) := by
  unfold SlotBuffers
  have he := hs.2 e (by rw [hm]; exact List.mem_cons_self _ _)
  have hlen : e.2 < s._read_buf.length := lt_length_of_getD he (by simp)
  rw [get_next_eq cmp s idx hs e t hm]
  obtain ⟨s3, hs3⟩ : ∃ x, x = { s with _map_iter := some e, _idx := e.2, _map := t } :=
    ⟨_, rfl⟩
  rw [← hs3]
  have h3i : s3._idx = e.2 := by rw [hs3]
  have h3r : s3._read_buf = s._read_buf := by rw [hs3]
  have h3f : s3._files = s._files := by rw [hs3]
  have hlen3 : s3._idx < s3._read_buf.length := by rw [h3i, h3r]; exact hlen
  cases hF : s._files.getD e.2 [] with
  | nil =>
    dsimp only
    rcases load_block_shape cmp s3 hlen3 with ⟨_, _, _, h⟩ | ⟨b, r, h, _⟩
    · rw [h3i] at h; exact h
    · rw [h3i, h3f, hF] at h; exact absurd h (by simp)
  | cons b2 r =>
    dsimp only
    have hF3 : s3._files.getD s3._idx [] = b2 :: r := by rw [h3i, h3f]; exact hF
    refine ⟨(BlockAllocator.allocate s3._allocator).1, ?_,
      load_block_heap_at cmp s3 b2 r hF3 hlen3⟩
    rcases load_block_shape cmp s3 hlen3 with ⟨h, _⟩ | ⟨_, _, _, _, _, h⟩
    · rw [hF3] at h; exact absurd h (by simp)
    · rw [h3i] at h; exact h

theorem map_insert_position (hswo : StrictWeakOrder cmp) (heap : Nat → Block)
    (e : Nat × Nat) (l : List (Nat × Nat))
    (hl : l.Pairwise fun a b => cmp (heap b.1) (heap a.1) = false) :
    ∃ l1 l2, l = l1 ++ l2 ∧ map_insert cmp heap e l = l1 ++ e :: l2 ∧
      (∀ x ∈ l1, cmp (heap e.1) (heap x.1) = false) ∧
      (∀ x ∈ l2, cmp (heap e.1) (heap x.1) = true) := by
  induction l with
  | nil => exact ⟨[], [], rfl, rfl, fun x hx => absurd hx (List.not_mem_nil x),
      fun x hx => absurd hx (List.not_mem_nil x)⟩
  | cons y ys ih =>
    have hy := List.pairwise_cons.1 hl
    unfold map_insert
    split
    · rename_i hlt
      refine ⟨[], y :: ys, rfl, rfl, fun x hx => absurd hx (List.not_mem_nil x), ?_⟩
      intro x hx
      rcases List.mem_cons.1 hx with rfl | hx
      · exact hlt
      · exact hswo.lt_of_lt_of_le hlt (hy.1 x hx)
    · rename_i hnlt
      obtain ⟨l1, l2, h1, h2, h3, h4⟩ := ih hy.2
      refine ⟨y :: l1, l2, by rw [h1]; rfl, by rw [h2]; rfl, ?_, h4⟩
      intro x hx
      rcases List.mem_cons.1 hx with rfl | hx
      · simpa using hnlt
      · exact h3 x hx

theorem altIdx_step (i j : Nat) : ∀ (t m n : Nat), m + n ≤ t →
    altIdx i j (m + 1) n = i :: altIdx j i n m := by
  intro t
  induction t generalizing i j with
  | zero =>
    intro m n h
    have hm : m = 0 := by omega
    have hn : n = 0 := by omega
    subst hm; subst hn
    rfl
  | succ t ih =>
    intro m n h
    cases n with
    | zero =>
      cases m with
      | zero => rfl
      | succ m => simp [altIdx, List.replicate_succ]
    | succ n =>
      rw [altIdx, ih j i n m (by omega)]

theorem altIdx_getD (i j : Nat) : ∀ (m n k : Nat), k < 2 * min m n →
    (altIdx i j m n).getD k 0 = if k % 2 = 0 then i else j := by
  intro m
  induction m with
  | zero => intro n k h; simp at h
  | succ m ih =>
    intro n k h
    cases n with
    | zero => simp at h
    | succ n =>
      rw [altIdx]
      match k with
      | 0 => rfl
      | 1 => rfl
      | k + 2 =>
        have hk : k < 2 * min m n := by
          have : min (m + 1) (n + 1) = min m n + 1 := by omega
          omega
        rw [List.getD_cons_succ, List.getD_cons_succ, ih n k hk]
        have : (k + 2) % 2 = k % 2 := by omega
        rw [this]

theorem one_turn (fuel : Nat) :
    ∀ (y : Block) (j : Nat) (F : List (List Block)) (out : List (Block × Nat)),
      amerge cmp fuel [(y, j)] F = some out →
      out.map Prod.snd = List.replicate ((F.getD j []).length + 1) j := by
  induction fuel with
  | zero => intro y j F out h; simp [amerge] at h
  | succ fuel ih =>
    intro y j F out h
    obtain ⟨out1, h1, rfl⟩ := amerge_cons cmp fuel (y, j) [] F out h
    unfold refillH refillF at h1
    cases hF : F.getD j [] with
    | nil =>
      rw [hF] at h1
      dsimp only at h1
      cases fuel with
      | zero => simp [amerge] at h1
      | succ fuel =>
        simp only [amerge, Option.some.injEq] at h1
        rw [← h1]
        rfl
    | cons y1 r =>
      rw [hF] at h1
      dsimp only [ins] at h1
      have hlt : j < F.length := lt_length_of_getD hF (by simp)
      have := ih y1 j (F.set j r) out1 h1
      rw [getD_set_self F j r [] hlt] at this
      rw [List.map_cons, this]
      simp [List.replicate_succ]

theorem two_turns (fuel : Nat) :
    ∀ (x y : Block) (i j : Nat) (F : List (List Block)) (out : List (Block × Nat)),
      i ≠ j → (∀ a ∈ F.getD i [], cmp a y = false) →
      (∀ a ∈ F.getD j [], ∀ b ∈ F.getD i [], cmp a b = false) →
      (∀ a ∈ F.getD i [], ∀ b ∈ F.getD j [], cmp a b = false) →
      (∀ a ∈ F.getD j [], cmp a x = false) →
      amerge cmp fuel [(x, i), (y, j)] F = some out →
      out.map Prod.snd =
        altIdx i j ((F.getD i []).length + 1) ((F.getD j []).length + 1) := by
  induction fuel with
  | zero => intro x y i j F out _ _ _ _ _ h; simp [amerge] at h
  | succ fuel ih =>
    intro x y i j F out hij h1 h2 h3 h4 h
    obtain ⟨out1, ho, rfl⟩ := amerge_cons cmp fuel (x, i) [(y, j)] F out h
    unfold refillH refillF at ho
    rw [altIdx_step i j _ _ _ (Nat.le_refl _)]
    cases hF : F.getD i [] with
    | nil =>
      rw [hF] at ho
      dsimp only at ho
      rw [List.map_cons, one_turn cmp fuel y j F out1 ho]
      simp [altIdx]
    | cons x1 r =>
      rw [hF] at ho h1 h2 h3
      have hx1 : cmp x1 y = false := h1 x1 (List.mem_cons_self _ _)
      have hins : ins cmp (x1, i) [(y, j)] = [(y, j), (x1, i)] := by
        simp [ins, hx1]
      dsimp only at ho
      rw [hins] at ho
      have hlt : i < F.length := lt_length_of_getD hF (by simp)
      have e1 : (F.set i r).getD i [] = r := getD_set_self F i r [] hlt
      have e2 : (F.set i r).getD j [] = F.getD j [] := getD_set_ne F i j r [] hij
      have := ih y x1 j i (F.set i r) out1 (fun e => hij e.symm)
        (by rw [e2]; intro a ha; exact h2 a ha x1 (List.mem_cons_self _ _))
        (by rw [e1, e2]; intro a ha b hb; exact h3 a (List.mem_cons_of_mem _ ha) b hb)
        (by rw [e1, e2]; intro a ha b hb; exact h2 a ha b (List.mem_cons_of_mem _ hb))
        (by rw [e1]; intro a ha; exact h1 a (List.mem_cons_of_mem _ ha))
        ho
      rw [e1, e2] at this
      rw [List.map_cons, this]
      rfl

theorem two_sources (s0 s1 : List Block)
    (heq : ∀ a ∈ s0 ++ s1, ∀ b ∈ s0 ++ s1, cmp a b = false) (fuel : Nat)
    (out : List (Block × Nat))
    (h : amerge cmp fuel (actor cmp [s0, s1] 0 [] (List.replicate [s0, s1].length [])).1
      (actor cmp [s0, s1] 0 [] (List.replicate [s0, s1].length [])).2 = some out) :
    out.map Prod.snd = altIdx 0 1 s0.length s1.length := by
  cases s0 with
  | nil =>
    cases s1 with
    | nil =>
      simp only [actor, refillH, refillF, List.length_cons, List.length_nil,
        List.replicate, List.set, List.getD_cons_zero, List.getD_cons_succ] at h
      cases fuel with
      | zero => simp [amerge] at h
      | succ fuel =>
        simp only [amerge, Option.some.injEq] at h
        rw [← h]; rfl
    | cons y r1 =>
      simp only [actor, refillH, refillF, List.length_cons, List.length_nil,
        List.replicate, List.set, List.getD_cons_zero, List.getD_cons_succ, ins] at h
      have := one_turn cmp fuel y 1 _ out h
      rw [this]
      simp [altIdx]
  | cons x r0 =>
    cases s1 with
    | nil =>
      simp only [actor, refillH, refillF, List.length_cons, List.length_nil,
        List.replicate, List.set, List.getD_cons_zero, List.getD_cons_succ, ins] at h
      have := one_turn cmp fuel x 0 _ out h
      rw [this]
      simp [altIdx]
    | cons y r1 =>
      have hyx : cmp y x = false := heq y (by simp) x (by simp)
      simp only [actor, refillH, refillF, List.length_cons, List.length_nil,
        List.replicate, List.set, List.getD_cons_zero, List.getD_cons_succ, ins, hyx] at h
      have := two_turns cmp fuel x y 0 1 _ out (by decide)
        (by
          simp only [List.getD_cons_zero]
          intro a ha; exact heq a (by simp [ha]) y (by simp))
        (by
          simp only [List.getD_cons_zero, List.getD_cons_succ]
          intro a ha b hb; exact heq a (by simp [ha]) b (by simp [hb]))
        (by
          simp only [List.getD_cons_zero, List.getD_cons_succ]
          intro a ha b hb; exact heq a (by simp [ha]) b (by simp [hb]))
        (by
          simp only [List.getD_cons_zero, List.getD_cons_succ]
          intro a ha; exact heq a (by simp [ha]) x (by simp))
        h
      rw [this]
      simp

theorem load_block_bal (s : MergeReader Block NewAllocator)
    (hlen : s._idx < s._read_buf.length)
    (h1 : s._allocator.freed.Nodup) (h2 : ∀ p ∈ s._allocator.freed, p < s._allocator.next)
    (h3 : ∀ e ∈ s._map, e.1 ∉ s._allocator.freed) (h4 : (s._map.map Prod.fst).Nodup)
    (h5 : ∀ e ∈ s._map, e.1 < s._allocator.next) :
    (load_block cmp s)._allocator.freed.Nodup ∧
    (∀ p ∈ (load_block cmp s)._allocator.freed, p < (load_block cmp s)._allocator.next) ∧
    (∀ e ∈ (load_block cmp s)._map, e.1 ∉ (load_block cmp s)._allocator.freed) ∧
    ((load_block cmp s)._map.map Prod.fst).Nodup ∧
    (∀ e ∈ (load_block cmp s)._map, e.1 < (load_block cmp s)._allocator.next) ∧
    (load_block cmp s)._allocator.next = s._allocator.next + 1 ∧
    (load_block cmp s)._allocator.freed.length + (load_block cmp s)._map.length =
      s._allocator.freed.length + s._map.length + 1 ∧
    (∀ p ∈ (load_block cmp s)._allocator.freed,
      p ∈ s._allocator.freed ∨ p = s._allocator.next) := by
  have hfresh : s._allocator.next ∉ s._allocator.freed := fun h => by
    have := h2 _ h; omega
  have hfresh2 : s._allocator.next ∉ s._map.map Prod.fst := fun h => by
    obtain ⟨e, he, hee⟩ := List.mem_map.1 h
    have := h5 e he; omega
  cases hF : s._files.getD s._idx [] with
  | nil =>
    rw [load_block_nil cmp s hF]
    show (s._allocator.next :: s._allocator.freed).Nodup ∧
      (∀ p ∈ s._allocator.next :: s._allocator.freed, p < s._allocator.next + 1) ∧
      (∀ e ∈ s._map, e.1 ∉ s._allocator.next :: s._allocator.freed) ∧
      (s._map.map Prod.fst).Nodup ∧ (∀ e ∈ s._map, e.1 < s._allocator.next + 1) ∧
      s._allocator.next + 1 = s._allocator.next + 1 ∧
      (s._allocator.next :: s._allocator.freed).length + s._map.length =
        s._allocator.freed.length + s._map.length + 1 ∧
      (∀ p ∈ s._allocator.next :: s._allocator.freed,
        p ∈ s._allocator.freed ∨ p = s._allocator.next)
    refine ⟨List.nodup_cons.2 ⟨hfresh, h1⟩, ?_, ?_, h4, ?_, rfl, ?_, ?_⟩
    · intro p hp
      rcases List.mem_cons.1 hp with rfl | hp
      · omega
      · have := h2 p hp; omega
    · intro e he hmem
      rcases List.mem_cons.1 hmem with h | h
      · have := h5 e he; omega
      · exact h3 e he h
    · intro e he; have := h5 e he; omega
    · simp only [List.length_cons]; omega
    · intro p hp
      rcases List.mem_cons.1 hp with rfl | hp
      · exact Or.inr rfl
      · exact Or.inl hp
  | cons b rest =>
    rw [load_block_cons cmp s b rest hF hlen]
    have hperm := map_insert_perm cmp
      (fun q => if q = (BlockAllocator.allocate s._allocator).1 then b else s.heap q)
      ((BlockAllocator.allocate s._allocator).1, s._idx) s._map
    have hmem : ∀ e ∈ map_insert cmp
        (fun q => if q = (BlockAllocator.allocate s._allocator).1 then b else s.heap q)
        ((BlockAllocator.allocate s._allocator).1, s._idx) s._map,
        e = (s._allocator.next, s._idx) ∨ e ∈ s._map := fun e he =>
      List.mem_cons.1 (hperm.mem_iff.1 he)
    dsimp only
    refine ⟨h1, ?_, ?_, ?_, ?_, rfl, ?_, fun p hp => Or.inl hp⟩
    · intro p hp
      have := h2 p hp
      show p < s._allocator.next + 1
      omega
    · intro e he
      show e.1 ∉ s._allocator.freed
      rcases hmem e he with h | h
      · rw [h]; exact hfresh
      · exact h3 e h
    · rw [(hperm.map Prod.fst).nodup_iff, List.map_cons, List.nodup_cons]
      exact ⟨hfresh2, h4⟩
    · intro e he
      show e.1 < s._allocator.next + 1
      rcases hmem e he with h | h
      · rw [h]; show s._allocator.next < _; omega
      · have := h5 e h; omega
    · show s._allocator.freed.length + _ = _
      rw [hperm.length_eq, List.length_cons]
      omega

theorem get_next_block_bal (s : MergeReader Block NewAllocator) (block : Block)
    (idx : Option Nat) (hn : NewInv s) (hb : BalInv s) :
    BalInv (get_next_block cmp s block idx).2.2.2 := by
  obtain hm | ⟨e, t, hm⟩ : s._map = [] ∨ ∃ e t, s._map = e :: t := by
    cases s._map with
    | nil => exact Or.inl rfl
    | cons e t => exact Or.inr ⟨e, t, rfl⟩
  · rw [get_next_block_nil cmp s block idx hm]; exact hb
  have he := hn.1.2 e (by rw [hm]; exact List.mem_cons_self _ _)
  have hlen : e.2 < s._read_buf.length := lt_length_of_getD he (by simp)
  obtain ⟨s3, hs3⟩ : ∃ x, x = { s with _map_iter := some e, _idx := e.2, _map := t } :=
    ⟨_, rfl⟩
  have hg : (get_next_block cmp s block idx).2.2.2 =
      { load_block cmp s3 with
        _count := (load_block cmp s3)._count + 1
        _allocator := NewAllocator.free (load_block cmp s3)._allocator e.1 } := by
    unfold get_next_block; dsimp only
    rw [get_next_eq cmp s idx hn.1 e t hm, hs3]
    rfl
  obtain ⟨b1, b2, b3, b4, b5⟩ := hb
  rw [hm] at b3 b4 b5
  have hne := hn.2
  rw [hm] at hne
  rw [List.map_cons, List.nodup_cons] at b4
  have h3a : s3._allocator = s._allocator := by rw [hs3]
  have h3m : s3._map = t := by rw [hs3]
  obtain ⟨c1, c2, c3, c4, c5, c6, c7, c8⟩ := load_block_bal cmp s3
    (by rw [hs3]; exact hlen) (by rw [h3a]; exact b1) (by rw [h3a]; exact b2)
    (by rw [h3a, h3m]; exact fun x hx => b3 x (List.mem_cons_of_mem _ hx))
    (by rw [h3m]; exact b4.2)
    (by rw [h3a, h3m]; exact fun x hx => hne x (List.mem_cons_of_mem _ hx))
  rw [h3a] at c6 c7 c8
  rw [h3m] at c7
  have helt : e.1 < s._allocator.next := hne e (List.mem_cons_self _ _)
  have hefree : e.1 ∉ (load_block cmp s3)._allocator.freed := by
    intro h
    rcases c8 e.1 h with h | h
    · exact b3 e (List.mem_cons_self _ _) h
    · omega
  rw [hg]
  unfold BalInv
  show (e.1 :: (load_block cmp s3)._allocator.freed).Nodup ∧
    (∀ p ∈ e.1 :: (load_block cmp s3)._allocator.freed,
      p < (load_block cmp s3)._allocator.next) ∧
    (∀ x ∈ (load_block cmp s3)._map, x.1 ∉ e.1 :: (load_block cmp s3)._allocator.freed) ∧
    ((load_block cmp s3)._map.map Prod.fst).Nodup ∧
    (load_block cmp s3)._allocator.next =
      (e.1 :: (load_block cmp s3)._allocator.freed).length + (load_block cmp s3)._map.length
  refine ⟨List.nodup_cons.2 ⟨hefree, c1⟩, ?_, ?_, c4, ?_⟩
  · intro p hp
    rcases List.mem_cons.1 hp with rfl | hp
    · rw [c6]; omega
    · exact c2 p hp
  · intro x hx hmem
    rcases List.mem_cons.1 hmem with h | h
    · have hf := load_block_facts cmp s3 (by rw [hs3]; exact hlen)
      rcases hf.2.2.2 x hx with hx2 | hx2
      · rw [h3m] at hx2
        exact b4.1 (h ▸ List.mem_map_of_mem Prod.fst hx2)
      · rw [hx2, h3a] at h
        have : s._allocator.next = e.1 := h
        omega
    · exact c3 x hx h
  · rw [c6, List.length_cons, b5, List.length_cons]
    omega

theorem ctor_loop_bal (fs : List (List Block)) :
    ∀ s : MergeReader Block NewAllocator, BalInv s →
      (∀ e ∈ s._map, e.1 < s._allocator.next) → s._idx + fs.length ≤ s._read_buf.length →
      BalInv (ctor_loop cmp fs s) := by
  induction fs with
  | nil => intro s h _ _; exact h
  | cons f rest ih =>
    intro s hb hlt hlen
    simp only [List.length_cons] at hlen
    obtain ⟨s1, hs1⟩ : ∃ x, x = { s with _files := s._files.set s._idx f } := ⟨_, rfl⟩
    have h1a : s1._allocator = s._allocator := by rw [hs1]
    have h1m : s1._map = s._map := by rw [hs1]
    have h1i : s1._idx = s._idx := by rw [hs1]
    have h1r : s1._read_buf = s._read_buf := by rw [hs1]
    obtain ⟨b1, b2, b3, b4, b5⟩ := hb
    obtain ⟨c1, c2, c3, c4, c5, c6, c7, _⟩ := load_block_bal cmp s1
      (by rw [h1i, h1r]; omega) (by rw [h1a]; exact b1) (by rw [h1a]; exact b2)
      (by rw [h1a, h1m]; exact b3) (by rw [h1m]; exact b4) (by rw [h1a, h1m]; exact hlt)
    rw [h1a] at c6 c7
    rw [h1m] at c7
    have hc : ctor_loop cmp (f :: rest) s =
        ctor_loop cmp rest { load_block cmp s1 with _idx := (load_block cmp s1)._idx + 1 } := by
      rw [hs1]; rfl
    rw [hc]
    refine ih _ ⟨c1, c2, c3, c4, ?_⟩ c5 ?_
    · show (load_block cmp s1)._allocator.next =
        (load_block cmp s1)._allocator.freed.length + (load_block cmp s1)._map.length
      rw [c6, c7, b5]
    · show (load_block cmp s1)._idx + 1 + rest.length ≤ (load_block cmp s1)._read_buf.length
      rw [load_block_idx, load_block_read_buf_length, h1i, h1r]
      omega

theorem construct_bal [Inhabited Block] (sources : List (List Block)) :
    BalInv (construct cmp sources : MergeReader Block NewAllocator) := by
  unfold construct; dsimp only
  refine ctor_loop_bal cmp sources _ ?_ ?_ ?_
  · exact ⟨List.nodup_nil, fun p hp => absurd hp (List.not_mem_nil p),
      fun e he => absurd he (List.not_mem_nil e), List.nodup_nil, rfl⟩
  · intro e he; exact absurd he (List.not_mem_nil e)
  · simp [init]

theorem reachableInto_reachable [BlockAllocator A] [Inhabited Block]
    (s : MergeReader Block A) (h : ReachableInto cmp s) : Reachable cmp s := by
  induction h with
  | construct filenames => exact Reachable.construct filenames
  | get_next_block s block idx _ ih => exact Reachable.get_next_block s block idx ih
  | see_next s _ ih => exact Reachable.see_next s ih

theorem reachableInto_bal [Inhabited Block] (s : MergeReader Block NewAllocator)
    (h : ReachableInto cmp s) : BalInv s := by
  induction h with
  | construct filenames => exact construct_bal cmp filenames
  | get_next_block s block idx h ih =>
    exact get_next_block_bal cmp s block idx (reachableInto_reachable cmp s h).newInv ih
  | see_next s _ ih => rw [see_next_state]; exact ih

end refills

theorem Less_strictWeakOrder : StrictWeakOrder Less := by
  refine ⟨fun a => ?_, fun a b c => ?_, fun a b c => ?_⟩ <;> simp only [Less, decide_eq_true_eq,
    decide_eq_false_iff_not] <;> omega

/-! ## The claims -/


/-- C1. With `NewAllocator`, a comparator that is a strict weak order and sources that
are each sorted ascending (no block strictly less than its predecessor): the loop of
`get_next(Block&, int*)` calls reaches a call that returns false (after at most as many
calls as there are blocks, plus one), and the blocks written before it are sorted
ascending under the comparator. -/
theorem global_order_new [Inhabited Block] (cmp : Block → Block → Bool)
    (hswo : StrictWeakOrder cmp) (sources : List (List Block))
    (hsorted : ∀ src ∈ sources, Ascending cmp src) (block : Block) (idx : Nat) :
    (∃ res, drain cmp (sources.flatten.length + 1)
      (construct cmp sources : MergeReader Block NewAllocator) block idx = some res) ∧
    ∀ fuel res,
      drain cmp fuel (construct cmp sources : MergeReader Block NewAllocator) block idx =
        some res →
      (res.1.map Prod.fst).Pairwise fun a b => cmp b a = false := by
  refine ⟨drain_new_total cmp sources block idx, fun fuel res h => ?_⟩
  obtain ⟨a1, _, a3⟩ := start_spec cmp sources
  refine amerge_sorted cmp hswo fuel _ _ _ a1
    (actor_sorted cmp hswo sources 0 [] _ List.Pairwise.nil) (fun i => ?_)
    (drain_new_out cmp sources block idx fuel res h)
  rw [a3 i]
  by_cases hi : i < sources.length
  · refine Ascending.pairwise hswo (hsorted _ ?_)
    rw [List.getD_eq_getElem?_getD, List.getElem?_eq_getElem hi]
    exact List.getElem_mem hi
  · rw [List.getD_eq_getElem?_getD, List.getElem?_eq_none (by omega)]
    exact List.Pairwise.nil

/-- Witness of C1: the three sorted integer sources of the example scenario. -/
theorem global_order_new_witness :
    StrictWeakOrder Less ∧
    (∀ src ∈ [[1, 4, 7], [2, 5], [3, 6, 8, 9]], Ascending Less src) ∧
    ((∃ res, drain Less (([[1, 4, 7], [2, 5], [3, 6, 8, 9]] : List (List Nat)).flatten.length + 1)
      (construct Less [[1, 4, 7], [2, 5], [3, 6, 8, 9]] : MergeReader Nat NewAllocator) 0 0 =
        some res) ∧
    ∀ fuel res,
      drain Less fuel
        (construct Less [[1, 4, 7], [2, 5], [3, 6, 8, 9]] : MergeReader Nat NewAllocator) 0 0 =
        some res →
      (res.1.map Prod.fst).Pairwise fun a b => Less b a = false) :=
  ⟨Less_strictWeakOrder, by simp [Ascending, Less],
    global_order_new Less Less_strictWeakOrder [[1, 4, 7], [2, 5], [3, 6, 8, 9]]
      (by simp [Ascending, Less]) 0 0⟩

/-- C2. With `NewAllocator` and any sources, sorted or not: the loop of
`get_next(Block&, int*)` calls reaches a call that returns false, and the blocks written
before it are, as a multiset, the blocks of all the sources: the list of written blocks
is a permutation of the concatenation of the sources. -/
theorem completeness_new [Inhabited Block] (cmp : Block → Block → Bool)
    (sources : List (List Block)) (block : Block) (idx : Nat) :
    (∃ res, drain cmp (sources.flatten.length + 1)
      (construct cmp sources : MergeReader Block NewAllocator) block idx = some res) ∧
    ∀ fuel res,
      drain cmp fuel (construct cmp sources : MergeReader Block NewAllocator) block idx =
        some res →
      (res.1.map Prod.fst).Perm sources.flatten := by
  refine ⟨drain_new_total cmp sources block idx, fun fuel res h => ?_⟩
  exact (amerge_perm cmp fuel _ _ _ (start_spec cmp sources).1
    (drain_new_out cmp sources block idx fuel res h)).trans (start_perm cmp sources)

/-- C4 (the code departs from it). On the sources `[3,9]` and `[1,2,5]` the loop of
`get_next(Block&, int*)` calls writes 1, 2, 9, 5, 9 with `LoopAllocator` and
1, 2, 3, 5, 9 with `NewAllocator`: the third call refills slot 0 into the very cell that
it is about to copy out. -/
theorem loop_allocator_differs :
    ((drain Less 6 (construct Less [[3, 9], [1, 2, 5]] : MergeReader Nat LoopAllocator)
        0 0).map Prod.fst) = some [(1, 1), (2, 1), (9, 0), (5, 1), (9, 0)] ∧
    ((drain Less 6 (construct Less [[3, 9], [1, 2, 5]] : MergeReader Nat NewAllocator)
        0 0).map Prod.fst) = some [(1, 1), (2, 1), (3, 0), (5, 1), (9, 0)] := by
  constructor <;> decide

/-- C5 (the code departs from it). The sources `[3,9]` and `[1,2,5]` are sorted
ascending, and with `LoopAllocator` the loop of `get_next(Block&, int*)` calls writes the
blocks 1, 2, 9, 5, 9, which are not sorted ascending. -/
theorem loop_allocator_unsorted :
    (∀ src ∈ [[3, 9], [1, 2, 5]], Ascending Less src) ∧
    ((drain Less 6 (construct Less [[3, 9], [1, 2, 5]] : MergeReader Nat LoopAllocator)
        0 0).map fun r => r.1.map Prod.fst) = some [1, 2, 9, 5, 9] ∧
    ¬ ([1, 2, 9, 5, 9].Pairwise fun a b => Less b a = false) := by
  refine ⟨by simp [Ascending, Less], by decide, by decide⟩

/-- C6. With `NewAllocator` and any sources: the loop of `get_next(Block&, int*)` calls
reaches a call that returns false; every index reported before it is below the number of
sources, and for each `i` the blocks written with reported index `i` are, in order, the
blocks of source `i`. -/
theorem attribution_new [Inhabited Block] (cmp : Block → Block → Bool)
    (sources : List (List Block)) (block : Block) (idx : Nat) :
    (∃ res, drain cmp (sources.flatten.length + 1)
      (construct cmp sources : MergeReader Block NewAllocator) block idx = some res) ∧
    ∀ fuel res,
      drain cmp fuel (construct cmp sources : MergeReader Block NewAllocator) block idx =
        some res →
      (∀ e ∈ res.1, e.2 < sources.length) ∧
      ∀ i, (res.1.filter fun e => decide (e.2 = i)).map Prod.fst = sources.getD i [] := by
  refine ⟨drain_new_total cmp sources block idx, fun fuel res h => ?_⟩
  obtain ⟨a1, a2, a3⟩ := start_spec cmp sources
  have ho := drain_new_out cmp sources block idx fuel res h
  refine ⟨fun e he => ?_, fun i => ?_⟩
  · obtain ⟨y, hy, hyx⟩ := List.mem_map.1 (amerge_idx cmp fuel _ _ _ ho e he)
    rw [← hyx]
    exact a2 y hy
  · rw [amerge_attr cmp fuel _ _ _ a1 ho i, a3 i]

/-- C3. The engine built over the three integer sources `[1,4,7]`, `[2,5]`, `[3,6,8,9]`
with `Less`, drained with `get_next(Block&, int*)` until it returns false, writes the
blocks 1 to 9 with the source indices 0,1,2,0,1,2,0,2,2, and `count()` is then 9, with
`LoopAllocator` and with `NewAllocator`. -/
theorem example_scenario :
    ((drain Less 10 (construct Less [[1, 4, 7], [2, 5], [3, 6, 8, 9]] :
        MergeReader Nat LoopAllocator) 0 0).map fun r => (r.1, count r.2)) =
      some ([(1, 0), (2, 1), (3, 2), (4, 0), (5, 1), (6, 2), (7, 0), (8, 2), (9, 2)], 9) ∧
    ((drain Less 10 (construct Less [[1, 4, 7], [2, 5], [3, 6, 8, 9]] :
        MergeReader Nat NewAllocator) 0 0).map fun r => (r.1, count r.2)) =
      some ([(1, 0), (2, 1), (3, 2), (4, 0), (5, 1), (6, 2), (7, 0), (8, 2), (9, 2)], 9) := by
  constructor <;> decide

/-- C7. With a strict weak order and fewer than `2^31` sources (the range of
`int _nb_files`), for `NewAllocator` and for `LoopAllocator`, and for both overloads of
`get_next`: the first extraction after the constructor returns no block when every source
is empty; otherwise it returns a block and reports the smallest index `i` such that
source `i` is non-empty and no source has a first block strictly less than the first block
of source `i`. -/
theorem tie_break_construction [Inhabited Block] (cmp : Block → Block → Bool)
    (hswo : StrictWeakOrder cmp) (sources : List (List Block))
    (hN : sources.length < 2 ^ 31) (block : Block) (v : Nat) :
    (ReportsLeastMinimal cmp sources
      (get_next cmp (construct cmp sources : MergeReader Block NewAllocator)
        (some v)).1.isSome
      (get_next cmp (construct cmp sources : MergeReader Block NewAllocator)
        (some v)).2.1 ∧
    ReportsLeastMinimal cmp sources
      (get_next_block cmp (construct cmp sources : MergeReader Block NewAllocator) block
        (some v)).1
      (get_next_block cmp (construct cmp sources : MergeReader Block NewAllocator) block
        (some v)).2.2.1) ∧
    (ReportsLeastMinimal cmp sources
      (get_next cmp (construct cmp sources : MergeReader Block LoopAllocator)
        (some v)).1.isSome
      (get_next cmp (construct cmp sources : MergeReader Block LoopAllocator)
        (some v)).2.1 ∧
    ReportsLeastMinimal cmp sources
      (get_next_block cmp (construct cmp sources : MergeReader Block LoopAllocator) block
        (some v)).1
      (get_next_block cmp (construct cmp sources : MergeReader Block LoopAllocator) block
        (some v)).2.2.1) :=
  ⟨first_report cmp hswo sources (construct_new cmp sources).1 block v,
    first_report cmp hswo sources (construct_loop cmp sources hN) block v⟩

/-- Witness of C7: three sources, of which the second and the third start with the same
least block. -/
theorem tie_break_construction_witness :
    StrictWeakOrder Less ∧ ([[2, 3], [1], [1, 5]] : List (List Nat)).length < 2 ^ 31 ∧
    ((ReportsLeastMinimal Less [[2, 3], [1], [1, 5]]
      (get_next Less (construct Less [[2, 3], [1], [1, 5]] : MergeReader Nat NewAllocator)
        (some 7)).1.isSome
      (get_next Less (construct Less [[2, 3], [1], [1, 5]] : MergeReader Nat NewAllocator)
        (some 7)).2.1 ∧
    ReportsLeastMinimal Less [[2, 3], [1], [1, 5]]
      (get_next_block Less
        (construct Less [[2, 3], [1], [1, 5]] : MergeReader Nat NewAllocator) 0
        (some 7)).1
      (get_next_block Less
        (construct Less [[2, 3], [1], [1, 5]] : MergeReader Nat NewAllocator) 0
        (some 7)).2.2.1) ∧
    (ReportsLeastMinimal Less [[2, 3], [1], [1, 5]]
      (get_next Less (construct Less [[2, 3], [1], [1, 5]] : MergeReader Nat LoopAllocator)
        (some 7)).1.isSome
      (get_next Less (construct Less [[2, 3], [1], [1, 5]] : MergeReader Nat LoopAllocator)
        (some 7)).2.1 ∧
    ReportsLeastMinimal Less [[2, 3], [1], [1, 5]]
      (get_next_block Less
        (construct Less [[2, 3], [1], [1, 5]] : MergeReader Nat LoopAllocator) 0
        (some 7)).1
      (get_next_block Less
        (construct Less [[2, 3], [1], [1, 5]] : MergeReader Nat LoopAllocator) 0
        (some 7)).2.2.1)) :=
  ⟨Less_strictWeakOrder, by decide,
    tie_break_construction Less Less_strictWeakOrder [[2, 3], [1], [1, 5]] (by decide) 0 7⟩

/-- C8. With `NewAllocator`, in a reachable state: `see_next()` returns null exactly when
the next `get_next(int*)` returns null and exactly when the next
`get_next(Block&, int*)` returns false; when it returns a pointer, the next
`get_next(Block&, int*)` returns true and writes the block that the pointer points
to. -/
theorem see_next_agrees [Inhabited Block] (cmp : Block → Block → Bool)
    (s : MergeReader Block NewAllocator) (hs : Reachable cmp s) (block : Block)
    (idx : Option Nat) :
    ((see_next s).1 = none ↔ (get_next cmp s idx).1 = none) ∧
    ((see_next s).1 = none ↔ (get_next_block cmp s block idx).1 = false) ∧
    ∀ p, (see_next s).1 = some p →
      (get_next_block cmp s block idx).1 = true ∧
      (get_next_block cmp s block idx).2.1 = s.heap p := by
  have hinv := hs.newInv
  cases hm : s._map with
  | nil =>
    have h1 : (see_next s).1 = none := by unfold see_next; dsimp only; rw [hm]; rfl
    rw [h1, get_next_nil cmp s idx hm, get_next_block_nil cmp s block idx hm]
    exact ⟨Iff.rfl, ⟨fun _ => rfl, fun _ => rfl⟩, fun p hp => absurd hp (by simp)⟩
  | cons e t =>
    have h1 : (see_next s).1 = some e.1 := by unfold see_next; dsimp only; rw [hm]; rfl
    obtain ⟨a1, a2, _⟩ := get_next_block_new cmp s block idx hinv e t hm
    obtain ⟨b1, _⟩ := get_next_new cmp s idx hinv e t hm
    rw [h1, a1, b1]
    refine ⟨by simp, by simp, fun p hp => ?_⟩
    simp only [Option.some.injEq] at hp
    rw [← hp]
    exact ⟨rfl, a2⟩

/-- Witness of C8: the state after the constructor and one extraction. -/
theorem see_next_agrees_witness :
    Reachable Less
      (get_next Less (construct Less [[1, 4], [2]] : MergeReader Nat NewAllocator)
        none).2.2 ∧
    (((see_next (get_next Less
          (construct Less [[1, 4], [2]] : MergeReader Nat NewAllocator) none).2.2).1 = none ↔
        (get_next Less (get_next Less
          (construct Less [[1, 4], [2]] : MergeReader Nat NewAllocator) none).2.2
          none).1 = none) ∧
    ((see_next (get_next Less
          (construct Less [[1, 4], [2]] : MergeReader Nat NewAllocator) none).2.2).1 = none ↔
        (get_next_block Less (get_next Less
          (construct Less [[1, 4], [2]] : MergeReader Nat NewAllocator) none).2.2
          0 none).1 = false) ∧
    ∀ p, (see_next (get_next Less
          (construct Less [[1, 4], [2]] : MergeReader Nat NewAllocator) none).2.2).1 =
        some p →
      (get_next_block Less (get_next Less
          (construct Less [[1, 4], [2]] : MergeReader Nat NewAllocator) none).2.2
          0 none).1 = true ∧
      (get_next_block Less (get_next Less
          (construct Less [[1, 4], [2]] : MergeReader Nat NewAllocator) none).2.2
          0 none).2.1 =
        (get_next Less
          (construct Less [[1, 4], [2]] : MergeReader Nat NewAllocator) none).2.2.heap p) :=
  ⟨Reachable.get_next _ _ (Reachable.construct _),
    see_next_agrees Less _ (Reachable.get_next _ _ (Reachable.construct _)) 0 none⟩

/-- C9. For any allocator, any number `k` of `see_next()` calls in a row: the next
`see_next()` returns what the first one returned, `count()` is what it was, and the next
`get_next` call (either overload) gives the same results and leaves the same reader as
without the `see_next()` calls, hence so do all the calls after it. -/
theorem see_next_no_effect [BlockAllocator A] (cmp : Block → Block → Bool)
    (s : MergeReader Block A) (k : Nat) (block : Block) (idx : Option Nat) :
    (see_next (see_next_iter k s)).1 = (see_next s).1 ∧
    count (see_next_iter k s) = count s ∧
    get_next cmp (see_next_iter k s) idx = get_next cmp s idx ∧
    get_next_block cmp (see_next_iter k s) block idx = get_next_block cmp s block idx := by
  rcases see_next_iter_state k s with h | h <;> rw [h]
  · exact ⟨rfl, rfl, rfl, rfl⟩
  · exact ⟨rfl, rfl, rfl, rfl⟩

/-- C10. For any allocator: `count()` is 0 after the constructor, and in a reachable
state a `get_next` call of either overload adds exactly 1 to `count()` when it returns a
block (a non-null pointer, or true) and leaves `count()` as it is when it returns null or
false. -/
theorem count_steps [BlockAllocator A] [Inhabited Block] (cmp : Block → Block → Bool)
    (filenames : List (List Block)) (s : MergeReader Block A) (hs : Reachable cmp s)
    (block : Block) (idx : Option Nat) :
    count (construct cmp filenames : MergeReader Block A) = 0 ∧
    count (get_next cmp s idx).2.2 =
      (if (get_next cmp s idx).1.isSome then count s + 1 else count s) ∧
    count (get_next_block cmp s block idx).2.2.2 =
      (if (get_next_block cmp s block idx).1 then count s + 1 else count s) := by
  have hmb := hs.mapBuf
  have key : count (get_next cmp s idx).2.2 =
      (if (get_next cmp s idx).1.isSome then count s + 1 else count s) ∧
      ((get_next cmp s idx).1 = none → (get_next cmp s idx).1.isSome = false) := by
    unfold get_next count; dsimp only
    cases hm : s._map with
    | nil => simp
    | cons e t =>
      have h2 := hmb.2 e (by rw [hm]; exact List.mem_cons_self _ _)
      dsimp only [List.head?, List.tail]
      rw [h2]
      simp
  refine ⟨?_, key.1, ?_⟩
  · unfold construct count; dsimp only
    rw [ctor_loop_count]; rfl
  · unfold get_next_block; dsimp only
    split
    · rename_i hnone
      have := key.1
      rw [hnone] at this
      simpa using this
    · rename_i tmp hsome
      have := key.1
      rw [hsome] at this
      simpa [count] using this

/-- Witness of C10: the state built by the constructor with `LoopAllocator`. -/
theorem count_steps_witness :
    Reachable Less (construct Less [[1, 4], [2]] : MergeReader Nat LoopAllocator) ∧
    (count (construct Less [[1, 4], [2]] : MergeReader Nat LoopAllocator) = 0 ∧
    count (get_next Less
        (construct Less [[1, 4], [2]] : MergeReader Nat LoopAllocator) none).2.2 =
      (if (get_next Less
          (construct Less [[1, 4], [2]] : MergeReader Nat LoopAllocator) none).1.isSome
        then count (construct Less [[1, 4], [2]] : MergeReader Nat LoopAllocator) + 1
        else count (construct Less [[1, 4], [2]] : MergeReader Nat LoopAllocator)) ∧
    count (get_next_block Less
        (construct Less [[1, 4], [2]] : MergeReader Nat LoopAllocator) 0 none).2.2.2 =
      (if (get_next_block Less
          (construct Less [[1, 4], [2]] : MergeReader Nat LoopAllocator) 0 none).1
        then count (construct Less [[1, 4], [2]] : MergeReader Nat LoopAllocator) + 1
        else count (construct Less [[1, 4], [2]] : MergeReader Nat LoopAllocator))) :=
  ⟨Reachable.construct _, count_steps Less [[1, 4], [2]] _ (Reachable.construct _) 0 none⟩

/-- C11. For any allocator and any sources of total length `L`: none of the first `L`
calls of `get_next(Block&, int*)` returns false (the loop does not end within `L`
calls), call `L + 1` returns false, exactly `L` blocks were written before it, and
`count()` is then `L`. -/
theorem emitted_count [BlockAllocator A] [Inhabited Block] (cmp : Block → Block → Bool)
    (sources : List (List Block)) (block : Block) (idx : Nat) :
    drain cmp sources.flatten.length (construct cmp sources : MergeReader Block A)
      block idx = none ∧
    ∃ res, drain cmp (sources.flatten.length + 1)
        (construct cmp sources : MergeReader Block A) block idx = some res ∧
      res.1.length = sources.flatten.length ∧ count res.2 = sources.flatten.length := by
  have h12 : SlotInv (construct cmp sources : MergeReader Block A) ∧ _ :=
    construct_slotInv cmp sources
  obtain ⟨h1, h2⟩ := h12
  obtain ⟨a, res, b, c, d⟩ := drain_remaining cmp sources.flatten.length
    (construct cmp sources : MergeReader Block A) block idx (construct_mapBuf cmp sources)
    h1 h2
  refine ⟨a, res, b, c, ?_⟩
  rw [d]
  have : count (construct cmp sources : MergeReader Block A) = 0 := by
    unfold construct count; dsimp only
    rw [ctor_loop_count]; rfl
  rw [this, Nat.zero_add]

/-- C12. A `LoopAllocator` constructed for `N` sources, `1 ≤ N < 2^31`, has `2 * N`
cells; after any sequence of `allocate()` and `free()` calls of which `k` are `allocate()`
calls, the next `allocate()` returns cell `k mod 2N`; the cell returned `d` allocations
later is a different one for `0 < d < 2N` and the same one for `d = 2N`; and `free()`
leaves the allocator as it is (it has no access to the cells). -/
theorem ring_allocator_order (N : Nat) (h1 : 1 ≤ N) (h2 : N < 2 ^ 31) :
    (LoopAllocator.create N)._size = 2 * N ∧
    (∀ ops, (LoopAllocator.allocate (LoopAllocator.run ops (LoopAllocator.create N))).1 =
      allocations ops % (2 * N)) ∧
    (∀ ops ops1, 0 < allocations ops1 → allocations ops1 < 2 * N →
      (LoopAllocator.allocate
        (LoopAllocator.run (ops ++ ops1) (LoopAllocator.create N))).1 ≠
      (LoopAllocator.allocate (LoopAllocator.run ops (LoopAllocator.create N))).1) ∧
    (∀ ops ops1, allocations ops1 = 2 * N →
      (LoopAllocator.allocate
        (LoopAllocator.run (ops ++ ops1) (LoopAllocator.create N))).1 =
      (LoopAllocator.allocate (LoopAllocator.run ops (LoopAllocator.create N))).1) ∧
    ∀ (a : LoopAllocator) (p : Nat), LoopAllocator.free a p = a := by
  have hsize : (LoopAllocator.create N)._size = 2 * N := by
    show (N * 2) % 2 ^ 32 = 2 * N
    rw [Nat.mod_eq_of_lt (by omega)]; omega
  have hret : ∀ ops,
      (LoopAllocator.allocate (LoopAllocator.run ops (LoopAllocator.create N))).1 =
        allocations ops % (2 * N) := by
    intro ops
    have := (LoopAllocator.run_spec (2 * N) (by omega) ops (LoopAllocator.create N) hsize
      (by show 0 < 2 * N; omega)).2
    show (LoopAllocator.run ops (LoopAllocator.create N))._pos = _
    rw [this]
    show (0 + allocations ops) % (2 * N) = _
    rw [Nat.zero_add]
  refine ⟨hsize, hret, fun ops ops1 hd1 hd2 => ?_, fun ops ops1 hd => ?_, fun a p => rfl⟩
  · rw [hret, hret, allocations_append]
    exact mod_ne_of_lt _ _ _ hd1 hd2
  · rw [hret, hret, allocations_append, hd, Nat.add_mod_right]

/-- Witness of C12: the allocator of a reader over three sources. -/
theorem ring_allocator_order_witness :
    1 ≤ 3 ∧ 3 < 2 ^ 31 ∧
    ((LoopAllocator.create 3)._size = 2 * 3 ∧
    (∀ ops, (LoopAllocator.allocate (LoopAllocator.run ops (LoopAllocator.create 3))).1 =
      allocations ops % (2 * 3)) ∧
    (∀ ops ops1, 0 < allocations ops1 → allocations ops1 < 2 * 3 →
      (LoopAllocator.allocate
        (LoopAllocator.run (ops ++ ops1) (LoopAllocator.create 3))).1 ≠
      (LoopAllocator.allocate (LoopAllocator.run ops (LoopAllocator.create 3))).1) ∧
    (∀ ops ops1, allocations ops1 = 2 * 3 →
      (LoopAllocator.allocate
        (LoopAllocator.run (ops ++ ops1) (LoopAllocator.create 3))).1 =
      (LoopAllocator.allocate (LoopAllocator.run ops (LoopAllocator.create 3))).1) ∧
    ∀ (a : LoopAllocator) (p : Nat), LoopAllocator.free a p = a) :=
  ⟨by decide, by decide, ring_allocator_order 3 (by decide) (by decide)⟩

/-- C13 (as stated, false). With one source `[1,2,3]` (so `2N - 1 = 1`) the first
`get_next(int*)` returns cell 0, which holds 1 when the call returns; the next call makes
one pool acquisition, which hands out cell 0 again, and the cell then holds 3. -/
theorem pool_reuse_counterexample :
    (get_next Less (construct Less [[1, 2, 3]] : MergeReader Nat LoopAllocator) none).1 =
      some 0 ∧
    (get_next Less (construct Less [[1, 2, 3]] : MergeReader Nat LoopAllocator)
      none).2.2.heap 0 = 1 ∧
    (get_next_iter Less 1
      (get_next Less (construct Less [[1, 2, 3]] : MergeReader Nat LoopAllocator)
        none).2.2)._count =
      (get_next Less (construct Less [[1, 2, 3]] : MergeReader Nat LoopAllocator)
        none).2.2._count + 1 ∧
    (get_next_iter Less 1
      (get_next Less (construct Less [[1, 2, 3]] : MergeReader Nat LoopAllocator)
        none).2.2).heap 0 = 3 := by
  decide

/-- C13 (amended). With `LoopAllocator` and `1 ≤ N < 2^31` sources, in a reachable state
with ring position `pos`: a cell `q` keeps its value while the `get_next(int*)` calls
that follow make at most `(q - pos) mod 2N` pool acquisitions (each call that returns a
block makes one acquisition and adds one to `count()`); and for the cell that a call
acquires for its refill, this number is `2N - 1` when the call returns. -/
theorem pool_reuse_window [Inhabited Block] (cmp : Block → Block → Bool)
    (s : MergeReader Block LoopAllocator) (hs : Reachable cmp s) (h1 : 1 ≤ s._nb_files)
    (h2 : s._nb_files < 2 ^ 31) :
    (∀ q m, (get_next_iter cmp m s)._count ≤
        s._count + (q + 2 * s._nb_files - s._allocator._pos) % (2 * s._nb_files) →
      (get_next_iter cmp m s).heap q = s.heap q) ∧
    ∀ idx, (get_next cmp s idx).1 ≠ none →
      (s._allocator._pos + 2 * s._nb_files - (get_next cmp s idx).2.2._allocator._pos) %
        (2 * s._nb_files) = 2 * s._nb_files - 1 := by
  have hinv := reachable_loopInv cmp s hs h1 h2
  refine ⟨fun q m hc => get_next_iter_heap cmp m s q hinv h2 hc, fun idx hne => ?_⟩
  have hsz : s._allocator._size = 2 * s._nb_files := hinv.1
  have hlt := hinv.2
  rcases get_next_step cmp s idx with ⟨hm, _⟩ | ⟨_, _, _, ha, _⟩
  · rw [get_next_nil cmp s idx hm] at hne
    exact absurd rfl hne
  · have hmod : ((s._allocator._pos + 1) % 2 ^ 32) % s._allocator._size =
        (s._allocator._pos + 1) % (2 * s._nb_files) := by
      rw [hsz, Nat.mod_eq_of_lt (show s._allocator._pos + 1 < 2 ^ 32 by omega)]
    have hpos : (get_next cmp s idx).2.2._allocator._pos =
        (s._allocator._pos + 1) % (2 * s._nb_files) := by
      rcases ha with ha | ha <;> rw [ha] <;> exact hmod
    rw [hpos]
    by_cases hc : s._allocator._pos + 1 < 2 * s._nb_files
    · rw [Nat.mod_eq_of_lt hc]
      have : s._allocator._pos + 2 * s._nb_files - (s._allocator._pos + 1) =
          2 * s._nb_files - 1 := by omega
      rw [this, Nat.mod_eq_of_lt (by omega)]
    · have hPM : s._allocator._pos + 1 = 2 * s._nb_files := by omega
      have h0 : (s._allocator._pos + 1) % (2 * s._nb_files) = 0 := by
        rw [hPM, Nat.mod_self]
      rw [h0, Nat.sub_zero, Nat.add_mod_right, Nat.mod_eq_of_lt (by omega)]
      omega

/-- Witness of C13 (amended): the state after the constructor over two sources. -/
theorem pool_reuse_window_witness :
    Reachable Less (construct Less [[1, 4], [2]] : MergeReader Nat LoopAllocator) ∧
    1 ≤ (construct Less [[1, 4], [2]] : MergeReader Nat LoopAllocator)._nb_files ∧
    (construct Less [[1, 4], [2]] : MergeReader Nat LoopAllocator)._nb_files < 2 ^ 31 ∧
    ((∀ q m, (get_next_iter Less m
          (construct Less [[1, 4], [2]] : MergeReader Nat LoopAllocator))._count ≤
        (construct Less [[1, 4], [2]] : MergeReader Nat LoopAllocator)._count +
          (q + 2 * (construct Less [[1, 4], [2]] : MergeReader Nat LoopAllocator)._nb_files -
            (construct Less [[1, 4], [2]] : MergeReader Nat LoopAllocator)._allocator._pos) %
            (2 * (construct Less [[1, 4], [2]] : MergeReader Nat LoopAllocator)._nb_files) →
      (get_next_iter Less m
          (construct Less [[1, 4], [2]] : MergeReader Nat LoopAllocator)).heap q =
        (construct Less [[1, 4], [2]] : MergeReader Nat LoopAllocator).heap q) ∧
    ∀ idx, (get_next Less
        (construct Less [[1, 4], [2]] : MergeReader Nat LoopAllocator) idx).1 ≠ none →
      ((construct Less [[1, 4], [2]] : MergeReader Nat LoopAllocator)._allocator._pos +
        2 * (construct Less [[1, 4], [2]] : MergeReader Nat LoopAllocator)._nb_files -
        (get_next Less (construct Less [[1, 4], [2]] : MergeReader Nat LoopAllocator)
          idx).2.2._allocator._pos) %
        (2 * (construct Less [[1, 4], [2]] : MergeReader Nat LoopAllocator)._nb_files) =
      2 * (construct Less [[1, 4], [2]] : MergeReader Nat LoopAllocator)._nb_files - 1) :=
  ⟨Reachable.construct _, by decide, by decide,
    pool_reuse_window Less _ (Reachable.construct _) (by decide) (by decide)⟩

/-- C14 (as stated, false). After the constructor over the single source `[1]` and one
extraction, `get_next(Block&, int*)` returns false, and the reader after the call is not
the reader before it: the member `_map_iter` went from the erased entry to `end()`. -/
theorem exhaustion_changes_map_iter :
    (get_next_block Less
      (get_next_block Less (construct Less [[1]] : MergeReader Nat LoopAllocator)
        0 none).2.2.2 0 none).1 = false ∧
    (get_next_block Less
      (get_next_block Less (construct Less [[1]] : MergeReader Nat LoopAllocator)
        0 none).2.2.2 0 none).2.2.2 ≠
      (get_next_block Less (construct Less [[1]] : MergeReader Nat LoopAllocator)
        0 none).2.2.2 :=
  ⟨by decide, fun h => absurd (congrArg MergeReader._map_iter h) (by decide)⟩

/-- C14 (amended). For any allocator, in a reachable state: `get_next(Block&, int*)`
returns false exactly when `_map` is empty, which is exactly when every slot of
`_read_buf` is null.  In that case the call leaves the caller's block and index as they
are and changes no member of the reader other than `_map_iter` (set to `end()`), so
`count()` is unchanged; and on the reader it leaves, `see_next` and both `get_next`
again report that nothing remains and leave that same reader. -/
theorem exhaustion_noop [BlockAllocator A] [Inhabited Block] (cmp : Block → Block → Bool)
    (s : MergeReader Block A) (hs : Reachable cmp s) (block : Block) (idx : Option Nat) :
    ((get_next_block cmp s block idx).1 = false ↔ s._map = []) ∧
    (s._map = [] ↔ ∀ i, s._read_buf.getD i none = none) ∧
    (s._map = [] →
      get_next_block cmp s block idx = (false, block, idx, { s with _map_iter := none }) ∧
      count (get_next_block cmp s block idx).2.2.2 = count s ∧
      ∀ (block1 : Block) (idx1 : Option Nat),
        see_next { s with _map_iter := none } = (none, { s with _map_iter := none }) ∧
        get_next cmp { s with _map_iter := none } idx1 =
          (none, idx1, { s with _map_iter := none }) ∧
        get_next_block cmp { s with _map_iter := none } block1 idx1 =
          (false, block1, idx1, { s with _map_iter := none })) := by
  have hmb := hs.mapBuf
  have hsl := hs.slotInv
  refine ⟨⟨fun h => ?_, fun h => ?_⟩, ⟨fun h i => ?_, fun h => ?_⟩, fun h => ?_⟩
  · cases hm : s._map with
    | nil => rfl
    | cons e t =>
      have := (get_next_block_fst cmp s block idx).1
      rw [(get_next_cons cmp s idx hmb e t hm).1, h] at this
      exact absurd this (by simp)
  · rw [get_next_block_nil cmp s block idx h]
  · cases hp : s._read_buf.getD i none with
    | none => rfl
    | some p =>
      have := hsl.1 i p hp
      rw [h] at this
      exact absurd this (List.not_mem_nil _)
  · cases hm : s._map with
    | nil => rfl
    | cons e t =>
      have := hmb.2 e (by rw [hm]; exact List.mem_cons_self _ _)
      rw [h e.2] at this
      exact absurd this (by simp)
  · have hg := get_next_block_nil cmp s block idx h
    refine ⟨hg, by rw [hg]; rfl, fun block1 idx1 => ⟨?_, ?_, ?_⟩⟩
    · unfold see_next; dsimp only; rw [h]; rfl
    · exact get_next_nil cmp { s with _map_iter := none } idx1 h
    · exact get_next_block_nil cmp { s with _map_iter := none } block1 idx1 h

/-- Witness of C14 (amended): the state after the constructor over one empty source. -/
theorem exhaustion_noop_witness :
    Reachable Less (construct Less [[]] : MergeReader Nat LoopAllocator) ∧
    (((get_next_block Less (construct Less [[]] : MergeReader Nat LoopAllocator)
        5 (some 7)).1 = false ↔
      (construct Less [[]] : MergeReader Nat LoopAllocator)._map = []) ∧
    ((construct Less [[]] : MergeReader Nat LoopAllocator)._map = [] ↔
      ∀ i, (construct Less [[]] : MergeReader Nat LoopAllocator)._read_buf.getD i none =
        none) ∧
    ((construct Less [[]] : MergeReader Nat LoopAllocator)._map = [] →
      get_next_block Less (construct Less [[]] : MergeReader Nat LoopAllocator) 5 (some 7) =
        (false, 5, some 7,
          { (construct Less [[]] : MergeReader Nat LoopAllocator) with _map_iter := none }) ∧
      count (get_next_block Less (construct Less [[]] : MergeReader Nat LoopAllocator)
        5 (some 7)).2.2.2 = count (construct Less [[]] : MergeReader Nat LoopAllocator) ∧
      ∀ (block1 : Nat) (idx1 : Option Nat),
        see_next
          { (construct Less [[]] : MergeReader Nat LoopAllocator) with _map_iter := none } =
          (none,
            { (construct Less [[]] : MergeReader Nat LoopAllocator) with
              _map_iter := none }) ∧
        get_next Less
          { (construct Less [[]] : MergeReader Nat LoopAllocator) with _map_iter := none }
          idx1 =
          (none, idx1,
            { (construct Less [[]] : MergeReader Nat LoopAllocator) with
              _map_iter := none }) ∧
        get_next_block Less
          { (construct Less [[]] : MergeReader Nat LoopAllocator) with _map_iter := none }
          block1 idx1 =
          (false, block1, idx1,
            { (construct Less [[]] : MergeReader Nat LoopAllocator) with
              _map_iter := none }))) :=
  ⟨Reachable.construct _, exhaustion_noop Less _ (Reachable.construct _) 5 (some 7)⟩

/-- C15. For any allocator, in every state reached from the constructor over `sources` by
`get_next` and `see_next` calls: the entries of `_map` have pairwise different indices,
the entry of index `i` has the pointer of slot `_read_buf[i]` for its key, every slot
that is not null has its entry, so the number of entries is the number of buffered slots,
and it is at most the number of sources. -/
theorem selection_invariant [BlockAllocator A] [Inhabited Block]
    (cmp : Block → Block → Bool) (sources : List (List Block)) (out : List (Block × Nat))
    (s : MergeReader Block A) (ht : Trace cmp sources out s) :
    (s._map.map Prod.snd).Nodup ∧
    (∀ e ∈ s._map, s._read_buf.getD e.2 none = some e.1) ∧
    (∀ i p, s._read_buf.getD i none = some p → (p, i) ∈ s._map) ∧
    s._map.length = buffered s ∧ s._map.length ≤ sources.length := by
  have hr := trace_reachable cmp sources out s ht
  have hmb := hr.mapBuf
  have hsl := hr.slotInv
  have hlen := map_length_eq_buffered s._read_buf s._map hmb.1 hmb.2 hsl.1
  refine ⟨hmb.1, hmb.2, hsl.1, hlen, ?_⟩
  rw [hlen, ← trace_nb_files cmp sources out s ht, ← hsl.2.2]
  exact List.length_filter_le _ _

/-- Witness of C15: the state after the constructor over two sources. -/
theorem selection_invariant_witness :
    Trace Less [[1, 4], [2]] []
      (construct Less [[1, 4], [2]] : MergeReader Nat LoopAllocator) ∧
    (((construct Less [[1, 4], [2]] : MergeReader Nat LoopAllocator)._map.map
      Prod.snd).Nodup ∧
    (∀ e ∈ (construct Less [[1, 4], [2]] : MergeReader Nat LoopAllocator)._map,
      (construct Less [[1, 4], [2]] : MergeReader Nat LoopAllocator)._read_buf.getD e.2
        none = some e.1) ∧
    (∀ i p, (construct Less [[1, 4], [2]] : MergeReader Nat LoopAllocator)._read_buf.getD i
        none = some p →
      (p, i) ∈ (construct Less [[1, 4], [2]] : MergeReader Nat LoopAllocator)._map) ∧
    (construct Less [[1, 4], [2]] : MergeReader Nat LoopAllocator)._map.length =
      buffered (construct Less [[1, 4], [2]] : MergeReader Nat LoopAllocator) ∧
    (construct Less [[1, 4], [2]] : MergeReader Nat LoopAllocator)._map.length ≤
      ([[1, 4], [2]] : List (List Nat)).length) :=
  ⟨Trace.construct, selection_invariant Less [[1, 4], [2]] [] _ Trace.construct⟩

/-- C16. With `NewAllocator`, a strict weak order and any sources, in a state reached
with the emissions `out`: when `get_next(Block&, int*)` returns true, the block `b` it
writes and the index `i` it reports are such that `b` is the first block of source `i`
not emitted before, and no source has a first not yet emitted block strictly less than
`b`; `get_next(int*)` returns a pointer to the same block with the same index; and after
the call slot `i` buffers the next block of source `i`, or is null when source `i` has
no further block. -/
theorem step_emits_minimum [Inhabited Block] (cmp : Block → Block → Bool)
    (hswo : StrictWeakOrder cmp) (sources : List (List Block)) (out : List (Block × Nat))
    (s : MergeReader Block NewAllocator) (ht : Trace cmp sources out s) (block : Block)
    (idx : Option Nat) (hok : (get_next_block cmp s block idx).1 = true) :
    ∃ i b rest, MinimalHead cmp sources out i b rest ∧
      (get_next_block cmp s block idx).2.1 = b ∧
      (get_next_block cmp s block idx).2.2.1 = idx.map (fun _ => i) ∧
      (∃ p, (get_next cmp s idx).1 = some p ∧ (get_next cmp s idx).2.2.heap p = b ∧
        (get_next cmp s idx).2.1 = idx.map (fun _ => i)) ∧
      SlotBuffers (get_next_block cmp s block idx).2.2.2 i rest := by
  obtain ⟨hinv, hwf, hsorted, hcont⟩ := trace_new cmp sources out s ht
  obtain hm | ⟨e, t, hm⟩ : s._map = [] ∨ ∃ e t, s._map = e :: t := by
    cases s._map with
    | nil => exact Or.inl rfl
    | cons e t => exact Or.inr ⟨e, t, rfl⟩
  · rw [get_next_block_nil cmp s block idx hm] at hok
    exact absurd hok (by simp)
  obtain ⟨_, a2, a3, _, _, _⟩ := get_next_block_new cmp s block idx hinv e t hm
  obtain ⟨b1, b2, _, _, b5, _⟩ := get_next_new cmp s idx hinv e t hm
  have hh : heads s = (s.heap e.1, e.2) :: t.map fun x => (s.heap x.1, x.2) := by
    unfold heads; rw [hm]; rfl
  have hnd := hwf.1
  rw [hh, List.map_cons, List.nodup_cons] at hnd
  have hsrt := hsorted hswo
  rw [hh] at hsrt
  have hce : content (heads s) s._files e.2 = s.heap e.1 :: s._files.getD e.2 [] := by
    rw [hh, content_cons, if_pos rfl, content_of_not_mem _ _ _ hnd.1]
  refine ⟨e.2, s.heap e.1, s._files.getD e.2 [], ⟨?_, ?_⟩, a2, a3, ⟨e.1, b1, b5, b2⟩, ?_⟩
  · rw [← hcont e.2, hce]
  · intro j c1 rest1 hj
    rw [← hcont j] at hj
    have hcj := List.append_cancel_left hj
    have hjm : j ∈ (heads s).map Prod.snd := by
      by_contra hn
      rw [content_of_not_mem _ _ _ hn, hwf.2 j hn] at hcj
      exact absurd hcj (by simp)
    obtain ⟨y, hy, hyj⟩ := List.mem_map.1 hjm
    have hcy := content_of_mem (heads s) s._files y hwf.1 hy
    rw [hyj, hcj] at hcy
    simp only [List.cons.injEq] at hcy
    rw [hcy.1]
    rw [hh] at hy
    rcases List.mem_cons.1 hy with h | h
    · rw [h]; exact hswo.irrefl _
    · exact (List.pairwise_cons.1 hsrt).1 y h
  · have hslot := get_next_slot cmp s idx hinv.1 e t hm
    obtain ⟨_, _, c3, _, _, c6, _⟩ := get_next_block_state cmp s block idx
    unfold SlotBuffers at hslot ⊢
    rw [c3, c6]
    exact hslot

/-- Witness of C16: the state after the constructor over two sources. -/
theorem step_emits_minimum_witness :
    StrictWeakOrder Less ∧
    Trace Less [[3, 1], [2]] []
      (construct Less [[3, 1], [2]] : MergeReader Nat NewAllocator) ∧
    (get_next_block Less (construct Less [[3, 1], [2]] : MergeReader Nat NewAllocator)
      0 (some 0)).1 = true ∧
    ∃ i b rest, MinimalHead Less [[3, 1], [2]] [] i b rest ∧
      (get_next_block Less (construct Less [[3, 1], [2]] : MergeReader Nat NewAllocator)
        0 (some 0)).2.1 = b ∧
      (get_next_block Less (construct Less [[3, 1], [2]] : MergeReader Nat NewAllocator)
        0 (some 0)).2.2.1 = (some 0).map (fun _ => i) ∧
      (∃ p, (get_next Less (construct Less [[3, 1], [2]] : MergeReader Nat NewAllocator)
          (some 0)).1 = some p ∧
        (get_next Less (construct Less [[3, 1], [2]] : MergeReader Nat NewAllocator)
          (some 0)).2.2.heap p = b ∧
        (get_next Less (construct Less [[3, 1], [2]] : MergeReader Nat NewAllocator)
          (some 0)).2.1 = (some 0).map (fun _ => i)) ∧
      SlotBuffers
        (get_next_block Less (construct Less [[3, 1], [2]] : MergeReader Nat NewAllocator)
          0 (some 0)).2.2.2 i rest :=
  ⟨Less_strictWeakOrder, Trace.construct, by decide,
    step_emits_minimum Less Less_strictWeakOrder [[3, 1], [2]] [] _ Trace.construct 0
      (some 0) (by decide)⟩

/-- C17. First, with a strict weak order, `insert` puts a new entry behind every entry of
a sorted map whose key is not greater, so behind all entries with an equivalent key, and
in front of all entries with a greater key.  Second, with `NewAllocator` and two sources
whose blocks are all pairwise equivalent, the indices reported by the extraction loop are
`altIdx 0 1`: 0, 1, 0, 1, ... as long as both sources have blocks, so the `k`-th reported
index is `k mod 2` for `k` below twice the length of the shorter source.  Third, the
sources `[1,1]` and `[1]` give the indices 0, 1, 0. -/
theorem tie_break_refill [Inhabited Block] (cmp : Block → Block → Bool)
    (hswo : StrictWeakOrder cmp) (heap : Nat → Block) (e : Nat × Nat)
    (l : List (Nat × Nat))
    (hl : l.Pairwise fun a b => cmp (heap b.1) (heap a.1) = false)
    (s0 s1 : List Block) (heq : ∀ a ∈ s0 ++ s1, ∀ b ∈ s0 ++ s1, cmp a b = false)
    (block : Block) (idx : Nat) :
    (∃ l1 l2, l = l1 ++ l2 ∧ map_insert cmp heap e l = l1 ++ e :: l2 ∧
      (∀ x ∈ l1, cmp (heap e.1) (heap x.1) = false) ∧
      (∀ x ∈ l2, cmp (heap e.1) (heap x.1) = true)) ∧
    ((∃ res, drain cmp ([s0, s1].flatten.length + 1)
        (construct cmp [s0, s1] : MergeReader Block NewAllocator) block idx = some res) ∧
      ∀ fuel res,
        drain cmp fuel (construct cmp [s0, s1] : MergeReader Block NewAllocator)
          block idx = some res →
        res.1.map Prod.snd = altIdx 0 1 s0.length s1.length ∧
        ∀ k, k < 2 * min s0.length s1.length → (res.1.map Prod.snd).getD k 0 = k % 2) ∧
    ((drain Less 4 (construct Less [[1, 1], [1]] : MergeReader Nat NewAllocator)
        0 0).map fun r => r.1.map Prod.snd) = some [0, 1, 0] := by
  refine ⟨map_insert_position cmp hswo heap e l hl,
    ⟨drain_new_total cmp [s0, s1] block idx, fun fuel res h => ?_⟩, by decide⟩
  have h1 := two_sources cmp s0 s1 heq fuel res.1
    (drain_new_out cmp [s0, s1] block idx fuel res h)
  refine ⟨h1, fun k hk => ?_⟩
  rw [h1, altIdx_getD 0 1 _ _ k hk]
  have : k % 2 = 0 ∨ k % 2 = 1 := by omega
  rcases this with h | h <;> simp [h]

/-- Witness of C17: a map with one entry of key 1 and a new entry of key 1, and the
sources `[1,1]` and `[1]`. -/
theorem tie_break_refill_witness :
    StrictWeakOrder Less ∧
    ([(0, 0)] : List (Nat × Nat)).Pairwise
      (fun a b => Less ((fun _ => 1) b.1) ((fun _ => 1) a.1) = false) ∧
    (∀ a ∈ [1, 1] ++ [1], ∀ b ∈ [1, 1] ++ [1], Less a b = false) ∧
    ((∃ l1 l2, [(0, 0)] = l1 ++ l2 ∧
        map_insert Less (fun _ => 1) (1, 1) [(0, 0)] = l1 ++ (1, 1) :: l2 ∧
      (∀ x ∈ l1, Less ((fun _ => 1) (1, 1).1) ((fun _ => 1) x.1) = false) ∧
      (∀ x ∈ l2, Less ((fun _ => 1) (1, 1).1) ((fun _ => 1) x.1) = true)) ∧
    ((∃ res, drain Less ([[1, 1], [1]].flatten.length + 1)
        (construct Less [[1, 1], [1]] : MergeReader Nat NewAllocator) 0 0 = some res) ∧
      ∀ fuel res,
        drain Less fuel (construct Less [[1, 1], [1]] : MergeReader Nat NewAllocator)
          0 0 = some res →
        res.1.map Prod.snd = altIdx 0 1 [1, 1].length [1].length ∧
        ∀ k, k < 2 * min [1, 1].length [1].length →
          (res.1.map Prod.snd).getD k 0 = k % 2) ∧
    ((drain Less 4 (construct Less [[1, 1], [1]] : MergeReader Nat NewAllocator)
        0 0).map fun r => r.1.map Prod.snd) = some [0, 1, 0]) :=
  ⟨Less_strictWeakOrder, by simp, by decide,
    tie_break_refill Less Less_strictWeakOrder (fun _ => 1) (1, 1) [(0, 0)] (by simp)
      [1, 1] [1] (by decide) 0 0⟩

/-- C18. With `NewAllocator`, in every state reached by the constructor followed by
`get_next(Block&, int*)` calls only: the number of cells acquired with `allocate()` is
the number of cells passed to `free()` plus the number of slots that hold a buffered
block; no cell was freed twice, and only acquired cells were freed; so when every slot is
null, every acquired cell has been freed. -/
theorem pool_balance [Inhabited Block] (cmp : Block → Block → Bool)
    (s : MergeReader Block NewAllocator) (hs : ReachableInto cmp s) :
    s._allocator.next = s._allocator.freed.length + buffered s ∧
    s._allocator.freed.Nodup ∧
    (∀ p ∈ s._allocator.freed, p < s._allocator.next) ∧
    ((∀ i, s._read_buf.getD i none = none) →
      s._allocator.next = s._allocator.freed.length) := by
  obtain ⟨b1, b2, _, _, b5⟩ := reachableInto_bal cmp s hs
  have hr := reachableInto_reachable cmp s hs
  have hmb := hr.mapBuf
  have hsl := hr.slotInv
  have hlen := map_length_eq_buffered s._read_buf s._map hmb.1 hmb.2 hsl.1
  unfold buffered
  refine ⟨by rw [b5, hlen], b1, b2, fun hall => ?_⟩
  have hm : s._map = [] := by
    cases hm : s._map with
    | nil => rfl
    | cons e t =>
      have := hmb.2 e (by rw [hm]; exact List.mem_cons_self _ _)
      rw [hall e.2] at this
      exact absurd this (by simp)
  rw [b5, hm]
  rfl

/-- Witness of C18: the state after the constructor over two sources and one call of
`get_next(Block&, int*)`. -/
theorem pool_balance_witness :
    ReachableInto Less
      (get_next_block Less (construct Less [[1, 4], [2]] : MergeReader Nat NewAllocator)
        0 none).2.2.2 ∧
    ((get_next_block Less (construct Less [[1, 4], [2]] : MergeReader Nat NewAllocator)
        0 none).2.2.2._allocator.next =
      (get_next_block Less (construct Less [[1, 4], [2]] : MergeReader Nat NewAllocator)
        0 none).2.2.2._allocator.freed.length +
      buffered (get_next_block Less
        (construct Less [[1, 4], [2]] : MergeReader Nat NewAllocator) 0 none).2.2.2 ∧
    (get_next_block Less (construct Less [[1, 4], [2]] : MergeReader Nat NewAllocator)
        0 none).2.2.2._allocator.freed.Nodup ∧
    (∀ p ∈ (get_next_block Less
        (construct Less [[1, 4], [2]] : MergeReader Nat NewAllocator)
        0 none).2.2.2._allocator.freed,
      p < (get_next_block Less
        (construct Less [[1, 4], [2]] : MergeReader Nat NewAllocator)
        0 none).2.2.2._allocator.next) ∧
    ((∀ i, (get_next_block Less
        (construct Less [[1, 4], [2]] : MergeReader Nat NewAllocator)
        0 none).2.2.2._read_buf.getD i none = none) →
      (get_next_block Less (construct Less [[1, 4], [2]] : MergeReader Nat NewAllocator)
        0 none).2.2.2._allocator.next =
      (get_next_block Less (construct Less [[1, 4], [2]] : MergeReader Nat NewAllocator)
        0 none).2.2.2._allocator.freed.length)) :=
  ⟨ReachableInto.get_next_block _ _ _ (ReachableInto.construct _),
    pool_balance Less _ (ReachableInto.get_next_block _ _ _ (ReachableInto.construct _))⟩

/-- C19 (the code departs from it). The destructor leaves the allocator as it is: it
calls `free` for no slot.  After the constructor over the source `[1,2]` with
`NewAllocator`, one cell is acquired and buffered, none is freed, and this is still so
after the destructor. -/
theorem destructor_frees_nothing :
    (∀ s : MergeReader Nat NewAllocator, (destructor s)._allocator = s._allocator) ∧
    buffered (construct Less [[1, 2]] : MergeReader Nat NewAllocator) = 1 ∧
    (construct Less [[1, 2]] : MergeReader Nat NewAllocator)._allocator =
      { next := 1, freed := [] } ∧
    (destructor (construct Less [[1, 2]] : MergeReader Nat NewAllocator))._allocator =
      { next := 1, freed := [] } := by
  refine ⟨fun s => rfl, by decide, by decide, by decide⟩

/-- C20 (the code departs from it). With `LoopAllocator` and the sources `[5]` and
`[1,2,3,4]`, after the constructor and three `get_next` calls both slots hold cell 0: the
third refill of slot 1 was given the cell that slot 0 still buffers. -/
theorem loop_allocator_aliases :
    (get_next_iter Less 3
      (construct Less [[5], [1, 2, 3, 4]] : MergeReader Nat LoopAllocator))._read_buf =
      [some 0, some 0] ∧
    (get_next_iter Less 2
      (construct Less [[5], [1, 2, 3, 4]] : MergeReader Nat LoopAllocator))._read_buf =
      [some 0, some 3] ∧
    (get_next_iter Less 2
      (construct Less [[5], [1, 2, 3, 4]] : MergeReader Nat LoopAllocator))._allocator._pos
      = 0 := by
  refine ⟨by decide, by decide, by decide⟩

end MergeReaderHpp
